import Mathlib

/-!
# goference: a forward-chaining rule engine (package `engine`)

A shallow embedding of `src/engine/engine.go`.

Modelling conventions

* Go pointers to facts are `FactPtr`: an address plus the (immutable) fact
  stored there.  Pointer comparison is comparison of addresses.  Address `0`
  is `&engine.nullFact`; every `&fct` / `&f` of the source takes a fresh
  address from `Engine.nextAddr`.
* Go pointers to tokens are indices into `Engine.store`; a token is never
  freed, `pNode.tokens` holds the pointers of the live ones.
* Alpha nodes are addressed by attribute and position in
  `alphaNetwork[attribute]`, beta nodes by production and position.
* A Go `string` is a `String`: a sequence of Unicode scalar values, that is,
  a Go string that is valid UTF-8.  Comparison of strings is `<` on `String`
  (by code points), which is the byte-wise order of Go on the UTF-8 bytes.
* `error` results are values of `Option Err` (`none` is Go's `nil`).
  A run-time crash of the Go program (nil dereference, index out of range,
  failed type assertion) is the outcome `Res.crash`.
* The recursion `retract → removeFact → damage → retract` is bounded by a
  fuel argument; `Res.outOfFuel` is the outcome when it is exhausted.
* Go maps are association lists in order of first insertion.  A `range` over
  a map (the two loops of `inject` over `testNetwork`) visits the entries in
  an order the runtime picks: `rangeMap` takes the next pending choice from
  `Engine.mapOrders`, and every permutation is a possible choice.
-/

namespace engine

/-! ## Values and comparison -/

/-- The comparison operators of the source (`type Operator int`). -/
inductive Operator where
  | EQ | GE | GT | LE | LT | NE
deriving DecidableEq, Repr

/-- The signed integer kinds of Go's `reflect` that the source's `match` accepts. -/
inductive IntKind where
  | Int | Int8 | Int16 | Int32 | Int64
deriving DecidableEq, Repr

/-- The floating-point kinds of Go's `reflect` that the source's `match` accepts. -/
inductive FloatKind where
  | Float32 | Float64
deriving DecidableEq, Repr

/-- Go's `reflect.Kind`, as far as `match` distinguishes kinds. -/
inductive Kind where
  | Invalid
  | String
  | Int (k : IntKind)
  | Float (k : FloatKind)
  | Other (n : Nat)
deriving DecidableEq, Repr

/-- The content of an `interface{}` holding a scalar.  `int k v` is a signed
integer of kind `k` with value `v` (what `reflect.Value.Int` returns);
`float k bits` is a float of kind `k` whose promotion to `float64` (what
`reflect.Value.Float` returns) has the IEEE-754 binary64 bit pattern `bits`;
`other n` is a value of any further kind (bool, unsigned, ...), numbered `n`. -/
inductive Value where
  | nil
  | str (s : String)
  | int (k : IntKind) (v : Int)
  | float (k : FloatKind) (bits : Nat)
  | other (n : Nat)
deriving DecidableEq, Repr

/-- The kind `reflect.ValueOf(v).Kind()`. -/
def Value.kind : Value → Kind
  | .nil => .Invalid
  | .str _ => .String
  | .int k _ => .Int k
  | .float k _ => .Float k
  | .other n => .Other n

/-- Whether a binary64 bit pattern is a NaN. -/
def f64IsNaN (b : Nat) : Bool :=
  (b / 2 ^ 52) % 2 ^ 11 == 2047 && b % 2 ^ 52 != 0

/-- A key that orders the non-NaN binary64 bit patterns as IEEE-754 does:
sign-magnitude read as a signed integer (both zeros get key `0`). -/
def f64Key (b : Nat) : Int :=
  if (b / 2 ^ 63) % 2 == 1 then -((b % 2 ^ 63 : Nat) : Int) else ((b % 2 ^ 63 : Nat) : Int)

/-- Go's `==` on `float64`. -/
def f64Eq (a b : Nat) : Bool := !f64IsNaN a && !f64IsNaN b && f64Key a == f64Key b

/-- Go's `<` on `float64`. -/
def f64Lt (a b : Nat) : Bool := !f64IsNaN a && !f64IsNaN b && decide (f64Key a < f64Key b)

/-- Go's `<=` on `float64`. -/
def f64Le (a b : Nat) : Bool := !f64IsNaN a && !f64IsNaN b && decide (f64Key a ≤ f64Key b)

/-- The errors the source builds with `fmt.Errorf`, one constructor per site. -/
inductive Err where
  | valueVariableNonEQ (op : Operator)
  | cannotRetractNil
  | removeFactRange
  | leftActivateNilToken
  | injectInvalidToken
  | damageNil
  | removeTokenNotFound
  | inferenceObjectId
  | matchNilNil (op : Operator)
  | matchKinds (l r : Kind) (op : Operator)
  | matchCannotCompare (k : Kind)
deriving DecidableEq, Repr

/-- The source's `match(left, op, right)`: result and error. -/
def matchOp (left : Value) (op : Operator) (right : Value) : Bool × Option Err :=
  if left = .nil ∧ right = .nil then
    match op with
    | .EQ => (true, none)
    | .NE => (false, none)
    | _ => (false, some (.matchNilNil op))
  else if left.kind ≠ right.kind then
    match op with
    | .EQ => (false, none)
    | .NE => (true, none)
    | _ => (false, some (.matchKinds left.kind right.kind op))
  else
    match left, right with
    | .str l, .str r =>
      match op with
      | .EQ => (decide (l = r), none)
      | .GE => (decide (r ≤ l), none)
      | .GT => (decide (r < l), none)
      | .LE => (decide (l ≤ r), none)
      | .LT => (decide (l < r), none)
      | .NE => (decide (l ≠ r), none)
    | .int _ l, .int _ r =>
      match op with
      | .EQ => (decide (l = r), none)
      | .GE => (decide (r ≤ l), none)
      | .GT => (decide (r < l), none)
      | .LE => (decide (l ≤ r), none)
      | .LT => (decide (l < r), none)
      | .NE => (decide (l ≠ r), none)
    | .float _ l, .float _ r =>
      match op with
      | .EQ => (f64Eq l r, none)
      | .GE => (f64Le r l, none)
      | .GT => (f64Lt r l, none)
      | .LE => (f64Le l r, none)
      | .LT => (f64Lt l r, none)
      | .NE => (!f64Eq l r, none)
    | _, _ => (false, some (.matchCannotCompare left.kind))

/-! ## Data model -/

/-- The source's `Fact`. -/
structure Fact where
  ObjectId : String
  Attribute : String
  Value : Value
deriving DecidableEq, Repr

/-- A non-nil `*Fact`: an address and the fact stored there. -/
structure FactPtr where
  addr : Nat
  fact : Fact
deriving DecidableEq, Repr

/-- Go's `==` on two `*Fact` (`none` is the nil pointer). -/
def ptrEq : Option FactPtr → Option FactPtr → Bool
  | none, none => true
  | some p, some q => p.addr == q.addr
  | _, _ => false

/-- What an `interface{}` field of a rule holds: a `Variable` or a scalar. -/
inductive Term where
  | var (name : String)
  | lit (v : Value)
deriving DecidableEq, Repr

/-- The source's `Condition`. -/
structure Condition where
  NotExists : Bool
  ObjectId : Term
  Attribute : String
  Comparator : Operator
  Value : Term
deriving DecidableEq, Repr

/-- The source's `Inference`. -/
structure Inference where
  ObjectId : Term
  Attribute : String
  Value : Term
deriving DecidableEq, Repr

/-- The source's `Rule`. -/
structure Rule where
  Id : String
  LHS : List Condition
  RHS : List Inference
deriving DecidableEq, Repr

/-- The source's `betaTest`. -/
structure betaTest where
  tokenIndex : Nat
  objectElseValue : Bool
deriving DecidableEq, Repr

/-- A `*alphaNode`: the attribute it is registered under and its position in
`alphaNetwork[attribute]`. -/
structure AlphaRef where
  attr : String
  pos : Nat
deriving DecidableEq, Repr

/-- A `*betaNode`: its production's position in `engine.productions` and its
position in that production's `betaNodes`. -/
structure BetaRef where
  prod : Nat
  pos : Nat
deriving DecidableEq, Repr

/-- The source's `betaNode`. -/
structure betaNode where
  index : Nat
  alphaNot : Bool
  objectVariable : String
  objectIndex : Nat
  valueVariable : String
  valueIndex : Nat
  parentNode : AlphaRef
  product : Nat
deriving DecidableEq, Repr

/-- The source's `alphaNode` (`parentEngine` is the one engine). -/
structure alphaNode where
  attributeName : String
  objConstraint : String
  comparator : Operator
  compareTo : Value
  facts : List FactPtr
  betaNodes : List BetaRef
deriving DecidableEq, Repr

/-- The source's `token`; `containedBy` is the production's position. -/
structure token where
  containedBy : Nat
  incoming : List (Option FactPtr)
  outgoing : List (Option FactPtr)
deriving DecidableEq, Repr

/-- The source's `pNode`; `tokens` holds token pointers, `testNetwork` is the
map from variable name to its test entries, kept in order of first insertion. -/
structure pNode where
  ruleId : String
  betaNodes : List betaNode
  tokens : List Nat
  inferences : List Inference
  testNetwork : List (String × List betaTest)
deriving DecidableEq, Repr

/-- The source's `Engine`, with the token store and the address counter of
the pointer model.  The agenda is the `container/list`, front first.
`mapOrders` is not a field of the source: it holds the choices the Go runtime
makes for the `range` loops over a map that are still to come (one number per
loop, see `rangeMap`), so that a run is a function of the engine. -/
structure Engine where
  agenda : List FactPtr
  alphaNetwork : List (String × List alphaNode)
  nullFact : Fact
  productions : List pNode
  store : List token
  nextAddr : Nat
  mapOrders : List Nat
deriving DecidableEq, Repr

/-- The zero value `Engine{}`. -/
def Engine.new : Engine :=
  { agenda := [], alphaNetwork := [], nullFact := ⟨"", "", .nil⟩, productions := [],
    store := [], nextAddr := 1, mapOrders := [] }

/-- Why the Go program crashed. -/
inductive Crash where
  | nilDeref
  | indexRange
  | typeAssert
deriving DecidableEq, Repr

/-- Outcome of running a piece of the engine. -/
inductive Res (α : Type) where
  | ret (a : α) (e : Engine)
  | crash (c : Crash)
  | outOfFuel
deriving DecidableEq, Repr

/-- Code that reads and updates the engine. -/
def M (α : Type) : Type := Engine → Res α

/-- Sequencing: a crash or the exhaustion of fuel ends the run. -/
def M.bind {α β : Type} (m : M α) (f : α → M β) : M β := fun e =>
  match m e with
  | .ret a e1 => f a e1
  | .crash c => .crash c
  | .outOfFuel => .outOfFuel

instance : Monad M where
  pure a := fun e => .ret a e
  bind := M.bind

/-- Read the engine. -/
def getEngine : M Engine := fun e => .ret e e

/-- Update the engine. -/
def modifyEngine (f : Engine → Engine) : M Unit := fun e => .ret () (f e)

/-- The Go program crashes. -/
def crash {α : Type} (c : Crash) : M α := fun _ => .crash c

/-- How one pass through a loop body ends: go on with the next element,
`break`, or `return` from the enclosing function. -/
inductive Flow (β α : Type) where
  | next (b : β)
  | brk (b : β)
  | retn (a : α)

/-- A Go `for` over the indices `i, i+1, ..., i+n-1`, threading the local
variables `b`.  The result tells whether the body returned. -/
def forRange {β α : Type} (body : Nat → β → M (Flow β α)) : Nat → Nat → β → M (β × Option α)
  | 0, _, b => pure (b, none)
  | n + 1, i, b => do
    match (← body i b) with
    | .next b1 => forRange body n (i + 1) b1
    | .brk b1 => pure (b1, none)
    | .retn a => pure (b, some a)

/-- A Go `for _, x := range xs` over a slice whose elements the body does not
change. -/
def forList {γ β α : Type} (body : γ → β → M (Flow β α)) : List γ → β → M (β × Option α)
  | [], b => pure (b, none)
  | x :: xs, b => do
    match (← body x b) with
    | .next b1 => forList body xs b1
    | .brk b1 => pure (b1, none)
    | .retn a => pure (b, some a)

/-- The slice operation of `removeFact` and `removeToken`: overwrite position
`i` with the last element and drop the last element. -/
def swapRemove {α : Type} (l : List α) (i : Nat) : List α :=
  match l.getLast? with
  | none => l
  | some x => (l.set i x).dropLast

/-- The map lookup `engine.alphaNetwork[attr]` (the nil slice when absent). -/
def lookupAlpha : List (String × List alphaNode) → String → List alphaNode
  | [], _ => []
  | (k, v) :: rest, attr => if k = attr then v else lookupAlpha rest attr

/-- Whether `attr` is a key of the alpha network. -/
def hasAlpha : List (String × List alphaNode) → String → Bool
  | [], _ => false
  | (k, _) :: rest, attr => if k = attr then true else hasAlpha rest attr

/-- Replace the slice stored under `attr`. -/
def updateAlpha (f : List alphaNode → List alphaNode) :
    List (String × List alphaNode) → String → List (String × List alphaNode)
  | [], _ => []
  | (k, v) :: rest, attr =>
    if k = attr then (k, f v) :: rest else (k, v) :: updateAlpha f rest attr

/-- The map lookup `node.testNetwork[v]` (the nil slice when absent). -/
def lookupTests : List (String × List betaTest) → String → List betaTest
  | [], _ => []
  | (k, v) :: rest, name => if k = name then v else lookupTests rest name

/-- Whether `name` is a key of the test network. -/
def hasTests : List (String × List betaTest) → String → Bool
  | [], _ => false
  | (k, _) :: rest, name => if k = name then true else hasTests rest name

/-- Replace the slice stored under `name`. -/
def updateTests (f : List betaTest → List betaTest) :
    List (String × List betaTest) → String → List (String × List betaTest)
  | [], _ => []
  | (k, v) :: rest, name =>
    if k = name then (k, f v) :: rest else (k, v) :: updateTests f rest name

/-- Dereference a `*alphaNode`. -/
def getAlpha (r : AlphaRef) : M alphaNode := fun e =>
  match (lookupAlpha e.alphaNetwork r.attr)[r.pos]? with
  | some a => .ret a e
  | none => .crash .nilDeref

/-- Assign through a `*alphaNode`. -/
def modifyAlpha (r : AlphaRef) (f : alphaNode → alphaNode) : M Unit :=
  modifyEngine fun e =>
    { e with alphaNetwork := updateAlpha (fun l => l.modify f r.pos) e.alphaNetwork r.attr }

/-- Dereference a `*pNode`. -/
def getProd (p : Nat) : M pNode := fun e =>
  match e.productions[p]? with
  | some n => .ret n e
  | none => .crash .nilDeref

/-- Assign through a `*pNode`. -/
def modifyProd (p : Nat) (f : pNode → pNode) : M Unit :=
  modifyEngine fun e => { e with productions := e.productions.modify f p }

/-- Dereference a `*betaNode`. -/
def getBeta (b : BetaRef) : M betaNode := do
  let p ← getProd b.prod
  match p.betaNodes[b.pos]? with
  | some n => pure n
  | none => crash .nilDeref

/-- Dereference a `*token`. -/
def getTok (t : Nat) : M token := fun e =>
  match e.store[t]? with
  | some tk => .ret tk e
  | none => .crash .nilDeref

/-- Assign through a `*token`. -/
def modifyTok (t : Nat) (f : token → token) : M Unit :=
  modifyEngine fun e => { e with store := e.store.modify f t }

/-- The pointer `&engine.nullFact`. -/
def nullPtr : M FactPtr := fun e => .ret ⟨0, e.nullFact⟩ e

/-- Take the address of a new `Fact` variable. -/
def newFactPtr (f : Fact) : M FactPtr := fun e =>
  .ret ⟨e.nextAddr, f⟩ { e with nextAddr := e.nextAddr + 1 }

/-! ## The public interface: queries -/

/-- The outgoing facts of one token that pass the filter of `GetInferences`. -/
def selectOutgoing (objectId attr : String) : List (Option FactPtr) → List Fact
  | [] => []
  | none :: rest => selectOutgoing objectId attr rest
  | some f :: rest =>
    if (objectId = "" ∨ f.fact.ObjectId = objectId) ∧
        (attr = "" ∨ f.fact.Attribute = attr) then
      f.fact :: selectOutgoing objectId attr rest
    else selectOutgoing objectId attr rest

/-- The source's `Engine.GetInferences`: all productions, all tokens, all
outgoing slots.  (A token pointer always refers to a stored token.) -/
def GetInferences (e : Engine) (objectId attr : String) : List Fact × Option Err :=
  (e.productions.flatMap fun p =>
    p.tokens.flatMap fun t =>
      match e.store[t]? with
      | some tk => selectOutgoing objectId attr tk.outgoing
      | none => [], none)

/-! ## Agenda -/

/-- The source's `pushAgenda`: `PushFront`. -/
def pushAgenda (f : FactPtr) : M Unit :=
  modifyEngine fun e => { e with agenda := f :: e.agenda }

/-- The source's `popAgenda`: remove and return `Back()`, nil when empty. -/
def popAgenda : M (Option FactPtr) := fun e =>
  match e.agenda.getLast? with
  | none => .ret none e
  | some f => .ret (some f) { e with agenda := e.agenda.dropLast }

/-! ## Lookup of a stored fact -/

/-- The inner loop of `find` over one node's facts; `none` when the loop ends
without returning. -/
def findFacts (fct : Fact) : List FactPtr → Option (Option FactPtr × Option Err)
  | [] => none
  | fptr :: rest =>
    match matchOp fptr.fact.Value .EQ fct.Value with
    | (_, some err) => some (none, some err)
    | (matched, none) =>
      if fptr.fact.ObjectId = fct.ObjectId ∧ fptr.fact.Attribute = fct.Attribute ∧
          matched = true then
        some (some fptr, none)
      else findFacts fct rest

/-- The outer loop of `find` over the nodes of the attribute. -/
def findNodes (fct : Fact) : List alphaNode → Option FactPtr × Option Err
  | [] => (none, none)
  | node :: rest =>
    match findFacts fct node.facts with
    | some r => r
    | none => findNodes fct rest

/-- The source's `Engine.find`. -/
def find (e : Engine) (fct : Fact) : Option FactPtr × Option Err :=
  findNodes fct (lookupAlpha e.alphaNetwork fct.Attribute)

/-! ## Tokens -/

/-- Position of the first occurrence of the pointer `tok` in a slice of
token pointers. -/
def indexOfTok (tok : Nat) : List Nat → Option Nat
  | [] => none
  | t :: rest => if t = tok then some 0 else (indexOfTok tok rest).map (· + 1)

/-- The source's `pNode.removeToken`. -/
def removeToken (p : Nat) (tok : Nat) : M (Option Err) := do
  let node ← getProd p
  match indexOfTok tok node.tokens with
  | some i =>
    modifyProd p fun n => { n with tokens := swapRemove n.tokens i }
    pure none
  | none => pure (some .removeTokenNotFound)

/-- The loop of `addToken` that presets the slots of the negated conditions
whose alpha node holds no fact. -/
def initIncoming : List betaNode → M (List (Option FactPtr))
  | [] => pure []
  | beta :: rest => do
    let a ← getAlpha beta.parentNode
    let null ← nullPtr
    let tail ← initIncoming rest
    pure ((if beta.alphaNot && a.facts.length == 0 then some null else none) :: tail)

/-- The source's `pNode.addToken(f, i)`; the results are the new token
pointer (nil when none is made) and the error. -/
def addToken (p : Nat) (f : Option FactPtr) (i : Nat) : M (Option Nat × Option Err) := do
  let node ← getProd p
  match node.betaNodes[i]? with
  | none => crash .indexRange
  | some bi =>
    if bi.alphaNot && f.isSome then pure (none, none)
    else do
      let e ← getEngine
      let t := e.store.length
      let incoming ← initIncoming node.betaNodes
      let incoming := if f.isSome then incoming.set i f else incoming
      modifyEngine fun e =>
        { e with store := e.store ++ [⟨p, incoming, List.replicate node.inferences.length none⟩] }
      modifyProd p fun n => { n with tokens := n.tokens ++ [t] }
      pure (some t, none)

/-- Resolution of the `ObjectId` of an inference in `activate`: `Flow.retn` is
the early `return` with an error. -/
def resolveObjectId (node : pNode) (incoming : List (Option FactPtr)) (inf : Inference) :
    M (Flow String (Option Err)) :=
  match inf.ObjectId with
  | .var obj =>
    match (lookupTests node.testNetwork obj)[0]? with
    | none => crash .indexRange
    | some tst =>
      match incoming[tst.tokenIndex]? with
      | none => crash .indexRange
      | some none => crash .nilDeref
      | some (some bound) =>
        if tst.objectElseValue then pure (.next bound.fact.ObjectId)
        else
          match bound.fact.Value with
          | .str s => pure (.next s)
          | .nil => crash .nilDeref
          | _ => pure (.retn (some .inferenceObjectId))
  | .lit (.str s) => pure (.next s)
  | .lit .nil => crash .nilDeref
  | .lit _ => pure (.retn (some .inferenceObjectId))

/-- Resolution of the `Value` of an inference in `activate`. -/
def resolveValue (node : pNode) (incoming : List (Option FactPtr)) (inf : Inference) :
    M Value :=
  match inf.Value with
  | .var val =>
    match (lookupTests node.testNetwork val)[0]? with
    | none => crash .indexRange
    | some tst =>
      match incoming[tst.tokenIndex]? with
      | none => crash .indexRange
      | some none => crash .nilDeref
      | some (some bound) =>
        if tst.objectElseValue then pure (.str bound.fact.ObjectId)
        else pure bound.fact.Value
  | .lit v => pure v

/-- The source's `pNode.activate`. -/
def activate (p : Nat) (tok : Nat) : M (Option Err) := do
  let node ← getProd p
  let tk ← getTok tok
  if tk.incoming.any Option.isNone then pure none
  else do
    let r ← forRange (fun i (_ : Unit) => do
      match node.inferences[i]? with
      | none => crash .indexRange
      | some inf =>
        match (← resolveObjectId node tk.incoming inf) with
        | .retn err => pure (.retn err)
        | .brk _ => pure (.brk ())
        | .next objectId => do
          let value ← resolveValue node tk.incoming inf
          let f ← newFactPtr ⟨objectId, inf.Attribute, value⟩
          pushAgenda f
          let cur ← getTok tok
          if i < cur.outgoing.length then do
            modifyTok tok fun t => { t with outgoing := t.outgoing.set i (some f) }
            pure (.next ())
          else crash .indexRange) node.inferences.length 0 ()
    match r.2 with
    | some err => pure err
    | none => pure none

/-- One test entry of the object-variable test of `inject`; `Flow.retn` is
the `return false, nil`. -/
def objectTest (newFact : Fact) (objectVariable key : String)
    (incoming : List (Option FactPtr)) (tst : betaTest) (_ : Unit) :
    M (Flow Unit (Bool × Option Err)) :=
  match incoming[tst.tokenIndex]? with
  | none => crash .indexRange
  | some none => pure (.next ())
  | some (some bound) =>
    if objectVariable = key then
      if tst.objectElseValue then
        if newFact.ObjectId ≠ bound.fact.ObjectId then pure (.retn (false, none))
        else pure (.next ())
      else
        match bound.fact.Value with
        | .str val =>
          if newFact.ObjectId ≠ val then pure (.retn (false, none)) else pure (.next ())
        | _ => pure (.retn (false, none))
    else
      if tst.objectElseValue then
        if newFact.ObjectId = bound.fact.ObjectId then pure (.retn (false, none))
        else pure (.next ())
      else
        match bound.fact.Value with
        | .str val =>
          if newFact.ObjectId = val then pure (.retn (false, none)) else pure (.next ())
        | _ => pure (.next ())

/-- One test entry of the value-variable test of `inject`. -/
def valueTest (newFact : Fact) (valueVariable key : String)
    (incoming : List (Option FactPtr)) (tst : betaTest) (_ : Unit) :
    M (Flow Unit (Bool × Option Err)) :=
  match incoming[tst.tokenIndex]? with
  | none => crash .indexRange
  | some none => pure (.next ())
  | some (some bound) =>
    if valueVariable = key then
      if tst.objectElseValue then
        match newFact.Value with
        | .str val =>
          if val ≠ bound.fact.ObjectId then pure (.retn (false, none)) else pure (.next ())
        | _ => pure (.retn (false, none))
      else
        match matchOp newFact.Value .NE bound.fact.Value with
        | (_, some err) => pure (.retn (false, some err))
        | (notMatched, none) =>
          if notMatched then pure (.retn (false, none)) else pure (.next ())
    else
      if tst.objectElseValue then
        match newFact.Value with
        | .str val =>
          if val = bound.fact.ObjectId then pure (.retn (false, none)) else pure (.next ())
        | _ => pure (.next ())
      else
        match matchOp newFact.Value .EQ bound.fact.Value with
        | (_, some err) => pure (.retn (false, some err))
        | (matched, none) =>
          if matched then pure (.retn (false, none)) else pure (.next ())

/-- The order in which one `range` over a Go map visits its entries.  Go
leaves it unspecified, so the runtime may pick any permutation: the next
choice `s` of `mapOrders` picks the `s`-th permutation of the entries (each
permutation is picked by some `s`, see `rangeMap_any`) and is used up.  When
no choice is left the entries come in order of first insertion. -/
def rangeMap {β : Type} (m : List (String × β)) : M (List (String × β)) := fun e =>
  match e.mapOrders with
  | [] => .ret m e
  | s :: rest => .ret ((List.permutations' m).getD s m) { e with mapOrders := rest }

/-- The engine after `n` of the pending choices of map order are used up. -/
def afterRanges (e : Engine) (n : Nat) : Engine :=
  { e with mapOrders := e.mapOrders.drop n }

/-- The two nested loops `for key, slc := range testNetwork; for _, tst :=
range slc` of `inject`; the variables are visited in the order the runtime
picks for this range (`rangeMap`). -/
def runTests (test : String → betaTest → Unit → M (Flow Unit (Bool × Option Err)))
    (testNetwork : List (String × List betaTest)) : M (Option (Bool × Option Err)) := do
  let visited ← rangeMap testNetwork
  let r ← forList (fun (entry : String × List betaTest) (_ : Unit) => do
    let r ← forList (test entry.1) entry.2 ()
    match r.2 with
    | some res => pure (.retn res)
    | none => pure (.next ())) visited ()
  pure r.2

/-- The source's `token.damage(i)`; `retract` is `Engine.retract`. -/
def damage (retract : Option FactPtr → M (Option Err)) (t : Nat) (i : Nat) :
    M (Option Err) := do
  let tk ← getTok t
  match tk.incoming[i]? with
  | none => crash .indexRange
  | some none => pure (some .damageNil)
  | some (some _) => do
    modifyTok t fun tk => { tk with incoming := tk.incoming.set i none }
    let r ← forRange (fun j (_ : Unit) => do
      let cur ← getTok t
      match cur.outgoing[j]? with
      | none => crash .indexRange
      | some f => do
        let err ← retract f
        if err.isSome then pure (.retn err)
        else do
          modifyTok t fun tk => { tk with outgoing := tk.outgoing.set j none }
          pure (.next ())) tk.outgoing.length 0 ()
    match r.2 with
    | some err => pure err
    | none => do
      let cur ← getTok t
      if cur.incoming.any Option.isSome then pure none
      else removeToken cur.containedBy t

/-- The source's `token.inject(newFact, node)`. -/
def inject (retract : Option FactPtr → M (Option Err)) (tok : Nat) (newFact : FactPtr)
    (nodeRef : BetaRef) : M (Bool × Option Err) := do
  let node ← getBeta nodeRef
  let tk ← getTok tok
  match tk.incoming[node.index]? with
  | none => crash .indexRange
  | some existing =>
    if node.alphaNot then
      if ptrEq existing (some (← nullPtr)) then do
        let _ ← damage retract tok node.index
        pure (true, none)
      else if existing.isSome then pure (false, some .injectInvalidToken)
      else pure (true, none)
    else
      match existing with
      | some ex =>
        match matchOp newFact.fact.Value .EQ ex.fact.Value with
        | (_, some err) => pure (false, some err)
        | (valuesMatch, none) =>
          if newFact.fact.ObjectId = ex.fact.ObjectId ∧
              newFact.fact.Attribute = ex.fact.Attribute ∧ valuesMatch = true then
            pure (true, none)
          else pure (false, none)
      | none => do
        let prod ← getProd node.product
        let r1 ← (if node.objectVariable ≠ "" then
            runTests (fun key => objectTest newFact.fact node.objectVariable key tk.incoming)
              prod.testNetwork
          else pure none)
        match r1 with
        | some res => pure res
        | none => do
          let r2 ← (if node.valueVariable ≠ "" then
              runTests (fun key => valueTest newFact.fact node.valueVariable key tk.incoming)
                prod.testNetwork
            else pure none)
          match r2 with
          | some res => pure res
          | none => do
            modifyTok tok fun t => { t with incoming := t.incoming.set node.index (some newFact) }
            pure (true, none)

/-- The source's `betaNode.leftActivate(tok)`; `tok` may be the nil pointer. -/
def leftActivate (retract : Option FactPtr → M (Option Err)) (nodeRef : BetaRef)
    (tok : Option Nat) : M (Option Err) := do
  let node ← getBeta nodeRef
  match tok with
  | none => pure (some .leftActivateNilToken)
  | some t => do
    let tk ← getTok t
    let r ← forRange (fun i (_ : Unit) => do
      if i = node.index then pure (.next ())
      else do
        let cur ← getTok t
        match cur.incoming[i]? with
        | none => crash .indexRange
        | some (some _) => pure (.next ())
        | some none => do
          let prod ← getProd node.product
          match prod.betaNodes[i]? with
          | none => crash .indexRange
          | some bi => do
            let a ← getAlpha bi.parentNode
            let r ← forList (fun (f : FactPtr) (_ : Unit) => do
              let (success, err) ← inject retract t f ⟨node.product, i⟩
              if err.isSome then pure (.retn err)
              else if success then pure (.brk ())
              else pure (.next ())) a.facts ()
            match r.2 with
            | some err => pure (.retn err)
            | none => pure (.next ())) tk.incoming.length 0 ()
    match r.2 with
    | some err => pure err
    | none => activate node.product t

/-- The source's `betaNode.rightActivate(newFact)`.  The loop ranges over the
indices of the token slice as it is at the start and reads
`node.product.tokens[i]` from the current slice each time. -/
def rightActivate (retract : Option FactPtr → M (Option Err)) (nodeRef : BetaRef)
    (newFact : FactPtr) : M (Option Err) := do
  let node ← getBeta nodeRef
  let prod ← getProd node.product
  let r ← forRange (fun i (tokenFound : Bool) => do
    let p1 ← getProd node.product
    match p1.tokens[i]? with
    | none => crash .indexRange
    | some t => do
      let (success, err) ← inject retract t newFact nodeRef
      if err.isSome then pure (.retn err)
      else if success then do
        let p2 ← getProd node.product
        match p2.tokens[i]? with
        | none => crash .indexRange
        | some t2 => do
          let _ ← leftActivate retract nodeRef (some t2)
          pure (.next true)
      else pure (.next tokenFound)) prod.tokens.length 0 false
  match r.2 with
  | some err => pure err
  | none =>
    if r.1 then pure none
    else do
      let (tok, err) ← addToken node.product (some newFact) node.index
      if err.isSome then pure err
      else leftActivate retract nodeRef tok

/-! ## Retraction -/

/-- The source's `alphaNode.removeFact(i)`.

The loop `for _, t := range bNode.product.tokens` ranges over the slice as
it is when the loop starts: it makes as many passes as the slice had tokens
and reads pass `k` from the backing array.  `removeToken` works in that same
array (it moves the last token down and stores nil in the vacated place), so
position `k` holds the current `tokens[k]`, or nil once the slice has become
shorter than `k + 1`.  A nil `t` crashes at `t.incoming`. -/
def removeFact (retract : Option FactPtr → M (Option Err)) (nodeRef : AlphaRef) (i : Nat) :
    M (Option Err) := do
  let node ← getAlpha nodeRef
  if i ≥ node.facts.length then pure (some .removeFactRange)
  else do
    modifyAlpha nodeRef fun a => { a with facts := swapRemove a.facts i }
    let r ← forList (fun (bRef : BetaRef) (_ : Unit) => do
      let bNode ← getBeta bRef
      let prod ← getProd bNode.product
      let r ← forRange (fun k (_ : Unit) => do
        let p1 ← getProd bNode.product
        let cur ← getAlpha nodeRef
        match p1.tokens[k]? with
        | none => crash .nilDeref
        | some t =>
          if cur.facts.length == 0 && bNode.alphaNot then do
            let tk ← getTok t
            if bNode.index < tk.incoming.length then do
              let null ← nullPtr
              modifyTok t fun tk => { tk with incoming := tk.incoming.set bNode.index (some null) }
              let err ← leftActivate retract bRef (some t)
              if err.isSome then pure (.retn err) else pure (.next ())
            else crash .indexRange
          else do
            let _ ← damage retract t bNode.index
            pure (.next ())) prod.tokens.length 0 ()
      match r.2 with
      | some err => pure (.retn err)
      | none => do
        let cur ← getAlpha nodeRef
        let p2 ← getProd bNode.product
        if cur.facts.length == 0 && bNode.alphaNot && p2.tokens.length == 0 then do
          let (t, err) ← addToken bNode.product none 0
          if err.isSome then pure (.retn err)
          else do
            let err ← leftActivate retract bRef t
            if err.isSome then pure (.retn err) else pure (.next ())
        else pure (.next ())) node.betaNodes ()
    match r.2 with
    | some err => pure err
    | none => pure none

/-- The source's `Engine.retract(f)`, with fuel for the recursion through
`removeFact` and `damage`.

The loop `for j, v := range node.facts` makes as many passes as the node
had facts when it started and reads pass `j` from the backing array, in
which `removeFact` works: position `j` holds the current `facts[j]`, or nil
once the slice has become shorter than `j + 1`.  The result of `removeFact`
is dropped, as in the source. -/
def retract : Nat → Option FactPtr → M (Option Err)
  | _, none => pure (some .cannotRetractNil)
  | 0, some _ => fun _ => .outOfFuel
  | fuel + 1, some f => do
    let e ← getEngine
    let _ ← forRange (fun i (_ : Unit) => do
      let node ← getAlpha ⟨f.fact.Attribute, i⟩
      let _ ← forRange (fun j (_ : Unit) => do
        let cur ← getAlpha ⟨f.fact.Attribute, i⟩
        if ptrEq (cur.facts[j]?) (some f) then do
          let _ ← removeFact (retract fuel) ⟨f.fact.Attribute, i⟩ j
          pure (Flow.next (α := Unit) ())
        else pure (Flow.next (α := Unit) ())) node.facts.length 0 ()
      pure (Flow.next (α := Unit) ())) (lookupAlpha e.alphaNetwork f.fact.Attribute).length 0 ()
    pure none

/-! ## The turn loop -/

/-- The duplicate check of `turn` over the facts of one node: whether a
stored fact has the same `ObjectId` and an equal `Value`, and the error of
`match`. -/
def dupScan (f : Fact) : List FactPtr → Bool × Option Err
  | [] => (false, none)
  | existing :: rest =>
    match matchOp f.Value .EQ existing.fact.Value with
    | (_, some err) => (false, some err)
    | (valuesMatch, none) =>
      if f.ObjectId = existing.fact.ObjectId ∧ valuesMatch = true then (true, none)
      else dupScan f rest

/-- The body of the loop of `turn` over the alpha nodes of the attribute of
the popped fact `f`: node `i`.  `Flow.brk` is the `break` after a duplicate. -/
def propagateNode (retract : Option FactPtr → M (Option Err)) (f : FactPtr) (i : Nat)
    (_ : Unit) : M (Flow Unit (Option Err)) := do
  let aNode ← getAlpha ⟨f.fact.Attribute, i⟩
  if aNode.objConstraint.length > 0 ∧ f.fact.ObjectId ≠ aNode.objConstraint then
    pure (.next ())
  else
    match (if aNode.compareTo ≠ .nil then matchOp f.fact.Value aNode.comparator aNode.compareTo
      else (true, none)) with
    | (_, some err) => pure (.retn (some err))
    | (false, none) => pure (.next ())
    | (true, none) =>
      match dupScan f.fact aNode.facts with
      | (_, some err) => pure (.retn (some err))
      | (true, none) => pure (.brk ())
      | (false, none) => do
        modifyAlpha ⟨f.fact.Attribute, i⟩ fun a => { a with facts := a.facts ++ [f] }
        let r ← forList (fun (bNode : BetaRef) (_ : Unit) => do
          let err ← rightActivate retract bNode f
          if err.isSome then pure (.retn err) else pure (.next ())) aNode.betaNodes ()
        match r.2 with
        | some err => pure (.retn err)
        | none => pure (.next ())

/-- The body of `turn` for one popped fact `f`: propagate it into the alpha
nodes of its attribute. -/
def propagate (retract : Option FactPtr → M (Option Err)) (f : FactPtr) : M (Option Err) := do
  let e ← getEngine
  let r ← forRange (propagateNode retract f)
    (lookupAlpha e.alphaNetwork f.fact.Attribute).length 0 ()
  match r.2 with
  | some err => pure err
  | none => pure none

/-- The source's `Engine.turn`: `depth` is the fuel of the retractions it
starts, the second argument bounds the number of facts popped. -/
def turn (depth : Nat) : Nat → M (Option Err)
  | 0 => fun _ => .outOfFuel
  | n + 1 => do
    match (← popAgenda) with
    | none => pure none
    | some f => do
      let err ← propagate (retract depth) f
      if err.isSome then pure err else turn depth n

/-! ## The public interface: updates -/

/-- The source's `Engine.Assert`. -/
def Assert (fuel : Nat) (fct : Fact) : M (Option Err) := do
  let f ← newFactPtr fct
  pushAgenda f
  turn fuel fuel

/-- The source's `Engine.Retract`. -/
def Retract (fuel : Nat) (fct : Fact) : M (Option Err) := do
  let e ← getEngine
  match find e fct with
  | (_, some err) => pure (some err)
  | (f, none) => retract fuel f

/-- The search of `Define` for an alpha node to reuse: position of the first
node with the same object constraint, comparator and an EQ-equal compare-to
value, or the error of `match`. -/
def findReusable (objConstraint : String) (comparator : Operator) (compareTo : Value) :
    List alphaNode → Nat → Option Nat × Option Err
  | [], _ => (none, none)
  | compareNode :: rest, j =>
    match matchOp compareTo .EQ compareNode.compareTo with
    | (_, some err) => (none, some err)
    | (compareToMatched, none) =>
      if objConstraint = compareNode.objConstraint ∧ comparator = compareNode.comparator ∧
          compareToMatched = true then (some j, none)
      else findReusable objConstraint comparator compareTo rest (j + 1)

/-- Register a variable occurrence in the test network of a production:
the position the new entry gets, and the updated network. -/
def addTest (net : List (String × List betaTest)) (v : String) (tst : betaTest) :
    Nat × List (String × List betaTest) :=
  let net1 := if hasTests net v then net else net ++ [(v, [])]
  ((lookupTests net1 v).length, updateTests (fun l => l ++ [tst]) net1 v)

/-- The body of the loop of `Define` for condition `i` of production `p`. -/
def defineCondition (p : Nat) (i : Nat) (condition : Condition) : M (Option Err) := do
  modifyEngine fun e =>
    if hasAlpha e.alphaNetwork condition.Attribute then e
    else { e with alphaNetwork := e.alphaNetwork ++ [(condition.Attribute, [])] }
  if condition.ObjectId = .lit .nil ∨ condition.Value = .lit .nil then crash .nilDeref
  else
    match condition.Value, condition.Comparator with
    | .var _, .GE | .var _, .GT | .var _, .LE | .var _, .LT | .var _, .NE =>
      pure (some (.valueVariableNonEQ condition.Comparator))
    | _, _ =>
      match (match condition.ObjectId with
          | .var _ => some ""
          | .lit (.str s) => some s
          | .lit _ => none) with
      | none => crash .typeAssert
      | some objConstraint => do
        let compareTo : Value := match condition.Value with
          | .var _ => .nil
          | .lit v => v
        let e ← getEngine
        let existing := lookupAlpha e.alphaNetwork condition.Attribute
        match findReusable objConstraint condition.Comparator compareTo existing 0 with
        | (_, some err) => pure (some err)
        | (found, none) => do
          let pos ← (match found with
            | some j => pure j
            | none => do
              let tempNode : alphaNode :=
                ⟨condition.Attribute, objConstraint, condition.Comparator, compareTo, [], []⟩
              modifyEngine fun e =>
                { e with alphaNetwork :=
                    updateAlpha (fun l => l ++ [tempNode]) e.alphaNetwork condition.Attribute }
              pure existing.length)
          modifyAlpha ⟨condition.Attribute, pos⟩ fun a =>
            { a with betaNodes := a.betaNodes ++ [⟨p, i⟩] }
          let prod ← getProd p
          let beta0 : betaNode :=
            ⟨i, condition.NotExists, "", 0, "", 0, ⟨condition.Attribute, pos⟩, p⟩
          let (beta1, net1) := match condition.ObjectId with
            | .var v =>
              let r := addTest prod.testNetwork v ⟨i, true⟩
              ({ beta0 with objectVariable := v, objectIndex := r.1 }, r.2)
            | .lit _ => (beta0, prod.testNetwork)
          let (beta2, net2) := match condition.Value with
            | .var v =>
              let r := addTest net1 v ⟨i, false⟩
              ({ beta1 with valueVariable := v, valueIndex := r.1 }, r.2)
            | .lit _ => (beta1, net1)
          modifyProd p fun n =>
            { n with betaNodes := n.betaNodes ++ [beta2], testNetwork := net2 }
          pure none

/-- The loop of `Define` over the conditions, from position `i` on. -/
def defineConditions (p : Nat) : List Condition → Nat → M (Option Err)
  | [], _ => pure none
  | condition :: rest, i => do
    let err ← defineCondition p i condition
    if err.isSome then pure err else defineConditions p rest (i + 1)

/-- The source's `Engine.Define`. -/
def Define (r : Rule) : M (Option Err) := do
  let e ← getEngine
  let p := e.productions.length
  modifyEngine fun e => { e with productions := e.productions ++ [⟨r.Id, [], [], [], []⟩] }
  let err ← defineConditions p r.LHS 0
  if err.isSome then pure err
  else do
    modifyProd p fun n => { n with inferences := r.RHS }
    pure none

/-! ## Scenarios -/

/-- A sequence of calls of the public interface, collecting the errors. -/
def calls : List (M (Option Err)) → M (List (Option Err))
  | [] => pure []
  | c :: rest => do
    let err ← c
    let errs ← calls rest
    pure (err :: errs)

/-- An outcome with the engine replaced by an observation of it. -/
inductive Seen (α β : Type) where
  | ret (a : α) (b : β)
  | crash (c : Crash)
  | outOfFuel
deriving DecidableEq, Repr

/-- What a client sees of an outcome: the results and an observation `g` of
the engine, or the way the run failed. -/
def Res.obs {α β : Type} (g : Engine → β) : Res α → Seen α β
  | .ret a e => .ret a (g e)
  | .crash c => .crash c
  | .outOfFuel => .outOfFuel

/-- All inferences: `GetInferences("", "")`. -/
def allInferences (e : Engine) : List Fact := (GetInferences e "" "").1

/-- The facts waiting on the agenda, front first. -/
def agendaFacts (e : Engine) : List Fact := e.agenda.map (·.fact)

/-- The incoming slots of the tokens of all productions, in production and
token order. -/
def tokenSlots (e : Engine) : List (List (Option FactPtr)) :=
  e.productions.flatMap fun p =>
    p.tokens.filterMap fun t => (e.store[t]?).map (·.incoming)

/-- The `int` literal `n`. -/
def intV (n : Int) : Value := .int .Int n

/-- Scenario rule: IF ?x.a == 1 THEN ?x.b = 2. -/
def ruleAB : Rule :=
  ⟨"R1", [⟨false, .var "x", "a", .EQ, .lit (intV 1)⟩], [⟨.var "x", "b", .lit (intV 2)⟩]⟩

/-- Scenario rule: IF ?x.p == ready AND ?y.p == set AND NOT _.k == true THEN
?x.ok = true (the negated condition is on any object: `ObjectId` is ""). -/
def ruleNeg : Rule :=
  ⟨"R2", [⟨false, .var "x", "p", .EQ, .lit (.str "ready")⟩,
          ⟨false, .var "y", "p", .EQ, .lit (.str "set")⟩,
          ⟨true, .lit (.str ""), "k", .EQ, .lit (.str "true")⟩],
         [⟨.var "x", "ok", .lit (.str "true")⟩]⟩

/-- Scenario rule: IF ?x.p == 1 AND ?y.q == 1 THEN ?x.r = ?y. -/
def rulePair : Rule :=
  ⟨"pair", [⟨false, .var "x", "p", .EQ, .lit (intV 1)⟩,
            ⟨false, .var "y", "q", .EQ, .lit (intV 1)⟩],
           [⟨.var "x", "r", .var "y"⟩]⟩

/-- Scenario rule: IF ?x.k >= 1 AND NOT _.k == 5 THEN ?x.ok = 1. -/
def ruleGuard : Rule :=
  ⟨"guard", [⟨false, .var "x", "k", .GE, .lit (intV 1)⟩,
             ⟨true, .lit (.str ""), "k", .EQ, .lit (intV 5)⟩],
            [⟨.var "x", "ok", .lit (intV 1)⟩]⟩

/-- Scenario rule: IF ?x.a == ?v THEN ?x.b = 1. -/
def ruleAny : Rule :=
  ⟨"any", [⟨false, .var "x", "a", .EQ, .var "v"⟩], [⟨.var "x", "b", .lit (intV 1)⟩]⟩

/-- A quiet NaN of type `float64`. -/
def nanV : Value := .float .Float64 0x7FF8000000000001

/-! ## The rules and facts of `TestEngine` (`engine_test.go`)

A `float64` literal is given by the bit pattern of the nearest binary64 value:
17.1187 is 4625511703365945603, 17.11378 is 4625510318509060186, 55.87 is
4633059820783911567, 61.922927 is 4633911694527089718, 5.908 is
4618337835077014127, 18.123 is 4625794388685056115 and 10.456 is
4622075822767731638. -/

/-- The `float64` with bit pattern `bits`. -/
def f64V (bits : Nat) : Value := .float .Float64 bits

/-- Rule L1R1 of `TestEngine`. -/
def ruleL1R1 : Rule :=
  ⟨"L1R1",
    [⟨false, .var "var1", "testAttr1", .GT, .lit (f64V 4625511703365945603)⟩,
     ⟨false, .var "var2", "testAttr1", .LT, .lit (f64V 4625510318509060186)⟩,
     ⟨false, .var "var1", "testAttr2", .GE, .lit (f64V 4633059820783911567)⟩,
     ⟨false, .var "var2", "testAttr2", .LE, .lit (f64V 4633911694527089718)⟩],
    [⟨.var "var1", "inferAttr1", .lit (f64V 4618337835077014127)⟩,
     ⟨.var "var2", "inferAttr2", .lit (.str "symbolic")⟩,
     ⟨.lit (.str "constant1"), "required", .lit (.str "true")⟩]⟩

/-- Rule L1R2 of `TestEngine`. -/
def ruleL1R2 : Rule :=
  ⟨"L1R2",
    [⟨false, .var "var4", "testAttr3", .EQ, .lit (.str "this one")⟩,
     ⟨false, .var "var5", "testAttr3", .EQ, .var "var4"⟩,
     ⟨false, .var "var6", "testAttr3", .EQ, .var "var5"⟩],
    [⟨.var "var4", "inferAttr3", .lit (.str "symbolic")⟩,
     ⟨.var "var6", "inferAttr4", .lit (.str "almost ready")⟩]⟩

/-- Rule L1R3 of `TestEngine`. -/
def ruleL1R3 : Rule :=
  ⟨"L1R3",
    [⟨false, .var "var7", "testAttr6", .EQ, .var "intVal"⟩,
     ⟨false, .var "var8", "testAttr7", .EQ, .var "intVal"⟩],
    [⟨.var "var7", "inferAttr5", .lit (.str "always")⟩]⟩

/-- Rule L2R1 of `TestEngine`. -/
def ruleL2R1 : Rule :=
  ⟨"L2R1",
    [⟨false, .var "var3", "inferAttr1", .EQ, .lit (f64V 4618337835077014127)⟩,
     ⟨false, .var "var4", "inferAttr2", .EQ, .lit (.str "symbolic")⟩,
     ⟨false, .lit (.str "constant1"), "required", .EQ, .lit (.str "true")⟩],
    [⟨.var "var3", "penultimate", .lit (.str "ready")⟩]⟩

/-- Rule L2R2 of `TestEngine`. -/
def ruleL2R2 : Rule :=
  ⟨"L2R2",
    [⟨false, .var "var1", "inferAttr3", .EQ, .lit (.str "symbolic")⟩,
     ⟨false, .var "var2", "inferAttr4", .EQ, .lit (.str "almost ready")⟩,
     ⟨false, .var "var3", "inferAttr5", .EQ, .lit (.str "always")⟩],
    [⟨.var "var3", "penultimate", .lit (.str "set")⟩]⟩

/-- Rule L3R1 of `TestEngine`. -/
def ruleL3R1 : Rule :=
  ⟨"L3R1",
    [⟨false, .var "var4", "penultimate", .EQ, .lit (.str "ready")⟩,
     ⟨false, .var "var5", "penultimate", .EQ, .lit (.str "set")⟩,
     ⟨true, .lit (.str ""), "is-deal-killer", .EQ, .lit (.str "true")⟩],
    [⟨.var "var4", "passed", .lit (.str "true")⟩]⟩

/-- The six `Define` calls of `TestEngine`. -/
def defineTestRules : List (M (Option Err)) :=
  [Define ruleL1R1, Define ruleL1R2, Define ruleL1R3, Define ruleL2R1, Define ruleL2R2,
   Define ruleL3R1]

/-- Fact set 1 of `TestEngine`. -/
def factSet1 : List Fact :=
  [⟨"set1obj1", "testAttr1", f64V 4625794388685056115⟩,
   ⟨"set1obj2", "testAttr1", f64V 4622075822767731638⟩,
   ⟨"set1obj1", "testAttr2", f64V 4633059820783911567⟩,
   ⟨"set1obj2", "testAttr2", f64V 4633911694527089718⟩,
   ⟨"set1obj3", "testAttr3", .str "this one"⟩,
   ⟨"set1obj4", "testAttr3", .str "set1obj3"⟩,
   ⟨"set1obj5", "testAttr3", .str "set1obj4"⟩,
   ⟨"set1obj6", "testAttr6", intV 42⟩,
   ⟨"set1obj7", "testAttr7", intV 42⟩]

/-- The fact (o, is-deal-killer, "true") of `TestEngine`. -/
def dealKiller (o : String) : Fact := ⟨o, "is-deal-killer", .str "true"⟩

/-- The number of facts `GetInferences("", "passed")` returns. -/
def passedCount (e : Engine) : Nat := (GetInferences e "" "passed").1.length

/-! ## Predicates and invariants of the claims -/

/-- Whether some alpha node registered under `f.Attribute` stores a fact with
the `ObjectId` and `Attribute` of `f` and an EQ-equal `Value`. -/
def isStored (e : Engine) (f : Fact) : Bool :=
  (lookupAlpha e.alphaNetwork f.Attribute).any fun node =>
    node.facts.any fun p =>
      decide (p.fact.ObjectId = f.ObjectId ∧ p.fact.Attribute = f.Attribute ∧
        matchOp p.fact.Value .EQ f.Value = (true, none))

/-- The engine a run ends with (the fresh engine when the run fails). -/
def Res.engine {α : Type} : Res α → Engine
  | .ret _ e => e
  | _ => Engine.new


/-- Weakest precondition for partial correctness: when `m` returns from `e`,
the result and the engine it leaves satisfy `Q`. -/
def wp {α : Type} (m : M α) (Q : α → Engine → Prop) (e : Engine) : Prop :=
  match m e with
  | .ret a e1 => Q a e1
  | _ => True

/-- An alpha node without its facts: what `Define` fixes. -/
def eraseFacts (a : alphaNode) : alphaNode := { a with facts := [] }

/-- The invariant behind idempotent assertion: the alpha nodes of attribute
`A` keep their configuration `S`, the pointer `p0` is older than the address
counter, no token has it in an outgoing slot, and node `i0` of `A` stores it. -/
structure Keeps (A : String) (i0 : Nat) (p0 : FactPtr) (S : List alphaNode) (e : Engine) :
    Prop where
  shape : (lookupAlpha e.alphaNetwork A).map eraseFacts = S
  fresh : p0.addr < e.nextAddr
  out : ∀ tk ∈ e.store, ∀ q, some q ∈ tk.outgoing → q.addr ≠ p0.addr
  mem : ∃ a, (lookupAlpha e.alphaNetwork A)[i0]? = some a ∧ p0 ∈ a.facts

/-- What the invariant asks of the retraction a function is given: called on
a pointer other than `p0`, it keeps the invariant. -/
def RetractKeeps (A : String) (i0 : Nat) (p0 : FactPtr) (S : List alphaNode)
    (R : Option FactPtr → M (Option Err)) : Prop :=
  ∀ oq e, (∀ q, oq = some q → q.addr ≠ p0.addr) → Keeps A i0 p0 S e →
    wp (R oq) (fun _ e1 => Keeps A i0 p0 S e1) e

/-- What the loop of `turn` does at one alpha node with a fact of content `f`:
pass over it, return an error, stop at a duplicate, or store the fact. -/
inductive NodeStep where
  | skip
  | fail (err : Err)
  | dup
  | store
deriving DecidableEq

/-- The decision of `propagateNode` at node `a`. -/
def nodeStep (f : Fact) (a : alphaNode) : NodeStep :=
  if a.objConstraint.length > 0 ∧ f.ObjectId ≠ a.objConstraint then .skip
  else
    match (if a.compareTo ≠ .nil then matchOp f.Value a.comparator a.compareTo
      else (true, none)) with
    | (_, some err) => .fail err
    | (false, none) => .skip
    | (true, none) =>
      match dupScan f a.facts with
      | (_, some err) => .fail err
      | (true, none) => .dup
      | (false, none) => .store

/-- Where the loop of `turn` over the nodes `l` (positions `i, i+1, ...`)
ends for a fact of content `f`: without storing it, with an error, or by
storing it at a position. -/
inductive Probe where
  | quiet
  | fail (err : Err)
  | store (i : Nat)
deriving DecidableEq

/-- The outcome of the loop of `turn` as far as the first node that does not
pass over the fact. -/
def probe (f : Fact) : List alphaNode → Nat → Probe
  | [], _ => .quiet
  | a :: rest, i =>
    match nodeStep f a with
    | .skip => probe f rest (i + 1)
    | .fail err => .fail err
    | .dup => .quiet
    | .store => .store i

/-- The pointer `p0` is older than the address counter and no token has it in
an outgoing slot. -/
def Unused (p0 : FactPtr) (e : Engine) : Prop :=
  p0.addr < e.nextAddr ∧ ∀ tk ∈ e.store, ∀ q, some q ∈ tk.outgoing → q.addr ≠ p0.addr

/-- What `propagateNode` does once it has decided to store the fact. -/
def storeNode (retract : Option FactPtr → M (Option Err)) (f : FactPtr) (i : Nat)
    (aNode : alphaNode) : M (Flow Unit (Option Err)) := do
  modifyAlpha ⟨f.fact.Attribute, i⟩ fun a => { a with facts := a.facts ++ [f] }
  let r ← forList (fun (bNode : BetaRef) (_ : Unit) => do
    let err ← rightActivate retract bNode f
    if err.isSome then pure (.retn err) else pure (.next ())) aNode.betaNodes ()
  match r.2 with
  | some err => pure (.retn err)
  | none => pure (.next ())

/-- Whether every pointer in an outgoing slot of a token was allocated
before: its address is below the address counter.  It holds of every state
of the Go program. -/
def outgoingAllocated (e : Engine) : Bool :=
  e.store.all fun tk => tk.outgoing.all fun oq =>
    match oq with
    | none => true
    | some q => decide (q.addr < e.nextAddr)


/-! ## Further scenarios and the words of the claims on `match`, `Define`
and `GetInferences` -/

/-- Scenario rule: IF ?x.attr == hit AND ?y.attr == ?x THEN ?y.derived = yes. -/
def ruleVarEq : Rule :=
  ⟨"veq", [⟨false, .var "x", "attr", .EQ, .lit (.str "hit")⟩,
           ⟨false, .var "y", "attr", .EQ, .var "x"⟩],
          [⟨.var "y", "derived", .lit (.str "yes")⟩]⟩

/-- Scenario rule: IF ?y.b == 2 THEN ?y.c = 3. -/
def ruleBC : Rule :=
  ⟨"R2", [⟨false, .var "y", "b", .EQ, .lit (intV 2)⟩], [⟨.var "y", "c", .lit (intV 3)⟩]⟩

/-- Scenario rule: IF ?x.a == 1 THEN ?z.b = 2, whose inference names a
variable as `ObjectId` that no condition binds. -/
def ruleUnres : Rule :=
  ⟨"unres", [⟨false, .var "x", "a", .EQ, .lit (intV 1)⟩], [⟨.var "z", "b", .lit (intV 2)⟩]⟩

/-- Scenario rule: IF ?x.a == 1 THEN ?x.b = ?z, whose inference names a
variable as `Value` that no condition binds. -/
def ruleUnresV : Rule :=
  ⟨"unresV", [⟨false, .var "x", "a", .EQ, .lit (intV 1)⟩], [⟨.var "x", "b", .var "z"⟩]⟩

/-- Scenario rule: IF ?w.q == 1 AND o.attr == ?v THEN ?v.x = 1. -/
def ruleRef : Rule :=
  ⟨"ref", [⟨false, .var "w", "q", .EQ, .lit (intV 1)⟩,
           ⟨false, .lit (.str "o"), "attr", .EQ, .var "v"⟩],
          [⟨.var "v", "x", .lit (intV 1)⟩]⟩

/-- Scenario rule: IF ?x.a >= ?v THEN ?x.b = 1. -/
def ruleVarGE : Rule :=
  ⟨"vge", [⟨false, .var "x", "a", .GE, .var "v"⟩], [⟨.var "x", "b", .lit (intV 1)⟩]⟩

/-- Scenario rule: IF ?x.p == 1 AND NOT _.k == 1 THEN ?x.ok = 7. -/
def ruleNegInt : Rule :=
  ⟨"negint", [⟨false, .var "x", "p", .EQ, .lit (intV 1)⟩,
              ⟨true, .lit (.str ""), "k", .EQ, .lit (intV 1)⟩],
             [⟨.var "x", "ok", .lit (intV 7)⟩]⟩

/-- Scenario rule: IF ?y.m >= 5 THEN ?y.big = 1. -/
def ruleM : Rule :=
  ⟨"m", [⟨false, .var "y", "m", .GE, .lit (intV 5)⟩], [⟨.var "y", "big", .lit (intV 1)⟩]⟩

/-- Scenario rule: IF a.ok == ?v THEN ?v.x = 1. -/
def ruleOkRef : Rule :=
  ⟨"okref", [⟨false, .lit (.str "a"), "ok", .EQ, .var "v"⟩], [⟨.var "v", "x", .lit (intV 1)⟩]⟩

/-- Whether a field of a rule holds a `Variable`. -/
def Term.isVar : Term → Bool
  | .var _ => true
  | .lit _ => false

/-- The conditions the claim on the errors of `Define` speaks of: the
`ObjectId` is a string or a `Variable`, the `Value` a `Variable`, a string or
an integer. -/
def Condition.typed (c : Condition) : Bool :=
  (match c.ObjectId with
    | .var _ => true
    | .lit (.str _) => true
    | .lit _ => false) &&
  (match c.Value with
    | .var _ => true
    | .lit (.str _) => true
    | .lit (.int _ _) => true
    | .lit _ => false)

/-- A `Variable` in the `Value` position together with a comparator other
than EQ. -/
def Condition.valueVariableNonEQ (c : Condition) : Bool :=
  c.Value.isVar && decide (c.Comparator ≠ .EQ)

/-- The error of `Define` at one condition of those kinds. -/
def conditionErr (c : Condition) : Option Err :=
  if c.valueVariableNonEQ then some (.valueVariableNonEQ c.Comparator) else none

/-- The error of `Define` for a list of conditions of those kinds: that of
the first condition that has one. -/
def conditionsErr : List Condition → Option Err
  | [] => none
  | c :: rest =>
    match conditionErr c with
    | some err => some err
    | none => conditionsErr rest

/-- The object-constraint test of `turn`: whether the loop passes over node
`a` for a fact with the `ObjectId` of `f`. -/
def failsObjConstraint (f : Fact) (a : alphaNode) : Bool :=
  decide (a.objConstraint.length > 0 ∧ f.ObjectId ≠ a.objConstraint)

/-- The ordered comparators GE, GT, LE and LT. -/
def Operator.ordered : Operator → Bool
  | .GE | .GT | .LE | .LT => true
  | .EQ | .NE => false

/-- The outgoing slots of all tokens of all productions, in production,
token and slot order. -/
def outgoingSlots (e : Engine) : List (Option FactPtr) :=
  e.productions.flatMap fun p =>
    p.tokens.flatMap fun t =>
      match e.store[t]? with
      | some tk => tk.outgoing
      | none => []

/-- The filter of `GetInferences` as the specification words it: the
`ObjectId` equals `objectId` or `objectId` is "", and the `Attribute` equals
`attr` or `attr` is "". -/
def wanted (objectId attr : String) (f : Fact) : Bool :=
  (objectId == "" || f.ObjectId == objectId) && (attr == "" || f.Attribute == attr)

/-- The result of `GetInferences` as the specification words it: the non-nil
outgoing facts, in order, that pass the filter. -/
def inferencesOf (e : Engine) (objectId attr : String) : List Fact :=
  (((outgoingSlots e).filterMap id).map (·.fact)).filter (wanted objectId attr)

/-- The bytes of a string as Go holds them: its UTF-8 encoding
(`String.toUTF8`), each byte as a number. -/
def bytesOf (s : String) : List Nat := s.toUTF8.data.toList.map UInt8.toNat

/-- The UTF-8 encoding of the scalar value `v`, in arithmetic. -/
def utf8Nat (v : Nat) : List Nat :=
  if v ≤ 0x7f then [v]
  else if v ≤ 0x7ff then [0xc0 + v / 64 % 32, 0x80 + v % 64]
  else if v ≤ 0xffff then [0xe0 + v / 4096 % 16, 0x80 + v / 64 % 64, 0x80 + v % 64]
  else [0xf0 + v / 262144 % 8, 0x80 + v / 4096 % 64, 0x80 + v / 64 % 64, 0x80 + v % 64]

/-- The relation an operator denotes on integers. -/
def Operator.onInt (op : Operator) (l r : Int) : Bool :=
  match op with
  | .EQ => decide (l = r)
  | .GE => decide (l ≥ r)
  | .GT => decide (l > r)
  | .LE => decide (l ≤ r)
  | .LT => decide (l < r)
  | .NE => decide (l ≠ r)

/-- The relation an operator denotes on byte strings under byte-wise
lexicographic order (`List.Lex` of `<` on bytes). -/
def Operator.onBytes (op : Operator) (l r : List Nat) : Bool :=
  match op with
  | .EQ => decide (l = r)
  | .GE => decide (¬ List.Lex (· < ·) l r)
  | .GT => decide (List.Lex (· < ·) r l)
  | .LE => decide (¬ List.Lex (· < ·) r l)
  | .LT => decide (List.Lex (· < ·) l r)
  | .NE => decide (l ≠ r)

/-! ## Scenarios of the claims on retraction and on tokens -/

/-- Scenario rule: IF ?x.p == 1 AND NOT _.q == 1 THEN ?x.q = 1. -/
def ruleDefeat : Rule :=
  ⟨"R", [⟨false, .var "x", "p", .EQ, .lit (intV 1)⟩,
         ⟨true, .lit (.str ""), "q", .EQ, .lit (intV 1)⟩],
        [⟨.var "x", "q", .lit (intV 1)⟩]⟩

/-- Scenario rule: IF ?y.q >= 0 THEN ?y.r = 1. -/
def ruleQGE : Rule :=
  ⟨"S", [⟨false, .var "y", "q", .GE, .lit (intV 0)⟩], [⟨.var "y", "r", .lit (intV 1)⟩]⟩

/-- The fact lists of the alpha nodes registered under `attr`. -/
def factsUnder (e : Engine) (attr : String) : List (List FactPtr) :=
  (lookupAlpha e.alphaNetwork attr).map (·.facts)

/-- Scenario rule: IF ?x.attr == ?x THEN ?x.seen = yes. -/
def ruleSelfRef : Rule :=
  ⟨"self", [⟨false, .var "x", "attr", .EQ, .var "x"⟩], [⟨.var "x", "seen", .lit (.str "yes")⟩]⟩

/-- Scenario rule: IF o.p == ?v AND NOT _.k == 5 THEN ?v.x = 1. -/
def ruleNegRef : Rule :=
  ⟨"A", [⟨false, .lit (.str "o"), "p", .EQ, .var "v"⟩,
         ⟨true, .lit (.str ""), "k", .EQ, .lit (intV 5)⟩],
        [⟨.var "v", "x", .lit (intV 1)⟩]⟩

/-- Scenario rule: IF ?y.k == 5 THEN ?y.seen = 1. -/
def ruleK5 : Rule :=
  ⟨"B", [⟨false, .var "y", "k", .EQ, .lit (intV 5)⟩], [⟨.var "y", "seen", .lit (intV 1)⟩]⟩

/-- Scenario rule: IF ?x.a == 1 AND ?y.b == 1 THEN ?x.c = 1. -/
def ruleTwo : Rule :=
  ⟨"two", [⟨false, .var "x", "a", .EQ, .lit (intV 1)⟩,
           ⟨false, .var "y", "b", .EQ, .lit (intV 1)⟩],
          [⟨.var "x", "c", .lit (intV 1)⟩]⟩

/-- The token pointers of the productions, in production order. -/
def tokenLists (e : Engine) : List (List Nat) := e.productions.map (·.tokens)

/-- The test entries of variable `v` in production `p`. -/
def testEntries (e : Engine) (p : Nat) (v : String) : List betaTest :=
  match e.productions[p]? with
  | some n => lookupTests n.testNetwork v
  | none => []

/-- The rule IF ?x.a == v THEN ?x.a = v. -/
def ruleSelf (v : Value) : Rule :=
  ⟨"self", [⟨false, .var "x", "a", .EQ, .lit v⟩], [⟨.var "x", "a", .lit v⟩]⟩

/-- The engine with the rule IF ?x.p == 1 AND ?y.q == 1 THEN ?x.r = ?y after
Assert (o1,p,1). -/
def pairEngine : Engine :=
  (calls [Define rulePair, Assert 9 ⟨"o1", "p", intV 1⟩] Engine.new).engine

/-- The fact a test entry refers to: the one in its slot of the token, when
the slot is filled. -/
def boundAt (incoming : List (Option FactPtr)) (tst : betaTest) : Option Fact :=
  match incoming[tst.tokenIndex]? with
  | some (some b) => some b.fact
  | _ => none

/-- The object test of `inject` at one entry of variable `key`, for a beta
node with object variable `V`: an entry of `V` asks that the `ObjectId` of the
new fact equals what the entry binds, an entry of another variable that it
differs. -/
def objectEntryOK (newFact : Fact) (V key : String) (incoming : List (Option FactPtr))
    (tst : betaTest) : Bool :=
  match boundAt incoming tst with
  | none => true
  | some b =>
    if key = V then
      if tst.objectElseValue then newFact.ObjectId == b.ObjectId
      else b.Value == .str newFact.ObjectId
    else
      if tst.objectElseValue then newFact.ObjectId != b.ObjectId
      else b.Value != .str newFact.ObjectId

/-- The value test of `inject` at one entry of variable `key`, for a beta node
with value variable `V`. -/
def valueEntryOK (newFact : Fact) (V key : String) (incoming : List (Option FactPtr))
    (tst : betaTest) : Bool :=
  match boundAt incoming tst with
  | none => true
  | some b =>
    if key = V then
      if tst.objectElseValue then newFact.Value == .str b.ObjectId
      else (matchOp newFact.Value .EQ b.Value).1
    else
      if tst.objectElseValue then newFact.Value != .str b.ObjectId
      else !(matchOp newFact.Value .EQ b.Value).1

/-- Whether `inject` accepts the new fact at the non-negated beta node `B`
whose slot is empty: both tests pass at every entry of the test network. -/
def injectAccepts (newFact : Fact) (B : betaNode) (incoming : List (Option FactPtr))
    (net : List (String × List betaTest)) : Bool :=
  (B.objectVariable == "" ||
    net.all fun entry => entry.2.all (objectEntryOK newFact B.objectVariable entry.1 incoming)) &&
  (B.valueVariable == "" ||
    net.all fun entry => entry.2.all (valueEntryOK newFact B.valueVariable entry.1 incoming))

/-- How often `inject` ranges over the test network at the non-negated beta
node `B` whose slot is empty: once for the object variable when `B` has one,
and once for the value variable when `B` has one and the object tests passed. -/
def injectRanges (newFact : Fact) (B : betaNode) (incoming : List (Option FactPtr))
    (net : List (String × List betaTest)) : Nat :=
  (if B.objectVariable = "" then 0 else 1) +
  (if B.valueVariable = "" then 0
    else if B.objectVariable == "" ||
        net.all fun entry => entry.2.all (objectEntryOK newFact B.objectVariable entry.1 incoming)
      then 1 else 0)

/-- The engine after the assignment `tok.incoming[i] = f`. -/
def fillSlot (e : Engine) (tok i : Nat) (f : FactPtr) : Engine :=
  { e with store := e.store.modify (fun t => { t with incoming := t.incoming.set i (some f) }) tok }

/-- What an invariant of the alpha network has to survive: any change that
leaves the alpha network and the number of productions alone, and the removal
of one fact from one alpha node as `removeFact` does it. -/
structure FactsInvariant (J : Engine → Prop) : Prop where
  frame : ∀ e e1 : Engine, J e → e1.alphaNetwork = e.alphaNetwork →
    e1.productions.length = e.productions.length → J e1
  remove : ∀ (e : Engine) (r : AlphaRef) (i : Nat), J e →
    J { e with alphaNetwork := updateAlpha (fun l => l.modify (fun a => { a with facts := swapRemove a.facts i }) r.pos) e.alphaNetwork r.attr }

/-- What an invariant asks of the retraction a function is given. -/
def RetractInv (J : Engine → Prop) (R : Option FactPtr → M (Option Err)) : Prop :=
  ∀ oq e, J e → wp (R oq) (fun _ e1 => J e1) e

/-- What an invariant of the stored facts has to survive in `turn`: the
append of a fact that the duplicate scan of the node let pass. -/
def StoreInv (J : Engine → Prop) : Prop :=
  ∀ (e : Engine) (f : FactPtr) (i : Nat) (a : alphaNode), J e →
    (lookupAlpha e.alphaNetwork f.fact.Attribute)[i]? = some a →
    dupScan f.fact a.facts = (false, none) →
    J { e with alphaNetwork := updateAlpha (fun l => l.modify (fun a => { a with facts := a.facts ++ [f] }) i) e.alphaNetwork f.fact.Attribute }

/-- Two facts that the duplicate check of `turn` takes for one: the same
`ObjectId`, the same `Attribute` and EQ-equal values. -/
def sameFact (x y : Fact) : Bool :=
  x.ObjectId == y.ObjectId && x.Attribute == y.Attribute && (matchOp x.Value .EQ y.Value).1

/-- An alpha node registered under `attr` is in order: it names `attr`, its
facts are facts of `attr`, and no two entries of its fact list are the same
fact for the duplicate check. -/
def nodeGood (attr : String) (a : alphaNode) : Prop :=
  a.attributeName = attr ∧ (∀ x ∈ a.facts, x.fact.Attribute = attr) ∧
    ∀ (i j : Nat) (x y : FactPtr), a.facts[i]? = some x → a.facts[j]? = some y → i ≠ j →
      sameFact x.fact y.fact = false

/-- Every alpha node of the engine is in order. -/
def alphaGood (e : Engine) : Prop :=
  ∀ entry ∈ e.alphaNetwork, ∀ a ∈ entry.2, nodeGood entry.1 a

/-- Every alpha node names the attribute it is registered under. -/
def alphaNamed (e : Engine) : Prop :=
  ∀ entry ∈ e.alphaNetwork, ∀ a ∈ entry.2, a.attributeName = entry.1

instance (e : Engine) : Decidable (alphaNamed e) :=
  inferInstanceAs (Decidable (∀ entry ∈ e.alphaNetwork, ∀ a ∈ entry.2, a.attributeName = entry.1))

/-- The engine states that calls of `Define`, `Assert` and `Retract` which
return (with or without an error) reach from a fresh engine, whatever orders
`os` the runtime picks for the ranges over a map during these calls. -/
inductive Reachable : Engine → Prop
  | fresh (os : List Nat) : Reachable { Engine.new with mapOrders := os }
  | define (e e1 : Engine) (r : Rule) (err : Option Err) :
      Reachable e → Define r e = .ret err e1 → Reachable e1
  | assert (e e1 : Engine) (fuel : Nat) (f : Fact) (err : Option Err) :
      Reachable e → Assert fuel f e = .ret err e1 → Reachable e1
  | retract (e e1 : Engine) (fuel : Nat) (f : Fact) (err : Option Err) :
      Reachable e → Retract fuel f e = .ret err e1 → Reachable e1

/-- Scenario: `ruleQGE` is defined. -/
def qgeEngine : Engine := (Define ruleQGE Engine.new).engine

/-- Scenario: in `qgeEngine`, `a.q = 1` is asserted. -/
def firstStored : Engine := (Assert 9 ⟨"a", "q", intV 1⟩ qgeEngine).engine

/-- Scenario: in `firstStored`, `a.q = 1` is retracted. -/
def noneStored : Engine := (Retract 9 ⟨"a", "q", intV 1⟩ firstStored).engine

/-- Scenario: in `noneStored`, `b.q = 2` is asserted. -/
def oneStored : Engine := (Assert 9 ⟨"b", "q", intV 2⟩ noneStored).engine

/-! ## Definitions for the claims on `Define` -/

/-- The object constraint `Define` gives the alpha node of a condition: the
string in `ObjectId`, "" for a `Variable`. -/
def Condition.objConstraint (c : Condition) : String :=
  match c.ObjectId with
  | .lit (.str s) => s
  | _ => ""

/-- The compare-to value `Define` gives the alpha node of a condition: the
`Value`, absent (nil) for a `Variable`. -/
def Condition.compareTo (c : Condition) : engine.Value :=
  match c.Value with
  | .var _ => .nil
  | .lit v => v

/-- The statement `newAlphaNode.betaNodes = append(newAlphaNode.betaNodes, newBetaNode)`. -/
def addBeta (b : BetaRef) (a : alphaNode) : alphaNode :=
  { a with betaNodes := a.betaNodes ++ [b] }

/-- The position, in the slice of its attribute, of the alpha node the loop
body of `Define` attaches a condition to: that of the node it reuses, or the
end of the slice. -/
def attachPos (c : Condition) (l : List alphaNode) : Nat :=
  match (findReusable c.objConstraint c.Comparator c.compareTo l 0).1 with
  | some j => j
  | none => l.length

/-- What the loop body of `Define` for condition `i` of production `p` does
to the slice of alpha nodes of the attribute of the condition. -/
def attachNodes (p i : Nat) (c : Condition) (l : List alphaNode) : List alphaNode :=
  match (findReusable c.objConstraint c.Comparator c.compareTo l 0).1 with
  | some j => l.modify (addBeta ⟨p, i⟩) j
  | none => l ++ [⟨c.Attribute, c.objConstraint, c.Comparator, c.compareTo, [], [⟨p, i⟩]⟩]

/-- The alpha network after `Define` has made sure that `attr` is a key. -/
def withKey (net : List (String × List alphaNode)) (attr : String) :
    List (String × List alphaNode) :=
  if hasAlpha net attr then net else net ++ [(attr, [])]

/-- The number of beta nodes attached to the alpha nodes of a slice. -/
def betaCount (l : List alphaNode) : Nat := (l.map fun a => a.betaNodes.length).sum

/-- The number of beta nodes attached to the alpha nodes of the engine. -/
def totalBetas (e : Engine) : Nat := (e.alphaNetwork.map fun entry => betaCount entry.2).sum

/-- The beta node the loop body of `Define` makes for condition `i` of
production `p`, attached to the alpha node at position `pos`, and the test
network of the production after it. -/
def newBeta (p i : Nat) (c : Condition) (pos : Nat) (net : List (String × List betaTest)) :
    betaNode × List (String × List betaTest) :=
  let beta0 : betaNode := ⟨i, c.NotExists, "", 0, "", 0, ⟨c.Attribute, pos⟩, p⟩
  let (beta1, net1) := match c.ObjectId with
    | .var v =>
      let r := addTest net v ⟨i, true⟩
      ({ beta0 with objectVariable := v, objectIndex := r.1 }, r.2)
    | .lit _ => (beta0, net)
  match c.Value with
  | .var v =>
    let r := addTest net1 v ⟨i, false⟩
    ({ beta1 with valueVariable := v, valueIndex := r.1 }, r.2)
  | .lit _ => (beta1, net1)

/-- The engine the loop body of `Define` for condition `i` of production `p`
leaves when it returns no error; `net` is the test network of the production
before. -/
def attached (p i : Nat) (c : Condition) (net : List (String × List betaTest)) (e : Engine) :
    Engine :=
  { e with
    alphaNetwork := updateAlpha (attachNodes p i c) (withKey e.alphaNetwork c.Attribute) c.Attribute,
    productions := e.productions.modify
      (fun n => { n with
        betaNodes := n.betaNodes ++
          [(newBeta p i c (attachPos c (lookupAlpha e.alphaNetwork c.Attribute)) net).1],
        testNetwork := (newBeta p i c (attachPos c (lookupAlpha e.alphaNetwork c.Attribute)) net).2 }) p }

/-- The loop body of `Define` as a function of the engine, for the case that
it returns no error. -/
def attachStep (p i : Nat) (c : Condition) (e : Engine) : Engine :=
  match e.productions[p]? with
  | some prod => attached p i c prod.testNetwork e
  | none => e

/-- The loop of `Define` over the conditions, from position `i` on, as a
function of the engine, for the case that it returns no error. -/
def attachAll (p : Nat) : List Condition → Nat → Engine → Engine
  | [], _, e => e
  | c :: rest, i, e => attachAll p rest (i + 1) (attachStep p i c e)

/-- The engine `Define` leaves when it returns no error. -/
def defined (r : Rule) (e : Engine) : Engine :=
  let e2 := attachAll e.productions.length r.LHS 0
    { e with productions := e.productions ++ [⟨r.Id, [], [], [], []⟩] }
  { e2 with productions :=
      e2.productions.modify (fun n => { n with inferences := r.RHS }) e.productions.length }

/-- The alpha nodes refer only to beta nodes of productions that exist. -/
def betaRefsAllocated (e : Engine) : Prop :=
  ∀ entry ∈ e.alphaNetwork, ∀ a ∈ entry.2, ∀ b ∈ a.betaNodes, b.prod < e.productions.length

instance (e : Engine) : Decidable (betaRefsAllocated e) :=
  inferInstanceAs (Decidable (∀ entry ∈ e.alphaNetwork, ∀ a ∈ entry.2, ∀ b ∈ a.betaNodes,
    b.prod < e.productions.length))

/-- The invariant of the loop of `Define` over the conditions of the rule of
production `p`, after the conditions `cs`: the production has one beta node
per condition, each attached once to an alpha node of the attribute of its
condition; `total` is the number of attached beta nodes before the loop. -/
structure DefineInv (p total : Nat) (cs : List Condition) (e : Engine) : Prop where
  len : p < e.productions.length
  node : ∃ node, e.productions[p]? = some node ∧ node.betaNodes.length = cs.length ∧
    ∀ (i : Nat) (c : Condition), cs[i]? = some c → ∃ beta a, node.betaNodes[i]? = some beta ∧
      beta.index = i ∧ beta.alphaNot = c.NotExists ∧ beta.parentNode.attr = c.Attribute ∧
      (lookupAlpha e.alphaNetwork c.Attribute)[beta.parentNode.pos]? = some a ∧
      a.betaNodes.count ⟨p, i⟩ = 1
  named : ∀ (A : String) (a : alphaNode), a ∈ lookupAlpha e.alphaNetwork A → a.attributeName = A
  refs : ∀ (A : String) (a : alphaNode), a ∈ lookupAlpha e.alphaNetwork A →
    ∀ b ∈ a.betaNodes, b.prod < p ∨ (b.prod = p ∧ b.pos < cs.length)
  sum : totalBetas e = total + cs.length

/-- A value that is absent, a string or an integer: what the compare-to value
of a condition with a `Variable`, string or integer `Value` is. -/
def Value.plain : engine.Value → Bool
  | .nil => true
  | .str _ => true
  | .int _ _ => true
  | _ => false

/-- The engine states that successful calls of `Define`, one per rule of the
list and in its order, reach from a fresh engine. -/
inductive Defined : List Rule → Engine → Prop
  | fresh : Defined [] Engine.new
  | define (rs : List Rule) (e e1 : Engine) (r : Rule) :
      Defined rs e → Define r e = .ret none e1 → Defined (rs ++ [r]) e1

/-- The invariant behind the interning of alpha nodes; `tbl` lists, per
production, the conditions attached so far.  Every condition has its beta node
in its production, attached to an alpha node of its attribute with its object
constraint, comparator and compare-to value; the alpha nodes of one attribute
differ pairwise in one of the three; every alpha node has a condition. -/
structure InternInv (tbl : List (List Condition)) (e : Engine) : Prop where
  len : e.productions.length = tbl.length
  attach : ∀ (p : Nat) (l : List Condition), tbl[p]? = some l →
    ∃ node, e.productions[p]? = some node ∧ node.betaNodes.length = l.length ∧
      ∀ (i : Nat) (c : Condition), l[i]? = some c → ∃ beta a, node.betaNodes[i]? = some beta ∧
        beta.parentNode.attr = c.Attribute ∧
        (lookupAlpha e.alphaNetwork c.Attribute)[beta.parentNode.pos]? = some a ∧
        a.objConstraint = c.objConstraint ∧ a.comparator = c.Comparator ∧
        a.compareTo = c.compareTo
  distinct : ∀ (A : String) (j k : Nat) (a b : alphaNode),
    (lookupAlpha e.alphaNetwork A)[j]? = some a → (lookupAlpha e.alphaNetwork A)[k]? = some b →
    a.objConstraint = b.objConstraint → a.comparator = b.comparator →
    a.compareTo = b.compareTo → j = k
  onto : ∀ (A : String) (k : Nat) (a : alphaNode), (lookupAlpha e.alphaNetwork A)[k]? = some a →
    ∃ (p : Nat) (l : List Condition) (i : Nat) (c : Condition) (node : pNode) (beta : betaNode),
      tbl[p]? = some l ∧ l[i]? = some c ∧ e.productions[p]? = some node ∧
      node.betaNodes[i]? = some beta ∧ beta.parentNode = ⟨A, k⟩

/-- The number of alpha nodes of the engine. -/
def alphaCount (e : Engine) : Nat := (e.alphaNetwork.map fun entry => entry.2.length).sum

/-- Scenario rule, after the rule of the test of `Define` with an integer in
place of the float: IF ?variable1.attribute1 == value1 AND
object2.attribute2 > 0 AND ?variable1.attribute3 < 10
THEN ?variable1.attribute4 = 3. -/
def ruleThreeAttrs : Rule :=
  ⟨"simple-rule",
    [⟨false, .var "variable1", "attribute1", .EQ, .lit (.str "value1")⟩,
     ⟨false, .lit (.str "object2"), "attribute2", .GT, .lit (intV 0)⟩,
     ⟨false, .var "variable1", "attribute3", .LT, .lit (intV 10)⟩],
    [⟨.var "variable1", "attribute4", .lit (intV 3)⟩]⟩

/-- Scenario: `ruleThreeAttrs` is defined on a fresh engine. -/
def threeAttrsEngine : Engine := (Define ruleThreeAttrs Engine.new).engine

/-! ## Definitions for the claims on negated conditions without token, on integer kinds and on failing `Define` -/

/-- Scenario rule (scenario 3 of the specification): IF ?x.p == ready AND
?y.p == set AND NOT _.k == true THEN ?x.ok = true. -/
def ruleNegTwo : Rule :=
  ⟨"R2", [⟨false, .var "x", "p", .EQ, .lit (.str "ready")⟩,
          ⟨false, .var "y", "p", .EQ, .lit (.str "set")⟩,
          ⟨true, .lit (.str ""), "k", .EQ, .lit (.str "true")⟩],
         [⟨.var "x", "ok", .lit (.str "true")⟩]⟩

/-- The engine with the rule `ruleNegTwo`. -/
def negTwoEngine : Engine := (Define ruleNegTwo Engine.new).engine

/-- Scenario rule: IF ?x.k >= a AND NOT _.k == true THEN ?x.ok = true. -/
def ruleGeNeg : Rule :=
  ⟨"P", [⟨false, .var "x", "k", .GE, .lit (.str "a")⟩,
         ⟨true, .lit (.str ""), "k", .EQ, .lit (.str "true")⟩],
        [⟨.var "x", "ok", .lit (.str "true")⟩]⟩

/-- Scenario rule: IF ?x.k == true AND NOT _.k == true THEN ?x.ok = true,
whose two conditions get the same alpha node. -/
def ruleSameNode : Rule :=
  ⟨"S", [⟨false, .var "x", "k", .EQ, .lit (.str "true")⟩,
         ⟨true, .lit (.str ""), "k", .EQ, .lit (.str "true")⟩],
        [⟨.var "x", "ok", .lit (.str "true")⟩]⟩

/-- Scenario rule: IF ?y.ok == 7 AND NOT _.j == true THEN ?y.z = 1. -/
def ruleOkNeg : Rule :=
  ⟨"Q", [⟨false, .var "y", "ok", .EQ, .lit (intV 7)⟩,
         ⟨true, .lit (.str ""), "j", .EQ, .lit (.str "true")⟩],
        [⟨.var "y", "z", .lit (intV 1)⟩]⟩

/-- The engine after the fact `p` has been appended to the fact list of node
`i` of its attribute. -/
def storedAt (e : Engine) (p : FactPtr) (i : Nat) : Engine :=
  { e with alphaNetwork := updateAlpha (fun l => l.modify (fun a => { a with facts := a.facts ++ [p] }) i) e.alphaNetwork p.fact.Attribute }

/-- Production `p` of the engine (an empty production when there is none). -/
def prodAt (e : Engine) (p : Nat) : pNode := (e.productions[p]?).getD ⟨"", [], [], [], []⟩

/-- Beta node `i` of production `p` of the engine (a blank one when there is
none). -/
def betaAt (e : Engine) (p i : Nat) : betaNode :=
  ((prodAt e p).betaNodes[i]?).getD ⟨0, false, "", 0, "", 0, ⟨"", 0⟩, 0⟩

/-- The test-network entries of condition `i`, `x`, under the variable `u`:
one for `u` as `ObjectId`, then one for `u` as `Value`. -/
def entriesAt (i : Nat) (x : Condition) (u : String) : List betaTest :=
  (if x.ObjectId = .var u then [⟨i, true⟩] else []) ++
    (if x.Value = .var u then [⟨i, false⟩] else [])

/-- The test-network entries under the variable `u` of the conditions of a
list, the first of which has position `i`. -/
def testsOf : List Condition → Nat → String → List betaTest
  | [], _, _ => []
  | x :: rest, i, u => entriesAt i x u ++ testsOf rest (i + 1) u

/-- The engine with `attr` made a key of the alpha network. -/
def keyed (e : Engine) (attr : String) : Engine :=
  { e with alphaNetwork := withKey e.alphaNetwork attr }

/-- Scenario rule: IF ?x.a == 1 AND NOT o.b == ?x AND ?y.c >= ?w THEN ?x.d = 1,
whose third condition has a `Variable` value with GE. -/
def ruleFailThird : Rule :=
  ⟨"fail3", [⟨false, .var "x", "a", .EQ, .lit (intV 1)⟩,
             ⟨true, .lit (.str "o"), "b", .EQ, .var "x"⟩,
             ⟨false, .var "y", "c", .GE, .var "w"⟩],
            [⟨.var "x", "d", .lit (intV 1)⟩]⟩

/-- Scenario rule: IF ?v.a == ?w AND ?y.b == ?v THEN ?y.c = 1. -/
def ruleOrder : Rule :=
  ⟨"order", [⟨false, .var "v", "a", .EQ, .var "w"⟩, ⟨false, .var "y", "b", .EQ, .var "v"⟩],
    [⟨.var "y", "c", .lit (intV 1)⟩]⟩

/-- Scenario: `ruleOrder` is defined and the fact (o1,a,x) is asserted, where
`x` is a value of a kind that `match` cannot compare. -/
def orderEngine : Engine :=
  (calls [Define ruleOrder, Assert 9 ⟨"o1", "a", .other 1⟩] Engine.new).engine
/-! ## Theorems -/

theorem pure_apply {α : Type} (a : α) (e : Engine) : (pure a : M α) e = .ret a e := rfl

theorem bind_apply {α β : Type} (m : M α) (f : α → M β) (e : Engine) :
    (m >>= f) e = match m e with
      | .ret a e1 => f a e1
      | .crash c => .crash c
      | .outOfFuel => .outOfFuel := rfl

theorem matchOp_EQ_err (a b : Value) (x : Bool) (err : Err)
    (h : matchOp a .EQ b = (x, some err)) : ∃ k, err = .matchCannotCompare k := by
  unfold matchOp at h
  cases a <;> cases b <;> simp [Value.kind] at h <;>
    first
      | exact ⟨_, h.2.symm⟩
      | (split at h <;> simp at h <;> exact ⟨_, h.2.symm⟩)

theorem findFacts_not_stored (f : Fact) (l : List FactPtr)
    (h : (l.any fun p => decide (p.fact.ObjectId = f.ObjectId ∧ p.fact.Attribute = f.Attribute ∧
        matchOp p.fact.Value .EQ f.Value = (true, none))) = false) :
    findFacts f l = none ∨ ∃ k, findFacts f l = some (none, some (.matchCannotCompare k)) := by
  induction l with
  | nil => left; rfl
  | cons p rest ih =>
    simp only [List.any_cons, Bool.or_eq_false_iff] at h
    obtain ⟨h1, h2⟩ := h
    unfold findFacts
    rcases hm : matchOp p.fact.Value .EQ f.Value with ⟨x, _ | err⟩
    · simp only
      rw [hm] at h1
      have : ¬ (p.fact.ObjectId = f.ObjectId ∧ p.fact.Attribute = f.Attribute ∧ x = true) := by
        intro hc
        simp [hc.1, hc.2.1, hc.2.2] at h1
      rw [if_neg this]
      exact ih h2
    · obtain ⟨k, hk⟩ := matchOp_EQ_err _ _ _ _ hm
      right
      exact ⟨k, by simp [hk]⟩

theorem findNodes_not_stored (f : Fact) (nodes : List alphaNode)
    (h : (nodes.any fun node => node.facts.any fun p =>
        decide (p.fact.ObjectId = f.ObjectId ∧ p.fact.Attribute = f.Attribute ∧
        matchOp p.fact.Value .EQ f.Value = (true, none))) = false) :
    findNodes f nodes = (none, none) ∨
      ∃ k, findNodes f nodes = (none, some (.matchCannotCompare k)) := by
  induction nodes with
  | nil => left; rfl
  | cons node rest ih =>
    simp only [List.any_cons, Bool.or_eq_false_iff] at h
    obtain ⟨h1, h2⟩ := h
    unfold findNodes
    rcases findFacts_not_stored f node.facts h1 with h3 | ⟨k, h3⟩
    · rw [h3]; exact ih h2
    · rw [h3]; right; exact ⟨k, rfl⟩

theorem retract_none (fuel : Nat) (e : Engine) :
    retract fuel none e = .ret (some .cannotRetractNil) e := by
  cases fuel <;> rfl

/-- C1 (amended): when no alpha node registered under `f.Attribute` stores a
fact with the `ObjectId` and `Attribute` of `f` and an EQ-equal `Value`,
`Retract(f)` returns an error and leaves the engine unchanged; the error is
"Cannot retract nil", or the error of `match` when `find` meets a stored value
that it cannot compare with `f.Value`. -/
theorem Retract_not_stored (fuel : Nat) (e : Engine) (f : Fact) (h : isStored e f = false) :
    Retract fuel f e = .ret (some .cannotRetractNil) e ∨
      ∃ k, Retract fuel f e = .ret (some (.matchCannotCompare k)) e := by
  unfold Retract
  simp only [bind_apply, getEngine, find]
  rcases findNodes_not_stored f _ h with h1 | ⟨k, h1⟩
  · left
    rw [h1]
    exact retract_none fuel e
  · right
    exact ⟨k, by rw [h1]; rfl⟩


theorem wp_pure {α : Type} (a : α) (Q : α → Engine → Prop) (e : Engine) :
    wp (pure a) Q e ↔ Q a e := Iff.rfl

theorem wp_bind {α β : Type} (m : M α) (f : α → M β) (Q : β → Engine → Prop) (e : Engine) :
    wp (m >>= f) Q e ↔ wp m (fun a e1 => wp (f a) Q e1) e := by
  show wp (M.bind m f) Q e ↔ _
  unfold wp M.bind
  cases m e <;> simp

theorem wp_crash {α : Type} (c : Crash) (Q : α → Engine → Prop) (e : Engine) :
    wp (crash c) Q e ↔ True := Iff.rfl

theorem wp_mono {α : Type} {m : M α} {Q1 Q2 : α → Engine → Prop} {e : Engine}
    (h : wp m Q1 e) (himp : ∀ a e1, Q1 a e1 → Q2 a e1) : wp m Q2 e := by
  unfold wp at *
  cases hm : m e <;> simp only [hm] at h ⊢
  exact himp _ _ h

theorem wp_ret {α : Type} {m : M α} {Q : α → Engine → Prop} {e e1 : Engine} {a : α}
    (h : wp m Q e) (hm : m e = .ret a e1) : Q a e1 := by
  unfold wp at h
  rw [hm] at h
  exact h

theorem wp_getEngine (Q : Engine → Engine → Prop) (e : Engine) :
    wp getEngine Q e ↔ Q e e := Iff.rfl

theorem wp_modifyEngine (f : Engine → Engine) (Q : Unit → Engine → Prop) (e : Engine) :
    wp (modifyEngine f) Q e ↔ Q () (f e) := Iff.rfl

theorem wp_getTok (t : Nat) (Q : token → Engine → Prop) (e : Engine) :
    wp (getTok t) Q e ↔ ∀ tk, e.store[t]? = some tk → Q tk e := by
  unfold wp getTok
  cases h : e.store[t]? <;> simp

theorem wp_getAlpha (r : AlphaRef) (Q : alphaNode → Engine → Prop) (e : Engine) :
    wp (getAlpha r) Q e ↔ ∀ a, (lookupAlpha e.alphaNetwork r.attr)[r.pos]? = some a → Q a e := by
  unfold wp getAlpha
  cases h : (lookupAlpha e.alphaNetwork r.attr)[r.pos]? <;> simp

theorem wp_getProd (p : Nat) (Q : pNode → Engine → Prop) (e : Engine) :
    wp (getProd p) Q e ↔ ∀ n, e.productions[p]? = some n → Q n e := by
  unfold wp getProd
  cases h : e.productions[p]? <;> simp

theorem wp_getBeta (b : BetaRef) (Q : betaNode → Engine → Prop) (e : Engine) :
    wp (getBeta b) Q e ↔
      ∀ p n, e.productions[b.prod]? = some p → p.betaNodes[b.pos]? = some n → Q n e := by
  unfold getBeta
  rw [wp_bind, wp_getProd]
  constructor
  · intro h p n hp hn
    have := h p hp
    rw [hn] at this
    exact this
  · intro h p hp
    cases hn : p.betaNodes[b.pos]? with
    | none => exact (wp_crash _ _ _).2 trivial
    | some n => exact h p n hp hn

theorem wp_nullPtr (Q : FactPtr → Engine → Prop) (e : Engine) :
    wp nullPtr Q e ↔ Q ⟨0, e.nullFact⟩ e := Iff.rfl

theorem wp_newFactPtr (f : Fact) (Q : FactPtr → Engine → Prop) (e : Engine) :
    wp (newFactPtr f) Q e ↔ Q ⟨e.nextAddr, f⟩ { e with nextAddr := e.nextAddr + 1 } := Iff.rfl

theorem wp_pushAgenda (f : FactPtr) (Q : Unit → Engine → Prop) (e : Engine) :
    wp (pushAgenda f) Q e ↔ Q () { e with agenda := f :: e.agenda } := Iff.rfl

theorem wp_modifyTok (t : Nat) (f : token → token) (Q : Unit → Engine → Prop) (e : Engine) :
    wp (modifyTok t f) Q e ↔ Q () { e with store := e.store.modify f t } := Iff.rfl

theorem wp_modifyProd (p : Nat) (f : pNode → pNode) (Q : Unit → Engine → Prop) (e : Engine) :
    wp (modifyProd p f) Q e ↔ Q () { e with productions := e.productions.modify f p } := Iff.rfl

theorem wp_modifyAlpha (r : AlphaRef) (f : alphaNode → alphaNode) (Q : Unit → Engine → Prop)
    (e : Engine) :
    wp (modifyAlpha r f) Q e ↔
      Q () { e with alphaNetwork := updateAlpha (fun l => l.modify f r.pos) e.alphaNetwork r.attr } :=
  Iff.rfl

theorem wp_popAgenda (Q : Option FactPtr → Engine → Prop) (e : Engine) :
    wp popAgenda Q e ↔
      (e.agenda.getLast? = none → Q none e) ∧
      (∀ f, e.agenda.getLast? = some f → Q (some f) { e with agenda := e.agenda.dropLast }) := by
  unfold wp popAgenda
  cases h : e.agenda.getLast? <;> simp

/-- A loop keeps what each pass keeps. -/
theorem wp_forRange {β α : Type} (I : Engine → Prop) (body : Nat → β → M (Flow β α))
    (hbody : ∀ i b e, I e → wp (body i b) (fun _ e1 => I e1) e) :
    ∀ n i b e, I e → wp (forRange body n i b) (fun _ e1 => I e1) e := by
  intro n
  induction n with
  | zero => intro i b e h; exact h
  | succ n ih =>
    intro i b e h
    unfold forRange
    rw [wp_bind]
    refine wp_mono (hbody i b e h) ?_
    intro r e1 h1
    cases r with
    | next b1 => exact ih _ _ _ h1
    | brk b1 => exact h1
    | retn a => exact h1

theorem wp_forList {γ β α : Type} (I : Engine → Prop) (body : γ → β → M (Flow β α))
    (hbody : ∀ x b e, I e → wp (body x b) (fun _ e1 => I e1) e) :
    ∀ l b e, I e → wp (forList body l b) (fun _ e1 => I e1) e := by
  intro l
  induction l with
  | nil => intro b e h; exact h
  | cons x xs ih =>
    intro b e h
    unfold forList
    rw [wp_bind]
    refine wp_mono (hbody x b e h) ?_
    intro r e1 h1
    cases r with
    | next b1 => exact ih _ _ h1
    | brk b1 => exact h1
    | retn a => exact h1

theorem mem_swapRemove {α : Type} (l : List α) (j : Nat) (x : α) (hj : j < l.length)
    (hx : x ∈ l) (hne : l[j]? ≠ some x) : x ∈ swapRemove l j := by
  cases hl : l.getLast? with
  | none =>
    unfold swapRemove
    rw [hl]
    exact hx
  | some y =>
    have key : swapRemove l j = (l.set j y).dropLast := by
      unfold swapRemove
      rw [hl]
    rw [key]
    obtain ⟨ys, rfl⟩ := List.getLast?_eq_some_iff.1 hl
    simp only [List.length_append, List.length_singleton] at hj
    by_cases hjy : j < ys.length
    · rw [List.set_append_left _ _ hjy]
      simp only [List.dropLast_concat]
      rcases List.mem_append.1 hx with h | h
      · obtain ⟨k, hk, rfl⟩ := List.getElem_of_mem h
        have hkj : k ≠ j := by
          rintro rfl
          apply hne
          rw [List.getElem?_append_left hjy, List.getElem?_eq_getElem hjy]
        rw [List.mem_iff_getElem]
        refine ⟨k, by simpa using hk, ?_⟩
        rw [List.getElem_set_ne (Ne.symm hkj)]
      · simp only [List.mem_singleton] at h
        subst h
        exact List.mem_iff_getElem.2 ⟨j, by simpa using hjy, by simp⟩
    · have hj2 : j = ys.length := by omega
      subst hj2
      rcases List.mem_append.1 hx with h | h
      · have : (ys ++ [y]).set ys.length y = ys ++ [y] := by
          rw [List.set_append_right _ _ (Nat.le_refl _)]
          simp
        rw [this, List.dropLast_concat]
        exact h
      · simp only [List.mem_singleton] at h
        subst h
        exfalso
        apply hne
        simp

theorem lookupAlpha_updateAlpha (h : List alphaNode → List alphaNode) (hnil : h [] = [])
    (net : List (String × List alphaNode)) (attr A : String) :
    lookupAlpha (updateAlpha h net attr) A =
      if attr = A then h (lookupAlpha net A) else lookupAlpha net A := by
  induction net with
  | nil =>
    simp only [updateAlpha, lookupAlpha]
    split <;> simp [hnil]
  | cons kv rest ih =>
    obtain ⟨k, v⟩ := kv
    simp only [updateAlpha, lookupAlpha]
    by_cases hk : k = attr
    · subst hk
      simp only [if_true, lookupAlpha]
      by_cases hA : k = A
      · simp [hA]
      · simp [hA]
    · simp only [hk, if_false, lookupAlpha]
      by_cases hA : k = A
      · subst hA
        simp [Ne.symm hk]
      · simp only [hA, if_false]
        exact ih

section keeps

variable {A : String} {i0 : Nat} {p0 : FactPtr} {S : List alphaNode}

theorem Keeps.agenda {e : Engine} (h : Keeps A i0 p0 S e) (x : List FactPtr) :
    Keeps A i0 p0 S { e with agenda := x } := ⟨h.shape, h.fresh, h.out, h.mem⟩

theorem Keeps.orders {e : Engine} (h : Keeps A i0 p0 S e) (x : List Nat) :
    Keeps A i0 p0 S { e with mapOrders := x } := ⟨h.shape, h.fresh, h.out, h.mem⟩

theorem Keeps.prods {e : Engine} (h : Keeps A i0 p0 S e) (x : List pNode) :
    Keeps A i0 p0 S { e with productions := x } := ⟨h.shape, h.fresh, h.out, h.mem⟩

theorem Keeps.next {e : Engine} (h : Keeps A i0 p0 S e) :
    Keeps A i0 p0 S { e with nextAddr := e.nextAddr + 1 } :=
  ⟨h.shape, Nat.lt_succ_of_lt h.fresh, h.out, h.mem⟩

theorem mem_modify {α : Type} (g : α → α) (t : Nat) (l : List α) (x : α)
    (hx : x ∈ l.modify g t) : x ∈ l ∨ ∃ y ∈ l, x = g y := by
  obtain ⟨k, hk, rfl⟩ := List.getElem_of_mem hx
  have hk2 : k < l.length := by simpa using hk
  rw [List.getElem_modify]
  split
  · right
    exact ⟨l[k], List.getElem_mem _, rfl⟩
  · left
    exact List.getElem_mem _

theorem Keeps.tok {e : Engine} (h : Keeps A i0 p0 S e) (g : token → token) (t : Nat)
    (hg : ∀ tk, (∀ q, some q ∈ tk.outgoing → q.addr ≠ p0.addr) →
      ∀ q, some q ∈ (g tk).outgoing → q.addr ≠ p0.addr) :
    Keeps A i0 p0 S { e with store := e.store.modify g t } := by
  refine ⟨h.shape, h.fresh, ?_, h.mem⟩
  intro tk htk q hq
  rcases mem_modify g t e.store tk htk with h1 | ⟨y, hy, rfl⟩
  · exact h.out tk h1 q hq
  · exact hg y (h.out y hy) q hq

theorem Keeps.push {e : Engine} (h : Keeps A i0 p0 S e) (tok : token)
    (ht : ∀ q, some q ∈ tok.outgoing → q.addr ≠ p0.addr) :
    Keeps A i0 p0 S { e with store := e.store ++ [tok] } := by
  refine ⟨h.shape, h.fresh, ?_, h.mem⟩
  intro tk htk q hq
  rcases List.mem_append.1 htk with h1 | h1
  · exact h.out tk h1 q hq
  · simp only [List.mem_singleton] at h1
    subst h1
    exact ht q hq

theorem Keeps.alpha {e : Engine} (h : Keeps A i0 p0 S e) (r : AlphaRef) (g : alphaNode → alphaNode)
    (hshape : ∀ a, eraseFacts (g a) = eraseFacts a)
    (hmem : r.attr = A → r.pos = i0 →
      ∀ a, (lookupAlpha e.alphaNetwork A)[i0]? = some a → p0 ∈ a.facts → p0 ∈ (g a).facts) :
    Keeps A i0 p0 S
      { e with alphaNetwork := updateAlpha (fun l => l.modify g r.pos) e.alphaNetwork r.attr } := by
  have hl := lookupAlpha_updateAlpha (fun l => l.modify g r.pos) (by simp) e.alphaNetwork r.attr A
  refine ⟨?_, h.fresh, h.out, ?_⟩
  · show (lookupAlpha (updateAlpha _ e.alphaNetwork r.attr) A).map eraseFacts = S
    rw [hl]
    split
    · rw [← h.shape]
      apply List.ext_getElem?
      intro k
      simp only [List.getElem?_map, List.getElem?_modify]
      cases (lookupAlpha e.alphaNetwork A)[k]? with
      | none => simp
      | some a =>
        simp only [Option.map_some']
        split <;> simp [hshape]
    · exact h.shape
  · show ∃ a, (lookupAlpha (updateAlpha _ e.alphaNetwork r.attr) A)[i0]? = some a ∧ p0 ∈ a.facts
    rw [hl]
    obtain ⟨a, ha, hp⟩ := h.mem
    split
    · rename_i hattr
      by_cases hpos : r.pos = i0
      · refine ⟨g a, ?_, hmem hattr hpos a ha hp⟩
        rw [List.getElem?_modify, ha]
        simp [hpos]
      · refine ⟨a, ?_, hp⟩
        rw [List.getElem?_modify_ne _ _ hpos]
        exact ha
    · exact ⟨a, ha, hp⟩

theorem Keeps.of_store {e : Engine} (h : Keeps A i0 p0 S e) (e1 : Engine)
    (ha : e1.alphaNetwork = e.alphaNetwork) (hn : e.nextAddr ≤ e1.nextAddr)
    (hs : ∀ tk ∈ e1.store, tk ∈ e.store ∨ ∀ q, some q ∈ tk.outgoing → q.addr ≠ p0.addr) :
    Keeps A i0 p0 S e1 := by
  refine ⟨by rw [ha]; exact h.shape, Nat.lt_of_lt_of_le h.fresh hn, ?_, by rw [ha]; exact h.mem⟩
  intro tk htk q hq
  rcases hs tk htk with h1 | h1
  · exact h.out tk h1 q hq
  · exact h1 q hq

theorem removeToken_keeps (p tok : Nat) (e : Engine) (h : Keeps A i0 p0 S e) :
    wp (removeToken p tok) (fun _ e1 => Keeps A i0 p0 S e1) e := by
  unfold removeToken
  simp only [wp_bind, wp_getProd]
  intro node _
  split
  · simp only [wp_bind, wp_modifyProd, wp_pure]
    exact h.prods _
  · exact h

theorem initIncoming_keeps (l : List betaNode) (e : Engine) (P : Engine → Prop) (h : P e) :
    wp (initIncoming l) (fun r e1 => P e1 ∧ ∀ q, some q ∈ r → q.addr = 0) e := by
  induction l with
  | nil =>
    unfold initIncoming
    exact ⟨h, by simp⟩
  | cons b rest ih =>
    unfold initIncoming
    simp only [wp_bind, wp_getAlpha, wp_nullPtr]
    intro a _
    refine wp_mono ih ?_
    intro r e1 ⟨h1, h2⟩
    refine ⟨h1, ?_⟩
    intro q hq
    simp only [List.mem_cons] at hq
    rcases hq with hq | hq
    · split at hq
      · simp only [Option.some.injEq] at hq
        rw [hq]
      · simp at hq
    · exact h2 q hq

theorem addToken_keeps (p : Nat) (f : Option FactPtr) (i : Nat) (e : Engine)
    (h : Keeps A i0 p0 S e) :
    wp (addToken p f i) (fun _ e1 => Keeps A i0 p0 S e1) e := by
  unfold addToken
  simp only [wp_bind, wp_getProd]
  intro node _
  split
  · trivial
  · split
    · exact h
    · simp only [wp_bind, wp_getEngine]
      refine wp_mono (initIncoming_keeps node.betaNodes e _ h) ?_
      intro r e1 ⟨h1, _⟩
      simp only [wp_bind, wp_modifyEngine, wp_modifyProd, wp_pure]
      refine Keeps.of_store h1 _ rfl (Nat.le_refl _) ?_
      intro tk htk
      rcases List.mem_append.1 htk with h2 | h2
      · exact Or.inl h2
      · right
        simp only [List.mem_singleton] at h2
        subst h2
        intro q hq
        simp at hq

theorem resolveObjectId_same (node : pNode) (inc : List (Option FactPtr)) (inf : Inference)
    (P : Engine → Prop) (e : Engine) (h : P e) :
    wp (resolveObjectId node inc inf) (fun _ e1 => P e1) e := by
  unfold resolveObjectId
  repeat' split
  all_goals first | exact h | trivial

theorem resolveValue_same (node : pNode) (inc : List (Option FactPtr)) (inf : Inference)
    (P : Engine → Prop) (e : Engine) (h : P e) :
    wp (resolveValue node inc inf) (fun _ e1 => P e1) e := by
  unfold resolveValue
  repeat' split
  all_goals first | exact h | trivial

theorem mem_set_outgoing {l : List (Option FactPtr)} {i : Nat} {x : Option FactPtr}
    {q : FactPtr} (hq : some q ∈ l.set i x) : some q ∈ l ∨ some q = x := by
  rcases List.mem_or_eq_of_mem_set hq with h | h
  · exact Or.inl h
  · exact Or.inr h

theorem activate_keeps (p tok : Nat) (e : Engine) (h : Keeps A i0 p0 S e) :
    wp (activate p tok) (fun _ e1 => Keeps A i0 p0 S e1) e := by
  unfold activate
  simp only [wp_bind, wp_getProd, wp_getTok]
  intro node _ tk _
  split
  · exact h
  · simp only [wp_bind]
    refine wp_mono (wp_forRange (Keeps A i0 p0 S) _ ?_ _ _ _ e h) ?_
    · intro i b e1 h1
      split
      · trivial
      · simp only [wp_bind]
        refine wp_mono (resolveObjectId_same _ _ _ _ e1 h1) ?_
        intro r e2 h2
        split
        · exact h2
        · exact h2
        · simp only [wp_bind]
          refine wp_mono (resolveValue_same _ _ _ _ e2 h2) ?_
          intro v e3 h3
          simp only [wp_newFactPtr, wp_pushAgenda, wp_getTok]
          intro cur _
          split
          · simp only [wp_bind, wp_modifyTok, wp_pure]
            refine Keeps.of_store h3 _ rfl (Nat.le_succ _) ?_
            intro tk1 htk1
            rcases mem_modify _ _ _ _ htk1 with h4 | ⟨y, hy, rfl⟩
            · exact Or.inl h4
            · right
              intro q hq
              rcases mem_set_outgoing hq with h5 | h5
              · exact h3.out y hy q h5
              · simp only [Option.some.injEq] at h5
                subst h5
                exact Nat.ne_of_gt h3.fresh
          · trivial
    · intro r e1 h1
      split <;> exact h1

end keeps

section keeps

variable {A : String} {i0 : Nat} {p0 : FactPtr} {S : List alphaNode}

theorem objectTest_same (newFact : Fact) (v key : String) (inc : List (Option FactPtr))
    (tst : betaTest) (u : Unit) (P : Engine → Prop) (e : Engine) (h : P e) :
    wp (objectTest newFact v key inc tst u) (fun _ e1 => P e1) e := by
  unfold objectTest
  repeat' split
  all_goals first | exact h | trivial

theorem valueTest_same (newFact : Fact) (v key : String) (inc : List (Option FactPtr))
    (tst : betaTest) (u : Unit) (P : Engine → Prop) (e : Engine) (h : P e) :
    wp (valueTest newFact v key inc tst u) (fun _ e1 => P e1) e := by
  unfold valueTest
  repeat' split
  all_goals first | exact h | trivial

/-- Every order `rangeMap` hands out is a permutation of the entries, and
exactly one pending choice is used up. -/
theorem rangeMap_ret {β : Type} (m : List (String × β)) (e : Engine) :
    ∃ l, l.Perm m ∧ rangeMap m e = .ret l (afterRanges e 1) := by
  obtain ⟨ag, al, nf, pr, st, na, mo⟩ := e
  cases mo with
  | nil => exact ⟨m, List.Perm.refl m, rfl⟩
  | cons s rest =>
    refine ⟨(List.permutations' m).getD s m, ?_, rfl⟩
    rw [List.getD_eq_getElem?_getD]
    cases hl : (List.permutations' m)[s]? with
    | none => exact List.Perm.refl m
    | some l => exact List.mem_permutations'.1 (List.getElem?_mem hl)

/-- Every permutation of the entries is handed out by `rangeMap` for some
choice of the runtime. -/
theorem rangeMap_any {β : Type} (m l : List (String × β)) (h : l.Perm m) (e : Engine)
    (os : List Nat) :
    ∃ s, rangeMap m { e with mapOrders := s :: os } = .ret l { e with mapOrders := os } := by
  obtain ⟨s, hs⟩ := List.getElem?_of_mem (List.mem_permutations'.2 h)
  refine ⟨s, ?_⟩
  show Res.ret ((List.permutations' m).getD s m) { e with mapOrders := os } = _
  rw [List.getD_eq_getElem?_getD, hs]
  rfl

theorem rangeMap_same {β : Type} (m : List (String × β)) (P : Engine → Prop)
    (hP : ∀ e os, P e → P { e with mapOrders := os }) (e : Engine) (h : P e) :
    wp (rangeMap m) (fun _ e1 => P e1) e := by
  obtain ⟨l, _, hl⟩ := rangeMap_ret m e
  unfold wp
  rw [hl]
  exact hP e _ h

theorem runTests_same (test : String → betaTest → Unit → M (Flow Unit (Bool × Option Err)))
    (net : List (String × List betaTest)) (P : Engine → Prop)
    (hP : ∀ e os, P e → P { e with mapOrders := os })
    (htest : ∀ key tst u e, P e → wp (test key tst u) (fun _ e1 => P e1) e)
    (e : Engine) (h : P e) :
    wp (runTests test net) (fun _ e1 => P e1) e := by
  unfold runTests
  simp only [wp_bind]
  refine wp_mono (rangeMap_same net P hP e h) ?_
  intro visited e0 h0
  refine wp_mono (wp_forList P _ ?_ _ _ e0 h0) ?_
  · intro entry b e1 h1
    simp only [wp_bind]
    refine wp_mono (wp_forList P _ ?_ _ _ e1 h1) ?_
    · intro tst u e2 h2
      exact htest _ _ _ _ h2
    · intro r e2 h2
      split <;> exact h2
  · intro r e1 h1
    exact h1

theorem Keeps.setIncoming {e : Engine} (h : Keeps A i0 p0 S e) (t i : Nat)
    (x : Option FactPtr) :
    Keeps A i0 p0 S
      { e with store := e.store.modify (fun tk => { tk with incoming := tk.incoming.set i x }) t } :=
  Keeps.tok h _ t (fun _ htk q hq => htk q hq)

theorem Keeps.clearOutgoing {e : Engine} (h : Keeps A i0 p0 S e) (t j : Nat) :
    Keeps A i0 p0 S
      { e with store := e.store.modify (fun tk => { tk with outgoing := tk.outgoing.set j none }) t } := by
  refine Keeps.tok h _ t ?_
  intro tk htk q hq
  rcases mem_set_outgoing hq with h1 | h1
  · exact htk q h1
  · simp at h1

theorem damage_keeps (R : Option FactPtr → M (Option Err)) (hR : RetractKeeps A i0 p0 S R)
    (t i : Nat) (e : Engine) (h : Keeps A i0 p0 S e) :
    wp (damage R t i) (fun _ e1 => Keeps A i0 p0 S e1) e := by
  unfold damage
  simp only [wp_bind, wp_getTok]
  intro tk _
  split
  · trivial
  · exact h
  · simp only [wp_bind, wp_modifyTok]
    refine wp_mono (wp_forRange (Keeps A i0 p0 S) _ ?_ _ _ _ _ (h.setIncoming t i none)) ?_
    · intro j b e1 h1
      simp only [wp_bind, wp_getTok]
      intro cur hcur
      split
      · trivial
      · rename_i f hf
        simp only [wp_bind]
        refine wp_mono (hR f e1 ?_ h1) ?_
        · intro q hq
          subst hq
          refine h1.out cur (List.getElem?_mem hcur) q ?_
          exact List.getElem?_mem hf
        · intro err e2 h2
          split
          · exact h2
          · simp only [wp_bind, wp_modifyTok, wp_pure]
            exact h2.clearOutgoing t j
    · intro r e1 h1
      split
      · exact h1
      · simp only [wp_bind, wp_getTok]
        intro cur _
        split
        · exact h1
        · exact removeToken_keeps _ _ e1 h1

theorem inject_keeps (R : Option FactPtr → M (Option Err)) (hR : RetractKeeps A i0 p0 S R)
    (tok : Nat) (newFact : FactPtr) (nodeRef : BetaRef) (e : Engine) (h : Keeps A i0 p0 S e) :
    wp (inject R tok newFact nodeRef) (fun _ e1 => Keeps A i0 p0 S e1) e := by
  unfold inject
  simp only [wp_bind, wp_getBeta, wp_getTok]
  intro _ node _ _ tk _
  split
  · trivial
  · split
    · simp only [wp_bind, wp_nullPtr]
      split
      · simp only [wp_bind]
        refine wp_mono (damage_keeps R hR _ _ e h) ?_
        intro _ e1 h1
        exact h1
      · split <;> exact h
    · split
      · split
        · exact h
        · split <;> exact h
      · simp only [wp_bind, wp_getProd]
        intro prod _
        have h1 : wp (if node.objectVariable ≠ "" then
            runTests (fun key => objectTest newFact.fact node.objectVariable key tk.incoming)
              prod.testNetwork
          else pure none) (fun _ e1 => Keeps A i0 p0 S e1) e := by
          split
          · exact runTests_same _ _ _ (fun e0 os h0 => h0.orders os)
              (fun key tst u e1 h1 => objectTest_same _ _ _ _ _ _ _ e1 h1) e h
          · exact h
        refine wp_mono h1 ?_
        intro r1 e1 h2
        split
        · exact h2
        · simp only [wp_bind]
          have h3 : wp (if node.valueVariable ≠ "" then
              runTests (fun key => valueTest newFact.fact node.valueVariable key tk.incoming)
                prod.testNetwork
            else pure none) (fun _ e2 => Keeps A i0 p0 S e2) e1 := by
            split
            · exact runTests_same _ _ _ (fun e0 os h0 => h0.orders os)
                (fun key tst u e2 h3 => valueTest_same _ _ _ _ _ _ _ e2 h3) e1 h2
            · exact h2
          refine wp_mono h3 ?_
          intro r2 e2 h4
          split
          · exact h4
          · simp only [wp_bind, wp_modifyTok, wp_pure]
            exact h4.setIncoming _ _ _

end keeps

section keeps

variable {A : String} {i0 : Nat} {p0 : FactPtr} {S : List alphaNode}

theorem leftActivate_keeps (R : Option FactPtr → M (Option Err)) (hR : RetractKeeps A i0 p0 S R)
    (nodeRef : BetaRef) (tok : Option Nat) (e : Engine) (h : Keeps A i0 p0 S e) :
    wp (leftActivate R nodeRef tok) (fun _ e1 => Keeps A i0 p0 S e1) e := by
  unfold leftActivate
  simp only [wp_bind, wp_getBeta]
  intro _ node _ _
  split
  · exact h
  · simp only [wp_bind, wp_getTok]
    intro tk _
    refine wp_mono (wp_forRange (Keeps A i0 p0 S) _ ?_ _ _ _ e h) ?_
    · intro i b e1 h1
      split
      · exact h1
      · simp only [wp_bind, wp_getTok]
        intro cur _
        split
        · trivial
        · exact h1
        · simp only [wp_bind, wp_getProd]
          intro prod _
          split
          · trivial
          · simp only [wp_bind, wp_getAlpha]
            intro a _
            refine wp_mono (wp_forList (Keeps A i0 p0 S) _ ?_ _ _ e1 h1) ?_
            · intro f u e2 h2
              simp only [wp_bind]
              refine wp_mono (inject_keeps R hR _ _ _ e2 h2) ?_
              intro r e3 h3
              obtain ⟨success, err⟩ := r
              simp only
              split
              · exact h3
              · split <;> exact h3
            · intro r e2 h2
              split <;> exact h2
    · intro r e1 h1
      split
      · exact h1
      · exact activate_keeps _ _ e1 h1

theorem rightActivate_keeps (R : Option FactPtr → M (Option Err)) (hR : RetractKeeps A i0 p0 S R)
    (nodeRef : BetaRef) (newFact : FactPtr) (e : Engine) (h : Keeps A i0 p0 S e) :
    wp (rightActivate R nodeRef newFact) (fun _ e1 => Keeps A i0 p0 S e1) e := by
  unfold rightActivate
  simp only [wp_bind, wp_getBeta, wp_getProd]
  intro _ node _ _ prod _
  refine wp_mono (wp_forRange (Keeps A i0 p0 S) _ ?_ _ _ _ e h) ?_
  · intro i b e1 h1
    simp only [wp_bind, wp_getProd]
    intro p1 _
    split
    · trivial
    · simp only [wp_bind]
      refine wp_mono (inject_keeps R hR _ _ _ e1 h1) ?_
      intro r e2 h2
      obtain ⟨success, err⟩ := r
      simp only
      split
      · exact h2
      · split
        · simp only [wp_bind, wp_getProd]
          intro p2 _
          split
          · trivial
          · simp only [wp_bind]
            refine wp_mono (leftActivate_keeps R hR _ _ e2 h2) ?_
            intro _ e3 h3
            exact h3
        · exact h2
  · intro r e1 h1
    split
    · exact h1
    · split
      · exact h1
      · simp only [wp_bind]
        refine wp_mono (addToken_keeps _ _ _ e1 h1) ?_
        intro r2 e2 h2
        obtain ⟨tok, err⟩ := r2
        simp only
        split
        · exact h2
        · exact leftActivate_keeps R hR _ _ e2 h2

theorem removeFact_keeps (R : Option FactPtr → M (Option Err)) (hR : RetractKeeps A i0 p0 S R)
    (nodeRef : AlphaRef) (i : Nat) (e : Engine) (h : Keeps A i0 p0 S e)
    (hidx : nodeRef.attr = A → nodeRef.pos = i0 →
      ∀ a, (lookupAlpha e.alphaNetwork A)[i0]? = some a → a.facts[i]? ≠ some p0) :
    wp (removeFact R nodeRef i) (fun _ e1 => Keeps A i0 p0 S e1) e := by
  unfold removeFact
  simp only [wp_bind, wp_getAlpha]
  intro node hnode
  split
  · exact h
  · rename_i hlen
    simp only [wp_bind, wp_modifyAlpha]
    have h0 := Keeps.alpha h nodeRef (fun a => ({ a with facts := swapRemove a.facts i } : alphaNode))
      (fun _ => rfl) (by
        intro hattr hpos a ha hp
        have : node = a := by
          rw [hattr, hpos, ha] at hnode
          exact (Option.some.inj hnode).symm
        subst this
        exact mem_swapRemove _ _ _ (by omega) hp (hidx hattr hpos _ ha))
    refine wp_mono (wp_forList (Keeps A i0 p0 S) _ ?_ _ _ _ h0) ?_
    · intro bRef u e1 h1
      simp only [wp_bind, wp_getBeta, wp_getProd]
      intro _ bNode _ _ prod _
      refine wp_mono (wp_forRange (Keeps A i0 p0 S) _ ?_ _ _ _ e1 h1) ?_
      · intro k u2 e2 h2
        simp only [wp_bind, wp_getProd, wp_getAlpha]
        intro p1 _ cur _
        split
        · trivial
        · split
          · simp only [wp_bind, wp_getTok]
            intro tk _
            split
            · simp only [wp_bind, wp_nullPtr, wp_modifyTok]
              refine wp_mono (leftActivate_keeps R hR _ _ _ (h2.setIncoming _ _ _)) ?_
              intro err e3 h3
              split <;> exact h3
            · trivial
          · simp only [wp_bind]
            refine wp_mono (damage_keeps R hR _ _ e2 h2) ?_
            intro _ e3 h3
            exact h3
      · intro r e2 h2
        split
        · exact h2
        · simp only [wp_bind, wp_getAlpha, wp_getProd]
          intro cur _ p2 _
          split
          · simp only [wp_bind]
            refine wp_mono (addToken_keeps _ _ _ e2 h2) ?_
            intro r2 e3 h3
            obtain ⟨t, err⟩ := r2
            simp only
            split
            · exact h3
            · simp only [wp_bind]
              refine wp_mono (leftActivate_keeps R hR _ _ e3 h3) ?_
              intro err2 e4 h4
              split <;> exact h4
          · exact h2
    · intro r e1 h1
      split <;> exact h1

theorem ptrEq_some {x : Option FactPtr} {f : FactPtr} (h : ptrEq x (some f) = true) :
    ∃ y, x = some y ∧ y.addr = f.addr := by
  cases x with
  | none => simp [ptrEq] at h
  | some y => exact ⟨y, rfl, by simpa [ptrEq] using h⟩

theorem retract_keeps (fuel : Nat) : RetractKeeps A i0 p0 S (retract fuel) := by
  induction fuel with
  | zero =>
    intro oq e _ h
    cases oq with
    | none => exact h
    | some f => trivial
  | succ fuel ih =>
    intro oq e hq h
    cases oq with
    | none => exact h
    | some f =>
      unfold retract
      simp only [wp_bind, wp_getEngine]
      refine wp_mono (wp_forRange (Keeps A i0 p0 S) _ ?_ _ _ _ e h) ?_
      · intro i u e1 h1
        simp only [wp_bind, wp_getAlpha]
        intro node _
        refine wp_mono (wp_forRange (Keeps A i0 p0 S) _ ?_ _ _ _ e1 h1) ?_
        · intro j u2 e2 h2
          simp only [wp_bind, wp_getAlpha]
          intro cur hcur
          split
          · rename_i hp
            simp only [wp_bind]
            refine wp_mono (removeFact_keeps (retract fuel) ih _ _ e2 h2 ?_) ?_
            · intro hattr hpos a ha hc
              simp only at hattr hpos
              rw [hattr, hpos, ha] at hcur
              cases Option.some.inj hcur
              obtain ⟨y, hy, hyaddr⟩ := ptrEq_some hp
              rw [hc] at hy
              cases Option.some.inj hy
              exact hq f rfl hyaddr.symm
            · intro _ e3 h3
              exact h3
          · exact h2
        · intro _ e2 h2
          exact h2
      · intro _ e1 h1
        exact h1

end keeps

section keeps

variable {A : String} {i0 : Nat} {p0 : FactPtr} {S : List alphaNode}

theorem propagateNode_keeps (R : Option FactPtr → M (Option Err)) (hR : RetractKeeps A i0 p0 S R)
    (f : FactPtr) (i : Nat) (u : Unit) (e : Engine) (h : Keeps A i0 p0 S e) :
    wp (propagateNode R f i u) (fun _ e1 => Keeps A i0 p0 S e1) e := by
  unfold propagateNode
  simp only [wp_bind, wp_getAlpha]
  intro aNode _
  split
  · exact h
  · split
    · exact h
    · exact h
    · split
      · exact h
      · exact h
      · simp only [wp_bind, wp_modifyAlpha]
        have h0 := Keeps.alpha h ⟨f.fact.Attribute, i⟩
          (fun a => ({ a with facts := a.facts ++ [f] } : alphaNode)) (fun _ => rfl)
          (fun _ _ a _ hp => List.mem_append_left _ hp)
        refine wp_mono (wp_forList (Keeps A i0 p0 S) _ ?_ _ _ _ h0) ?_
        · intro bNode u2 e1 h1
          simp only [wp_bind]
          refine wp_mono (rightActivate_keeps R hR _ _ e1 h1) ?_
          intro err e2 h2
          split <;> exact h2
        · intro r e1 h1
          split <;> exact h1

theorem propagate_keeps (R : Option FactPtr → M (Option Err)) (hR : RetractKeeps A i0 p0 S R)
    (f : FactPtr) (e : Engine) (h : Keeps A i0 p0 S e) :
    wp (propagate R f) (fun _ e1 => Keeps A i0 p0 S e1) e := by
  unfold propagate
  simp only [wp_bind, wp_getEngine]
  refine wp_mono (wp_forRange (Keeps A i0 p0 S) _
    (fun i u e1 h1 => propagateNode_keeps R hR f i u e1 h1) _ _ _ e h) ?_
  intro r e1 h1
  split <;> exact h1

theorem turn_keeps (depth n : Nat) (e : Engine) (h : Keeps A i0 p0 S e) :
    wp (turn depth n) (fun _ e1 => Keeps A i0 p0 S e1) e := by
  induction n generalizing e with
  | zero => trivial
  | succ n ih =>
    unfold turn
    simp only [wp_bind, wp_popAgenda]
    constructor
    · intro _
      exact h
    · intro f _
      refine wp_mono (propagate_keeps (retract depth) (retract_keeps depth) f _ (h.agenda _)) ?_
      intro err e1 h1
      split
      · exact h1
      · exact ih e1 h1

end keeps

theorem wp_true {α : Type} (m : M α) (e : Engine) : wp m (fun _ _ => True) e := by
  unfold wp
  split <;> trivial

/-- When `turn` returns without error the agenda is empty. -/
theorem turn_agenda (depth n : Nat) (e : Engine) :
    wp (turn depth n) (fun r e1 => r = none → e1.agenda = []) e := by
  induction n generalizing e with
  | zero => trivial
  | succ n ih =>
    unfold turn
    simp only [wp_bind, wp_popAgenda]
    constructor
    · intro h _
      exact List.getLast?_eq_none_iff.1 h
    · intro f _
      refine wp_mono (wp_true _ _) ?_
      intro err e1 _
      split
      · rename_i herr
        intro hnone
        rw [hnone] at herr
        simp at herr
      · exact ih e1

theorem propagateNode_eq (R : Option FactPtr → M (Option Err)) (p : FactPtr) (i : Nat)
    (e : Engine) (a : alphaNode)
    (hget : (lookupAlpha e.alphaNetwork p.fact.Attribute)[i]? = some a) :
    propagateNode R p i () e =
      match nodeStep p.fact a with
      | .skip => .ret (.next ()) e
      | .fail err => .ret (.retn (some err)) e
      | .dup => .ret (.brk ()) e
      | .store => storeNode R p i a e := by
  unfold propagateNode nodeStep
  simp only [bind_apply, getAlpha, hget]
  by_cases hc : a.objConstraint.length > 0 ∧ p.fact.ObjectId ≠ a.objConstraint
  · rw [if_pos hc, if_pos hc]
    rfl
  · rw [if_neg hc, if_neg hc]
    generalize (if a.compareTo ≠ Value.nil then matchOp p.fact.Value a.comparator a.compareTo
      else (true, none)) = filt
    obtain ⟨b, err⟩ := filt
    cases b <;> cases err
    · rfl
    · rfl
    · simp only
      generalize dupScan p.fact a.facts = d
      obtain ⟨b2, err2⟩ := d
      cases err2 <;> cases b2 <;> rfl
    · rfl

theorem drop_cons_getElem? {α : Type} {l : List α} {i : Nat} {a : α} {rest : List α}
    (h : l.drop i = a :: rest) : l[i]? = some a ∧ l.drop (i + 1) = rest := by
  constructor
  · have := congrArg (fun x => x[0]?) h
    simpa using this
  · have := congrArg (fun x => x.drop 1) h
    simpa [Nat.add_comm] using this

theorem forRange_probe_quiet (R : Option FactPtr → M (Option Err)) (p : FactPtr) (e : Engine) :
    ∀ (l : List alphaNode) (i : Nat),
      (lookupAlpha e.alphaNetwork p.fact.Attribute).drop i = l →
      probe p.fact l i = .quiet →
      forRange (propagateNode R p) l.length i () e = .ret ((), none) e := by
  intro l
  induction l with
  | nil => intro i _ _; rfl
  | cons a rest ih =>
    intro i hdrop hprobe
    obtain ⟨hget, hrest⟩ := drop_cons_getElem? hdrop
    simp only [List.length_cons, forRange, bind_apply]
    rw [propagateNode_eq R p i e a hget]
    unfold probe at hprobe
    cases hstep : nodeStep p.fact a with
    | skip =>
      rw [hstep] at hprobe
      simp only
      exact ih (i + 1) hrest hprobe
    | fail err => rw [hstep] at hprobe; simp at hprobe
    | dup => rfl
    | store => rw [hstep] at hprobe; simp at hprobe

theorem forRange_probe_fail (R : Option FactPtr → M (Option Err)) (p : FactPtr) (e : Engine)
    (err : Err) :
    ∀ (l : List alphaNode) (i : Nat),
      (lookupAlpha e.alphaNetwork p.fact.Attribute).drop i = l →
      probe p.fact l i = .fail err →
      forRange (propagateNode R p) l.length i () e = .ret ((), some (some err)) e := by
  intro l
  induction l with
  | nil => intro i _ h; simp [probe] at h
  | cons a rest ih =>
    intro i hdrop hprobe
    obtain ⟨hget, hrest⟩ := drop_cons_getElem? hdrop
    simp only [List.length_cons, forRange, bind_apply]
    rw [propagateNode_eq R p i e a hget]
    unfold probe at hprobe
    cases hstep : nodeStep p.fact a with
    | skip =>
      rw [hstep] at hprobe
      simp only
      exact ih (i + 1) hrest hprobe
    | fail err2 =>
      rw [hstep] at hprobe
      simp only [Probe.fail.injEq] at hprobe
      subst hprobe
      rfl
    | dup => rw [hstep] at hprobe; simp at hprobe
    | store => rw [hstep] at hprobe; simp at hprobe

theorem propagate_quiet (R : Option FactPtr → M (Option Err)) (p : FactPtr) (e : Engine)
    (h : probe p.fact (lookupAlpha e.alphaNetwork p.fact.Attribute) 0 = .quiet) :
    propagate R p e = .ret none e := by
  unfold propagate
  simp only [bind_apply, getEngine]
  rw [forRange_probe_quiet R p e _ 0 (by simp) h]
  rfl

theorem propagate_fail (R : Option FactPtr → M (Option Err)) (p : FactPtr) (e : Engine) (err : Err)
    (h : probe p.fact (lookupAlpha e.alphaNetwork p.fact.Attribute) 0 = .fail err) :
    propagate R p e = .ret (some err) e := by
  unfold propagate
  simp only [bind_apply, getEngine]
  rw [forRange_probe_fail R p e err _ 0 (by simp) h]
  rfl

theorem Keeps.ofStore (e : Engine) (p0 : FactPtr) (i0 : Nat) (a : alphaNode)
    (hget : (lookupAlpha e.alphaNetwork p0.fact.Attribute)[i0]? = some a)
    (hun : Unused p0 e) (g : alphaNode → alphaNode)
    (hshape : ∀ x, eraseFacts (g x) = eraseFacts x) (hmem : p0 ∈ (g a).facts) :
    Keeps p0.fact.Attribute i0 p0
      ((lookupAlpha e.alphaNetwork p0.fact.Attribute).map eraseFacts)
      { e with alphaNetwork := updateAlpha (fun l => l.modify g i0) e.alphaNetwork p0.fact.Attribute } := by
  have hl := lookupAlpha_updateAlpha (fun l => l.modify g i0)
    (by simp) e.alphaNetwork p0.fact.Attribute p0.fact.Attribute
  rw [if_pos rfl] at hl
  refine ⟨?_, hun.1, hun.2, ?_⟩
  · show (lookupAlpha (updateAlpha _ e.alphaNetwork _) _).map eraseFacts = _
    rw [hl]
    apply List.ext_getElem?
    intro k
    simp only [List.getElem?_map, List.getElem?_modify]
    cases (lookupAlpha e.alphaNetwork p0.fact.Attribute)[k]? with
    | none => simp
    | some a =>
      simp only [Option.map_some']
      split <;> simp [hshape]
  · show ∃ a, (lookupAlpha (updateAlpha _ e.alphaNetwork _) _)[i0]? = some a ∧ p0 ∈ a.facts
    rw [hl]
    refine ⟨g a, ?_, hmem⟩
    rw [List.getElem?_modify, hget]
    simp

theorem storeNode_keeps (R : Option FactPtr → M (Option Err)) (p0 : FactPtr) (i0 : Nat)
    (e : Engine) (a : alphaNode)
    (hR : RetractKeeps p0.fact.Attribute i0 p0
      ((lookupAlpha e.alphaNetwork p0.fact.Attribute).map eraseFacts) R)
    (hget : (lookupAlpha e.alphaNetwork p0.fact.Attribute)[i0]? = some a)
    (hun : Unused p0 e) :
    wp (storeNode R p0 i0 a)
      (fun _ e1 => Keeps p0.fact.Attribute i0 p0
        ((lookupAlpha e.alphaNetwork p0.fact.Attribute).map eraseFacts) e1) e := by
  unfold storeNode
  simp only [wp_bind, wp_modifyAlpha]
  have h0 := Keeps.ofStore e p0 i0 a hget hun
    (fun a => ({ a with facts := a.facts ++ [p0] } : alphaNode)) (fun _ => rfl) (by simp)
  refine wp_mono (wp_forList _ _ ?_ _ _ _ h0) ?_
  · intro bNode u2 e1 h1
    simp only [wp_bind]
    refine wp_mono (rightActivate_keeps R hR _ _ e1 h1) ?_
    intro err e2 h2
    split <;> exact h2
  · intro r e1 h1
    split <;> exact h1

theorem forRange_probe_store (R : Option FactPtr → M (Option Err)) (p0 : FactPtr) (i0 : Nat)
    (e : Engine)
    (hR : RetractKeeps p0.fact.Attribute i0 p0
      ((lookupAlpha e.alphaNetwork p0.fact.Attribute).map eraseFacts) R)
    (hun : Unused p0 e) :
    ∀ (l : List alphaNode) (i : Nat),
      (lookupAlpha e.alphaNetwork p0.fact.Attribute).drop i = l →
      probe p0.fact l i = .store i0 →
      wp (forRange (propagateNode R p0) l.length i ())
        (fun _ e1 => Keeps p0.fact.Attribute i0 p0
          ((lookupAlpha e.alphaNetwork p0.fact.Attribute).map eraseFacts) e1) e := by
  intro l
  induction l with
  | nil => intro i _ h; simp [probe] at h
  | cons a rest ih =>
    intro i hdrop hprobe
    obtain ⟨hget, hrest⟩ := drop_cons_getElem? hdrop
    simp only [List.length_cons, forRange, wp_bind]
    unfold probe at hprobe
    cases hstep : nodeStep p0.fact a with
    | skip =>
      rw [hstep] at hprobe
      have hb : propagateNode R p0 i () e = .ret (.next ()) e := by
        rw [propagateNode_eq R p0 i e a hget, hstep]
      unfold wp
      rw [hb]
      exact ih (i + 1) hrest hprobe
    | fail err => rw [hstep] at hprobe; simp at hprobe
    | dup => rw [hstep] at hprobe; simp at hprobe
    | store =>
      rw [hstep] at hprobe
      simp only [Probe.store.injEq] at hprobe
      subst hprobe
      have hb2 : propagateNode R p0 i () e = storeNode R p0 i a e := by
        rw [propagateNode_eq R p0 i e a hget, hstep]
      have hw := storeNode_keeps R p0 i e a hR hget hun
      have hw2 : wp (propagateNode R p0 i ())
          (fun _ e1 => Keeps p0.fact.Attribute i p0
            ((lookupAlpha e.alphaNetwork p0.fact.Attribute).map eraseFacts) e1) e := by
        unfold wp at hw ⊢
        rw [hb2]
        exact hw
      refine wp_mono hw2 ?_
      intro r e1 h1
      cases r with
      | next b1 =>
        exact wp_forRange _ _ (fun j u e2 h2 => propagateNode_keeps R hR p0 j u e2 h2) _ _ _ e1 h1
      | brk b1 => exact h1
      | retn x => exact h1

theorem propagate_store (R : Option FactPtr → M (Option Err)) (p0 : FactPtr) (i0 : Nat)
    (e : Engine)
    (hR : RetractKeeps p0.fact.Attribute i0 p0
      ((lookupAlpha e.alphaNetwork p0.fact.Attribute).map eraseFacts) R)
    (hun : Unused p0 e)
    (h : probe p0.fact (lookupAlpha e.alphaNetwork p0.fact.Attribute) 0 = .store i0) :
    wp (propagate R p0)
      (fun _ e1 => Keeps p0.fact.Attribute i0 p0
        ((lookupAlpha e.alphaNetwork p0.fact.Attribute).map eraseFacts) e1) e := by
  unfold propagate
  simp only [wp_bind, wp_getEngine]
  refine wp_mono (forRange_probe_store R p0 i0 e hR hun _ 0 (by simp) h) ?_
  intro r e1 h1
  split <;> exact h1

theorem matchOp_EQ_refl_total (v w : Value) (h : matchOp v .EQ v = (true, none)) :
    (matchOp v .EQ w).2 = none := by
  unfold matchOp at h ⊢
  cases v <;> cases w <;> simp_all [Value.kind]
  all_goals first
    | done
    | (split <;> simp)

theorem dupScan_of_mem (f : Fact) (hrefl : matchOp f.Value .EQ f.Value = (true, none))
    (l : List FactPtr) (p : FactPtr) (hp : p ∈ l) (hf : p.fact = f) :
    dupScan f l = (true, none) := by
  induction l with
  | nil => simp at hp
  | cons x rest ih =>
    unfold dupScan
    have hne := matchOp_EQ_refl_total f.Value x.fact.Value hrefl
    rcases hm : matchOp f.Value .EQ x.fact.Value with ⟨b, err⟩
    rw [hm] at hne
    simp only at hne
    subst hne
    simp only
    by_cases hd : f.ObjectId = x.fact.ObjectId ∧ b = true
    · rw [if_pos hd]
    · rw [if_neg hd]
      rcases List.mem_cons.1 hp with h1 | h1
      · exfalso
        apply hd
        subst h1
        subst hf
        rw [hrefl] at hm
        simp only [Prod.mk.injEq] at hm
        exact ⟨rfl, hm.1.symm⟩
      · exact ih h1

theorem nodeStep_skip_static (f : Fact) (a0 a1 : alphaNode)
    (hs : eraseFacts a0 = eraseFacts a1) (h : nodeStep f a0 = .skip) :
    nodeStep f a1 = .skip := by
  have h1 : a0.objConstraint = a1.objConstraint := by simpa [eraseFacts] using congrArg alphaNode.objConstraint hs
  have h2 : a0.comparator = a1.comparator := by simpa [eraseFacts] using congrArg alphaNode.comparator hs
  have h3 : a0.compareTo = a1.compareTo := by simpa [eraseFacts] using congrArg alphaNode.compareTo hs
  unfold nodeStep at h ⊢
  rw [← h1, ← h2, ← h3]
  by_cases hc : a0.objConstraint.length > 0 ∧ f.ObjectId ≠ a0.objConstraint
  · rw [if_pos hc]
  · rw [if_neg hc] at h ⊢
    generalize (if a0.compareTo ≠ Value.nil then matchOp f.Value a0.comparator a0.compareTo
      else (true, none)) = filt at h ⊢
    obtain ⟨b, err⟩ := filt
    cases b <;> cases err
    · rfl
    · simp at h
    · exfalso
      simp only at h
      generalize dupScan f a0.facts = d at h
      obtain ⟨b2, err2⟩ := d
      cases err2 <;> cases b2 <;> simp at h
    · simp at h

theorem nodeStep_store_dup (f : Fact) (a0 a1 : alphaNode) (p : FactPtr)
    (hs : eraseFacts a0 = eraseFacts a1) (h : nodeStep f a0 = .store)
    (hrefl : matchOp f.Value .EQ f.Value = (true, none)) (hp : p ∈ a1.facts) (hf : p.fact = f) :
    nodeStep f a1 = .dup := by
  have h1 : a0.objConstraint = a1.objConstraint := by simpa [eraseFacts] using congrArg alphaNode.objConstraint hs
  have h2 : a0.comparator = a1.comparator := by simpa [eraseFacts] using congrArg alphaNode.comparator hs
  have h3 : a0.compareTo = a1.compareTo := by simpa [eraseFacts] using congrArg alphaNode.compareTo hs
  unfold nodeStep at h ⊢
  rw [← h1, ← h2, ← h3]
  by_cases hc : a0.objConstraint.length > 0 ∧ f.ObjectId ≠ a0.objConstraint
  · rw [if_pos hc] at h
    simp at h
  · rw [if_neg hc] at h ⊢
    generalize (if a0.compareTo ≠ Value.nil then matchOp f.Value a0.comparator a0.compareTo
      else (true, none)) = filt at h ⊢
    obtain ⟨b, err⟩ := filt
    cases b <;> cases err
    · simp at h
    · simp at h
    · simp only
      rw [dupScan_of_mem f hrefl a1.facts p hp hf]
    · simp at h

theorem probe_store_ge (f : Fact) (i0 : Nat) :
    ∀ (l : List alphaNode) (i : Nat), probe f l i = .store i0 → i ≤ i0 := by
  intro l
  induction l with
  | nil => intro i h; simp [probe] at h
  | cons a rest ih =>
    intro i h
    unfold probe at h
    cases hstep : nodeStep f a with
    | skip =>
      rw [hstep] at h
      have := ih (i + 1) h
      omega
    | fail err => rw [hstep] at h; simp at h
    | dup => rw [hstep] at h; simp at h
    | store =>
      rw [hstep] at h
      simp only [Probe.store.injEq] at h
      omega

theorem probe_quiet_of_store (f : Fact) (p : FactPtr) (i0 : Nat)
    (hrefl : matchOp f.Value .EQ f.Value = (true, none)) (hf : p.fact = f) :
    ∀ (l0 l1 : List alphaNode) (i : Nat),
      l1.map eraseFacts = l0.map eraseFacts →
      probe f l0 i = .store i0 →
      (∃ a, l1[i0 - i]? = some a ∧ p ∈ a.facts) →
      probe f l1 i = .quiet := by
  intro l0
  induction l0 with
  | nil => intro l1 i _ h; simp [probe] at h
  | cons a0 rest0 ih =>
    intro l1 i hmap h hmem
    cases l1 with
    | nil => simp at hmap
    | cons a1 rest1 =>
      simp only [List.map_cons, List.cons.injEq] at hmap
      obtain ⟨hs, hrest⟩ := hmap
      unfold probe at h ⊢
      cases hstep : nodeStep f a0 with
      | skip =>
        rw [hstep] at h
        rw [nodeStep_skip_static f a0 a1 hs.symm hstep]
        simp only at h ⊢
        have hge := probe_store_ge f i0 rest0 (i + 1) h
        refine ih rest1 (i + 1) hrest h ?_
        obtain ⟨a, ha, hp⟩ := hmem
        refine ⟨a, ?_, hp⟩
        have : i0 - i = (i0 - (i + 1)) + 1 := by omega
        rw [this, List.getElem?_cons_succ] at ha
        exact ha
      | fail err => rw [hstep] at h; simp at h
      | dup => rw [hstep] at h; simp at h
      | store =>
        rw [hstep] at h
        simp only [Probe.store.injEq] at h
        subst h
        obtain ⟨a, ha, hp⟩ := hmem
        simp only [Nat.sub_self, List.getElem?_cons_zero, Option.some.injEq] at ha
        subst ha
        rw [nodeStep_store_dup f a0 a1 p hs.symm hstep hrefl hp hf]

theorem Unused_of_outgoingAllocated (e : Engine) (f : Fact) (h : outgoingAllocated e = true) :
    Unused ⟨e.nextAddr, f⟩ { e with agenda := [], nextAddr := e.nextAddr + 1 } := by
  refine ⟨Nat.lt_succ_self _, ?_⟩
  intro tk htk q hq
  unfold outgoingAllocated at h
  rw [List.all_eq_true] at h
  have h1 := h tk htk
  rw [List.all_eq_true] at h1
  have h2 := h1 (some q) hq
  simp only [decide_eq_true_eq] at h2
  exact Nat.ne_of_lt h2

theorem Assert_quiet (k : Nat) (e : Engine) (f : Fact) (hag : e.agenda = [])
    (hq : probe f (lookupAlpha e.alphaNetwork f.Attribute) 0 = .quiet) :
    Assert (k + 2) f e = .ret none { e with nextAddr := e.nextAddr + 1 } := by
  unfold Assert
  simp only [bind_apply, newFactPtr, pushAgenda, modifyEngine, hag]
  unfold turn
  simp only [bind_apply, popAgenda, List.getLast?_singleton, List.dropLast_single]
  rw [propagate_quiet (retract (k + 2)) ⟨e.nextAddr, f⟩
    { e with agenda := [], nextAddr := e.nextAddr + 1 } hq]
  simp only [Option.isSome_none, Bool.false_eq_true, if_false]
  unfold turn
  simp only [bind_apply, popAgenda, List.getLast?_nil]
  obtain ⟨ag, al, nf, pr, st, na, mo⟩ := e
  simp only at hag
  subst hag
  rfl

/-! ## The order of the ranges over the test network -/

/-- The order of a map range shows in the result.  In `orderEngine` the test
network has the variables v, w, y, and Assert (o2,b,x) injects the fact into
the token of (o1,a,x).  When the value loop of `inject` visits v first, the
entry of v rejects the fact (its value is no string) and Assert returns nil;
when it visits w first, `match` fails on the two values and Assert returns
the error. -/
theorem Assert_depends_on_map_order :
    (Assert 9 ⟨"o2", "b", .other 1⟩ { orderEngine with mapOrders := [0, 0] }).obs
        (fun e => (tokenSlots e).length) = .ret none 2 ∧
    (Assert 9 ⟨"o2", "b", .other 1⟩ { orderEngine with mapOrders := [0, 1] }).obs
        (fun e => (tokenSlots e).length)
      = .ret (some (.matchCannotCompare (.Other 1))) 1 := by
  decide!
/-- C1 (witness of the amended claim): the engine with the rule IF ?x.a == 1
THEN ?x.b = 2 and the fact (o2,a,1), and the fact (o1,a,1). -/
theorem Retract_not_stored_witness :
    isStored (calls [Define ruleAB, Assert 9 ⟨"o2", "a", intV 1⟩] Engine.new).engine
        ⟨"o1", "a", intV 1⟩ = false ∧
      (Retract 9 ⟨"o1", "a", intV 1⟩
          (calls [Define ruleAB, Assert 9 ⟨"o2", "a", intV 1⟩] Engine.new).engine
        = .ret (some .cannotRetractNil)
          (calls [Define ruleAB, Assert 9 ⟨"o2", "a", intV 1⟩] Engine.new).engine ∨
       ∃ k, Retract 9 ⟨"o1", "a", intV 1⟩
          (calls [Define ruleAB, Assert 9 ⟨"o2", "a", intV 1⟩] Engine.new).engine
        = .ret (some (.matchCannotCompare k))
          (calls [Define ruleAB, Assert 9 ⟨"o2", "a", intV 1⟩] Engine.new).engine) :=
  ⟨by decide!, Retract_not_stored 9 _ _ (by decide!)⟩

/-- C1 (counterexample): on a fresh engine with the rule IF ?x.a == 1 THEN
?x.b = 2 and the fact (o2,a,1) asserted, the fact (o1,a,1) is not stored, and
Retract (o1,a,1) returns the error "Cannot retract nil". -/
theorem Retract_not_stored_is_error :
    (calls [Define ruleAB, Assert 9 ⟨"o2", "a", intV 1⟩] Engine.new).obs
        (fun e => isStored e ⟨"o1", "a", intV 1⟩)
      = .ret [none, none] false ∧
    (calls [Define ruleAB, Assert 9 ⟨"o2", "a", intV 1⟩, Retract 9 ⟨"o1", "a", intV 1⟩]
        Engine.new).obs allInferences
      = .ret [none, none, some .cannotRetractNil] [⟨"o2", "b", intV 2⟩] := by
  decide!
/-- C3 (amended): for every engine state with an empty agenda (and, as in
every state of the program, no outgoing pointer at or above the address
counter) and every fact `f` whose `Value` is EQ-equal to itself (a string, an
integer or a float other than NaN), if `Assert(f)` returns without error then
a second `Assert(f)` returns without error too and leaves the engine as it
was but for the address counter: the alpha nodes' fact lists, the tokens and
every `GetInferences(o, a)` result are the same.  The first assertion may
visit the test networks in any order: `e` is any engine, with whatever orders
the runtime picks (`mapOrders`). -/
theorem Assert_twice (fuel : Nat) (e e1 : Engine) (f : Fact) (hag : e.agenda = [])
    (hout : outgoingAllocated e = true) (hrefl : matchOp f.Value .EQ f.Value = (true, none))
    (h1 : Assert fuel f e = .ret none e1) :
    Assert fuel f e1 = .ret none { e1 with nextAddr := e1.nextAddr + 1 } ∧
      ∀ o a, GetInferences { e1 with nextAddr := e1.nextAddr + 1 } o a = GetInferences e1 o a := by
  refine ⟨?_, fun _ _ => rfl⟩
  have hun := Unused_of_outgoingAllocated e f hout
  unfold Assert at h1
  simp only [bind_apply, newFactPtr, pushAgenda, modifyEngine, hag] at h1
  cases fuel with
  | zero => simp [turn] at h1
  | succ k =>
    unfold turn at h1
    simp only [bind_apply, popAgenda, List.getLast?_singleton, List.dropLast_single] at h1
    cases hprobe : probe f (lookupAlpha e.alphaNetwork f.Attribute) 0 with
    | quiet =>
      rw [propagate_quiet (retract (k + 1)) ⟨e.nextAddr, f⟩
        { e with agenda := [], nextAddr := e.nextAddr + 1 } hprobe] at h1
      simp only [Option.isSome_none, Bool.false_eq_true, if_false] at h1
      cases k with
      | zero => simp [turn] at h1
      | succ k =>
        unfold turn at h1
        simp only [bind_apply, popAgenda, List.getLast?_nil, pure_apply, Res.ret.injEq,
          true_and] at h1
        subst h1
        exact Assert_quiet k _ f rfl hprobe
    | fail err =>
      rw [propagate_fail (retract (k + 1)) ⟨e.nextAddr, f⟩
        { e with agenda := [], nextAddr := e.nextAddr + 1 } err hprobe] at h1
      simp [pure_apply] at h1
    | store i0 =>
      have hK := propagate_store (retract (k + 1)) ⟨e.nextAddr, f⟩ i0
        { e with agenda := [], nextAddr := e.nextAddr + 1 } (retract_keeps (k + 1)) hun hprobe
      cases hres : propagate (retract (k + 1)) ⟨e.nextAddr, f⟩
          { e with agenda := [], nextAddr := e.nextAddr + 1 } with
      | crash c => rw [hres] at h1; simp at h1
      | outOfFuel => rw [hres] at h1; simp at h1
      | ret err ea =>
        have hKa := wp_ret hK hres
        rw [hres] at h1
        cases err with
        | some x => simp [pure_apply] at h1
        | none =>
          simp only [Option.isSome_none, Bool.false_eq_true, if_false] at h1
          have hK1 := wp_ret (turn_keeps (k + 1) k ea hKa) h1
          have hag1 := wp_ret (turn_agenda (k + 1) k ea) h1 rfl
          cases k with
          | zero => simp [turn] at h1
          | succ k =>
            refine Assert_quiet k e1 f hag1 ?_
            refine probe_quiet_of_store f ⟨e.nextAddr, f⟩ i0 hrefl rfl _ _ 0 hK1.shape hprobe ?_
            simpa using hK1.mem


/-- C3 (witness of the amended claim): the fresh engine with the rule IF
?x.a == 1 THEN ?x.b = 2 and the fact (o1,a,1), asserted twice; there is exactly
one inference, (o1,b,2), after the first and after the second assertion. -/
theorem Assert_twice_witness :
    (Assert 9 ⟨"o1", "a", intV 1⟩
        (Assert 9 ⟨"o1", "a", intV 1⟩ (Define ruleAB Engine.new).engine).engine
      = .ret none { (Assert 9 ⟨"o1", "a", intV 1⟩ (Define ruleAB Engine.new).engine).engine with
          nextAddr := (Assert 9 ⟨"o1", "a", intV 1⟩ (Define ruleAB Engine.new).engine).engine.nextAddr
            + 1 } ∧
      ∀ o a, GetInferences
          { (Assert 9 ⟨"o1", "a", intV 1⟩ (Define ruleAB Engine.new).engine).engine with
          nextAddr := (Assert 9 ⟨"o1", "a", intV 1⟩ (Define ruleAB Engine.new).engine).engine.nextAddr
            + 1 } o a
        = GetInferences (Assert 9 ⟨"o1", "a", intV 1⟩ (Define ruleAB Engine.new).engine).engine o a) ∧
    allInferences (Assert 9 ⟨"o1", "a", intV 1⟩ (Define ruleAB Engine.new).engine).engine
      = [⟨"o1", "b", intV 2⟩] :=
  ⟨Assert_twice 9 (Define ruleAB Engine.new).engine
      (Assert 9 ⟨"o1", "a", intV 1⟩ (Define ruleAB Engine.new).engine).engine ⟨"o1", "a", intV 1⟩
      (by decide!) (by decide!) (by decide!) (by decide!),
    by decide!⟩

/-- C3 (counterexample): on a fresh engine with the rule IF ?x.a == ?v THEN
?x.b = 1, the fact (o,a,NaN) asserted once gives one inference and returns
without error; asserted a second time it is stored again (NaN is not EQ-equal
to itself) and there are two inferences. -/
theorem Assert_twice_NaN :
    (calls [Define ruleAny, Assert 9 ⟨"o", "a", nanV⟩] Engine.new).obs allInferences
      = .ret [none, none] [⟨"o", "b", intV 1⟩] ∧
    (calls [Define ruleAny, Assert 9 ⟨"o", "a", nanV⟩, Assert 9 ⟨"o", "a", nanV⟩]
        Engine.new).obs allInferences
      = .ret [none, none, none] [⟨"o", "b", intV 1⟩, ⟨"o", "b", intV 1⟩] := by
  decide!

/-- C2 (failing input): on a fresh engine with the rule IF ?x.p == ready AND
?y.p == set AND NOT _.k == true THEN ?x.ok = true, after Assert (a,p,ready),
Assert (b,p,set), Assert (c,k,true) the agenda is empty, and Retract
(c,k,true), which empties the alpha node of the negated condition and fires
the token, returns without error and leaves the fired fact (a,ok,true) on
the agenda: `Retract` never runs `turn`. -/
theorem Retract_leaves_agenda :
    (calls [Define ruleNeg, Assert 9 ⟨"a", "p", .str "ready"⟩, Assert 9 ⟨"b", "p", .str "set"⟩,
        Assert 9 ⟨"c", "k", .str "true"⟩] Engine.new).obs agendaFacts
      = .ret [none, none, none, none] [] ∧
    (calls [Define ruleNeg, Assert 9 ⟨"a", "p", .str "ready"⟩, Assert 9 ⟨"b", "p", .str "set"⟩,
        Assert 9 ⟨"c", "k", .str "true"⟩, Retract 9 ⟨"c", "k", .str "true"⟩] Engine.new).obs
        agendaFacts
      = .ret [none, none, none, none, none] [⟨"a", "ok", .str "true"⟩] := by
  decide!

/-- C4 (failing input): on a fresh engine with the rule IF ?x.a == 1 THEN
?x.b = 2, after Assert (o1,a,1) and Assert (o2,a,1) there are the two
inferences (o1,b,2) and (o2,b,2), and Retract (o1,a,1) crashes: `removeFact`
damages every token of the production, the first one destroys itself, and the
loop then reads a nil token from the shortened slice. -/
theorem Retract_crashes_with_two_tokens :
    (calls [Define ruleAB, Assert 9 ⟨"o1", "a", intV 1⟩, Assert 9 ⟨"o2", "a", intV 1⟩]
        Engine.new).obs allInferences
      = .ret [none, none, none] [⟨"o1", "b", intV 2⟩, ⟨"o2", "b", intV 2⟩] ∧
    (calls [Define ruleAB, Assert 9 ⟨"o1", "a", intV 1⟩, Assert 9 ⟨"o2", "a", intV 1⟩,
        Retract 9 ⟨"o1", "a", intV 1⟩] Engine.new).obs allInferences
      = .crash .nilDeref := by
  decide!

/-- C5 (failing input): on a fresh engine with the rule IF ?x.p == 1 AND
?y.q == 1 THEN ?x.r = ?y, the facts (a,p,1), (b,p,1), (c,q,1), (d,q,1)
asserted in this order give the inferences (a,r,c), (b,r,c), (a,r,d); asserted
in the order (b,p,1), (c,q,1), (d,q,1), (a,p,1) they give (b,r,c), (b,r,d),
(a,r,c).  Every call returns without error in both runs. -/
theorem Assert_order_changes_inferences :
    (calls [Define rulePair, Assert 9 ⟨"a", "p", intV 1⟩, Assert 9 ⟨"b", "p", intV 1⟩,
        Assert 9 ⟨"c", "q", intV 1⟩, Assert 9 ⟨"d", "q", intV 1⟩] Engine.new).obs allInferences
      = .ret [none, none, none, none, none]
          [⟨"a", "r", .str "c"⟩, ⟨"b", "r", .str "c"⟩, ⟨"a", "r", .str "d"⟩] ∧
    (calls [Define rulePair, Assert 9 ⟨"b", "p", intV 1⟩, Assert 9 ⟨"c", "q", intV 1⟩,
        Assert 9 ⟨"d", "q", intV 1⟩, Assert 9 ⟨"a", "p", intV 1⟩] Engine.new).obs allInferences
      = .ret [none, none, none, none, none]
          [⟨"b", "r", .str "c"⟩, ⟨"b", "r", .str "d"⟩, ⟨"a", "r", .str "c"⟩] := by
  decide!

/-- C6 (failing input): on a fresh engine with the rule IF ?x.p == 1 AND
?y.q == 1 THEN ?x.r = ?y, the state after Assert (o1,p,1), Assert (o2,q,1)
has an empty agenda, does not store (o3,p,1) and has the inference
(o1,r,o2); Assert (o3,p,1) followed by Retract (o3,p,1) both return without
error and leave no inference at all: the retraction also emptied the slot of
the token that held (o1,p,1). -/
theorem Assert_Retract_loses_inference :
    (calls [Define rulePair, Assert 9 ⟨"o1", "p", intV 1⟩, Assert 9 ⟨"o2", "q", intV 1⟩]
        Engine.new).obs
        (fun e => (agendaFacts e, isStored e ⟨"o3", "p", intV 1⟩, allInferences e))
      = .ret [none, none, none] ([], false, [⟨"o1", "r", .str "o2"⟩]) ∧
    (calls [Define rulePair, Assert 9 ⟨"o1", "p", intV 1⟩, Assert 9 ⟨"o2", "q", intV 1⟩,
        Assert 9 ⟨"o3", "p", intV 1⟩, Retract 9 ⟨"o3", "p", intV 1⟩] Engine.new).obs allInferences
      = .ret [none, none, none, none, none] [] := by
  decide!

/-- C7 (failing input): on a fresh engine with the rule IF ?x.k >= 1 AND NOT
_.k == 5 THEN ?x.ok = 1, after Assert (a,k,3) and Assert (b,k,4) two tokens
are complete with the null fact (address 0) in the negated slot and the
inferences are (a,ok,1) and (b,ok,1); Assert (c,k,5) removes both; Retract
(c,k,5) returns without error and gives (a,ok,1) three times: (b,ok,1) does
not come back. -/
theorem Retract_does_not_restore :
    (calls [Define ruleGuard, Assert 9 ⟨"a", "k", intV 3⟩, Assert 9 ⟨"b", "k", intV 4⟩]
        Engine.new).obs (fun e => (tokenSlots e, allInferences e))
      = .ret [none, none, none]
          ([[some ⟨1, ⟨"a", "k", intV 3⟩⟩, some ⟨0, ⟨"", "", .nil⟩⟩],
            [some ⟨3, ⟨"b", "k", intV 4⟩⟩, some ⟨0, ⟨"", "", .nil⟩⟩]],
           [⟨"a", "ok", intV 1⟩, ⟨"b", "ok", intV 1⟩]) ∧
    (calls [Define ruleGuard, Assert 9 ⟨"a", "k", intV 3⟩, Assert 9 ⟨"b", "k", intV 4⟩,
        Assert 9 ⟨"c", "k", intV 5⟩] Engine.new).obs allInferences
      = .ret [none, none, none, none] [] ∧
    (calls [Define ruleGuard, Assert 9 ⟨"a", "k", intV 3⟩, Assert 9 ⟨"b", "k", intV 4⟩,
        Assert 9 ⟨"c", "k", intV 5⟩, Retract 9 ⟨"c", "k", intV 5⟩] Engine.new).obs allInferences
      = .ret [none, none, none, none, none]
          [⟨"a", "ok", intV 1⟩, ⟨"a", "ok", intV 1⟩, ⟨"a", "ok", intV 1⟩] := by
  decide!

/-- The steps "1 Fact Set 1" to "5 Fact Set 1" of `TestEngine`, with the nine
facts asserted in the order in which the test lists them: no call returns an
error, and the numbers of `passed` inferences are 1, then 0 after retracting
the first fact, 1 after asserting it again, 0 after the three deal killers
and 1 after retracting them. -/
theorem TestEngine_listed_order :
    (calls (defineTestRules ++ factSet1.map (Assert 20)) Engine.new).obs passedCount
      = .ret (List.replicate 15 none) 1 ∧
    (calls (defineTestRules ++ factSet1.map (Assert 20) ++
        [Retract 20 ⟨"set1obj1", "testAttr1", f64V 4625794388685056115⟩]) Engine.new).obs passedCount
      = .ret (List.replicate 16 none) 0 ∧
    (calls (defineTestRules ++ factSet1.map (Assert 20) ++
        [Retract 20 ⟨"set1obj1", "testAttr1", f64V 4625794388685056115⟩,
         Assert 20 ⟨"set1obj1", "testAttr1", f64V 4625794388685056115⟩]) Engine.new).obs passedCount
      = .ret (List.replicate 17 none) 1 ∧
    (calls (defineTestRules ++ factSet1.map (Assert 20) ++
        [Retract 20 ⟨"set1obj1", "testAttr1", f64V 4625794388685056115⟩,
         Assert 20 ⟨"set1obj1", "testAttr1", f64V 4625794388685056115⟩,
         Assert 20 (dealKiller "any1"), Assert 20 (dealKiller "any2"),
         Assert 20 (dealKiller "any3")]) Engine.new).obs passedCount
      = .ret (List.replicate 20 none) 0 ∧
    (calls (defineTestRules ++ factSet1.map (Assert 20) ++
        [Retract 20 ⟨"set1obj1", "testAttr1", f64V 4625794388685056115⟩,
         Assert 20 ⟨"set1obj1", "testAttr1", f64V 4625794388685056115⟩,
         Assert 20 (dealKiller "any1"), Assert 20 (dealKiller "any2"),
         Assert 20 (dealKiller "any3"), Retract 20 (dealKiller "any2"),
         Retract 20 (dealKiller "any3"), Retract 20 (dealKiller "any1")]) Engine.new).obs
        passedCount
      = .ret (List.replicate 23 none) 1 := by
  decide!

/-! ## Comparison of integers -/

theorem matchOp_int (k : IntKind) (l r : Int) (op : Operator) :
    matchOp (.int k l) op (.int k r) =
      (match op with
        | .EQ => decide (l = r)
        | .GE => decide (r ≤ l)
        | .GT => decide (r < l)
        | .LE => decide (l ≤ r)
        | .LT => decide (l < r)
        | .NE => decide (l ≠ r), none) := by
  unfold matchOp
  cases op <;> simp [Value.kind]

/-! ## The errors of `Define` -/

theorem matchOp_EQ_no_error (v w : Value)
    (hv : match v with | .nil => True | .str _ => True | .int _ _ => True | _ => False) :
    (matchOp v .EQ w).2 = none := by
  unfold matchOp
  cases v <;> cases w <;> simp [Value.kind] at hv ⊢
  all_goals (split <;> simp_all)

theorem findReusable_no_error (oc : String) (cmp : Operator) (v : Value)
    (hv : match v with | .nil => True | .str _ => True | .int _ _ => True | _ => False) :
    ∀ (nodes : List alphaNode) (j : Nat), (findReusable oc cmp v nodes j).2 = none := by
  intro nodes
  induction nodes with
  | nil => intro j; rfl
  | cons a rest ih =>
    intro j
    unfold findReusable
    have h := matchOp_EQ_no_error v a.compareTo hv
    generalize matchOp v .EQ a.compareTo = m at h
    obtain ⟨b, err⟩ := m
    simp only at h
    subst h
    simp only
    split
    · rfl
    · exact ih (j + 1)

theorem getProd_of_lt (p : Nat) (e : Engine) (h : p < e.productions.length) :
    getProd p e = .ret (e.productions[p]) e := by
  unfold getProd
  rw [List.getElem?_eq_getElem h]

theorem Res.obs_ret {α β : Type} {g : Engine → β} {r : Res α} {a : α} {b : β}
    (h : r.obs g = .ret a b) : ∃ e1, r = .ret a e1 ∧ g e1 = b := by
  cases r with
  | ret a1 e1 =>
    simp only [Res.obs, Seen.ret.injEq] at h
    exact ⟨e1, by rw [h.1], h.2⟩
  | crash c => simp [Res.obs] at h
  | outOfFuel => simp [Res.obs] at h

theorem defineCondition_typed (p i : Nat) (c : Condition) (e : Engine)
    (hp : p < e.productions.length) (hc : c.typed = true) :
    ∃ e1, defineCondition p i c e = .ret (conditionErr c) e1 ∧
      e1.productions.length = e.productions.length := by
  apply Res.obs_ret
  obtain ⟨ne, oid, attr, cmp, val⟩ := c
  unfold defineCondition
  simp only [bind_apply, modifyEngine]
  have hp1 : (if hasAlpha e.alphaNetwork attr = true then e
      else { e with alphaNetwork := e.alphaNetwork ++ [(attr, [])] }).productions
        = e.productions := by
    split <;> rfl
  generalize (if hasAlpha e.alphaNetwork attr = true then e
      else { e with alphaNetwork := e.alphaNetwork ++ [(attr, [])] }) = e1 at hp1 ⊢
  have hget : e.productions[p]? = some (e.productions[p]) := List.getElem?_eq_getElem hp
  rcases oid with v | ov
  · rcases val with w | wv
    · have hfr := findReusable_no_error "" cmp .nil trivial (lookupAlpha e1.alphaNetwork attr) 0
      generalize hF : findReusable "" cmp .nil (lookupAlpha e1.alphaNetwork attr) 0 = fr at hfr
      obtain ⟨found, err⟩ := fr
      simp only at hfr
      subst hfr
      cases cmp <;> cases found <;>
        simp [conditionErr, Condition.valueVariableNonEQ, Term.isVar, pure_apply, bind_apply,
          getEngine, hp1, Res.obs, hF, modifyAlpha, modifyEngine, modifyProd, getProd, hget]
    · rcases wv with _ | s2 | ⟨k, n⟩ | _ | _
      · simp [Condition.typed] at hc
      · have hfr := findReusable_no_error "" cmp (.str s2) trivial (lookupAlpha e1.alphaNetwork attr) 0
        generalize hF : findReusable "" cmp (.str s2) (lookupAlpha e1.alphaNetwork attr) 0 = fr at hfr
        obtain ⟨found, err⟩ := fr
        simp only at hfr
        subst hfr
        cases cmp <;> cases found <;>
          simp [conditionErr, Condition.valueVariableNonEQ, Term.isVar, pure_apply, bind_apply,
            getEngine, hp1, Res.obs, hF, modifyAlpha, modifyEngine, modifyProd, getProd, hget]
      · have hfr := findReusable_no_error "" cmp (.int k n) trivial (lookupAlpha e1.alphaNetwork attr) 0
        generalize hF : findReusable "" cmp (.int k n) (lookupAlpha e1.alphaNetwork attr) 0 = fr at hfr
        obtain ⟨found, err⟩ := fr
        simp only at hfr
        subst hfr
        cases cmp <;> cases found <;>
          simp [conditionErr, Condition.valueVariableNonEQ, Term.isVar, pure_apply, bind_apply,
            getEngine, hp1, Res.obs, hF, modifyAlpha, modifyEngine, modifyProd, getProd, hget]
      · simp [Condition.typed] at hc
      · simp [Condition.typed] at hc
  · rcases ov with _ | s | _ | _ | _
    · simp [Condition.typed] at hc
    · rcases val with w | wv
      · have hfr := findReusable_no_error s cmp .nil trivial (lookupAlpha e1.alphaNetwork attr) 0
        generalize hF : findReusable s cmp .nil (lookupAlpha e1.alphaNetwork attr) 0 = fr at hfr
        obtain ⟨found, err⟩ := fr
        simp only at hfr
        subst hfr
        cases cmp <;> cases found <;>
          simp [conditionErr, Condition.valueVariableNonEQ, Term.isVar, pure_apply, bind_apply,
            getEngine, hp1, Res.obs, hF, modifyAlpha, modifyEngine, modifyProd, getProd, hget]
      · rcases wv with _ | s2 | ⟨k, n⟩ | _ | _
        · simp [Condition.typed] at hc
        · have hfr := findReusable_no_error s cmp (.str s2) trivial (lookupAlpha e1.alphaNetwork attr) 0
          generalize hF : findReusable s cmp (.str s2) (lookupAlpha e1.alphaNetwork attr) 0 = fr at hfr
          obtain ⟨found, err⟩ := fr
          simp only at hfr
          subst hfr
          cases cmp <;> cases found <;>
            simp [conditionErr, Condition.valueVariableNonEQ, Term.isVar, pure_apply, bind_apply,
              getEngine, hp1, Res.obs, hF, modifyAlpha, modifyEngine, modifyProd, getProd, hget]
        · have hfr := findReusable_no_error s cmp (.int k n) trivial (lookupAlpha e1.alphaNetwork attr) 0
          generalize hF : findReusable s cmp (.int k n) (lookupAlpha e1.alphaNetwork attr) 0 = fr at hfr
          obtain ⟨found, err⟩ := fr
          simp only at hfr
          subst hfr
          cases cmp <;> cases found <;>
            simp [conditionErr, Condition.valueVariableNonEQ, Term.isVar, pure_apply, bind_apply,
              getEngine, hp1, Res.obs, hF, modifyAlpha, modifyEngine, modifyProd, getProd, hget]
        · simp [Condition.typed] at hc
        · simp [Condition.typed] at hc
    · simp [Condition.typed] at hc
    · simp [Condition.typed] at hc
    · simp [Condition.typed] at hc

theorem defineConditions_typed (p : Nat) :
    ∀ (l : List Condition) (i : Nat) (e : Engine), p < e.productions.length →
      (∀ c ∈ l, c.typed = true) →
      ∃ e1, defineConditions p l i e = .ret (conditionsErr l) e1 ∧
        e1.productions.length = e.productions.length := by
  intro l
  induction l with
  | nil => intro i e _ _; exact ⟨e, rfl, rfl⟩
  | cons c rest ih =>
    intro i e hp hl
    obtain ⟨e1, h1, hlen1⟩ :=
      defineCondition_typed p i c e hp (hl c (List.mem_cons_self c rest))
    unfold defineConditions conditionsErr
    simp only [bind_apply, h1]
    cases hce : conditionErr c with
    | some err => exact ⟨e1, by simp [pure_apply], hlen1⟩
    | none =>
      obtain ⟨e2, h2, hlen2⟩ := ih (i + 1) e1 (by rw [hlen1]; exact hp)
        (fun c1 hc1 => hl c1 (List.mem_cons_of_mem c hc1))
      exact ⟨e2, by simpa using h2, by rw [hlen2, hlen1]⟩

theorem conditionsErr_isSome (l : List Condition) :
    (conditionsErr l).isSome = true ↔ ∃ c ∈ l, c.valueVariableNonEQ = true := by
  induction l with
  | nil => simp [conditionsErr]
  | cons c rest ih =>
    unfold conditionsErr
    by_cases hc : c.valueVariableNonEQ = true
    · simp [conditionErr, hc]
    · simp [conditionErr, hc, ih]

/-! ## Type mismatch in `turn` -/

theorem probe_append_skip (f : Fact) (rest : List alphaNode) :
    ∀ (pre : List alphaNode) (i : Nat), (∀ b ∈ pre, failsObjConstraint f b = true) →
      probe f (pre ++ rest) i = probe f rest (i + pre.length) := by
  intro pre
  induction pre with
  | nil => intro i _; rfl
  | cons b pre ih =>
    intro i h
    have hb : b.objConstraint.length > 0 ∧ f.ObjectId ≠ b.objConstraint := by
      simpa [failsObjConstraint] using h b (List.mem_cons_self b pre)
    have hstep : nodeStep f b = .skip := by
      unfold nodeStep
      rw [if_pos hb]
    rw [List.cons_append, probe, hstep]
    simp only
    rw [ih (i + 1) (fun c hc => h c (List.mem_cons_of_mem b hc)), List.length_cons]
    congr 1
    omega

theorem nodeStep_type_mismatch (f : Fact) (a : alphaNode)
    (ha : failsObjConstraint f a = false) (hord : a.comparator.ordered = true)
    (hnil : a.compareTo ≠ .nil) (hkind : a.compareTo.kind ≠ f.Value.kind) :
    nodeStep f a = .fail (.matchKinds f.Value.kind a.compareTo.kind a.comparator) := by
  have ha1 : ¬ (a.objConstraint.length > 0 ∧ f.ObjectId ≠ a.objConstraint) := by
    simpa [failsObjConstraint] using ha
  have hnn : ¬ (f.Value = .nil ∧ a.compareTo = .nil) := fun h => hnil h.2
  have hk : f.Value.kind ≠ a.compareTo.kind := fun h => hkind h.symm
  unfold nodeStep
  rw [if_neg ha1, if_pos hnil]
  unfold matchOp
  rw [if_neg hnn, if_pos hk]
  cases hc : a.comparator <;> simp [hc, Operator.ordered] at hord ⊢

/-! ## Strings: code-point order and byte order

The embedding keeps a Go string as a `String`, a sequence of Unicode scalar
values, and compares strings by `<` on `String`.  Go compares the bytes.  The
lemmas below show that the two orders agree: UTF-8 is monotone. -/

theorem byte_or_80 (b : UInt8) : (b &&& 0x3f ||| 0x80).toNat = 0x80 + b.toNat % 64 := by
  have h : ∀ n : Fin 256, ((UInt8.mk (BitVec.ofFin n)) &&& 0x3f ||| 0x80).toNat = 0x80 + n.val % 64 := by
    decide!
  exact h b.toBitVec.toFin

theorem byte_or_c0 (b : UInt8) : (b &&& 0x1f ||| 0xc0).toNat = 0xc0 + b.toNat % 32 := by
  have h : ∀ n : Fin 256, ((UInt8.mk (BitVec.ofFin n)) &&& 0x1f ||| 0xc0).toNat = 0xc0 + n.val % 32 := by
    decide!
  exact h b.toBitVec.toFin

theorem byte_or_e0 (b : UInt8) : (b &&& 0x0f ||| 0xe0).toNat = 0xe0 + b.toNat % 16 := by
  have h : ∀ n : Fin 256, ((UInt8.mk (BitVec.ofFin n)) &&& 0x0f ||| 0xe0).toNat = 0xe0 + n.val % 16 := by
    decide!
  exact h b.toBitVec.toFin

theorem byte_or_f0 (b : UInt8) : (b &&& 0x07 ||| 0xf0).toNat = 0xf0 + b.toNat % 8 := by
  have h : ∀ n : Fin 256, ((UInt8.mk (BitVec.ofFin n)) &&& 0x07 ||| 0xf0).toNat = 0xf0 + n.val % 8 := by
    decide!
  exact h b.toBitVec.toFin

theorem toNat_toUInt8 (v : UInt32) : v.toUInt8.toNat = v.toNat % 256 := rfl

theorem toNat_shiftRight_6 (v : UInt32) : (v >>> 6).toNat = v.toNat / 64 := by
  show (v.toBitVec >>> ((6 : UInt32).mod 32).toBitVec).toNat = _
  have h : ((6 : UInt32).mod 32).toBitVec = 6#32 := by decide
  rw [h]
  simp [BitVec.toNat_ushiftRight, Nat.shiftRight_eq_div_pow]
  rfl

theorem toNat_shiftRight_12 (v : UInt32) : (v >>> 12).toNat = v.toNat / 4096 := by
  show (v.toBitVec >>> ((12 : UInt32).mod 32).toBitVec).toNat = _
  have h : ((12 : UInt32).mod 32).toBitVec = 12#32 := by decide
  rw [h]
  simp [BitVec.toNat_ushiftRight, Nat.shiftRight_eq_div_pow]
  rfl

theorem toNat_shiftRight_18 (v : UInt32) : (v >>> 18).toNat = v.toNat / 262144 := by
  show (v.toBitVec >>> ((18 : UInt32).mod 32).toBitVec).toNat = _
  have h : ((18 : UInt32).mod 32).toBitVec = 18#32 := by decide
  rw [h]
  simp [BitVec.toNat_ushiftRight, Nat.shiftRight_eq_div_pow]
  rfl

theorem utf8EncodeChar_toNat (c : Char) :
    (String.utf8EncodeChar c).map UInt8.toNat = utf8Nat c.toNat := by
  have h1 : (c.val ≤ 0x7f) = (c.toNat ≤ 0x7f) := rfl
  have h2 : (c.val ≤ 0x7ff) = (c.toNat ≤ 0x7ff) := rfl
  have h3 : (c.val ≤ 0xffff) = (c.toNat ≤ 0xffff) := rfl
  have hv : c.val.toNat = c.toNat := rfl
  unfold String.utf8EncodeChar utf8Nat
  simp only [h1, h2, h3]
  split
  · simp only [List.map_cons, List.map_nil, toNat_toUInt8, hv]
    congr 1
    omega
  · split
    · simp only [List.map_cons, List.map_nil, byte_or_80, byte_or_c0, toNat_toUInt8,
        toNat_shiftRight_6, hv]
      congr 1
      · omega
      · congr 1
        omega
    · split
      · simp only [List.map_cons, List.map_nil, byte_or_80, byte_or_e0, toNat_toUInt8,
          toNat_shiftRight_6, toNat_shiftRight_12, hv]
        congr 1
        · omega
        · congr 1
          · omega
          · congr 1
            omega
      · simp only [List.map_cons, List.map_nil, byte_or_80, byte_or_f0, toNat_toUInt8,
          toNat_shiftRight_6, toNat_shiftRight_12, toNat_shiftRight_18, hv]
        congr 1
        · omega
        · congr 1
          · omega
          · congr 1
            · omega
            · congr 1
              omega

theorem bytesOf_eq (s : String) : bytesOf s = s.data.flatMap fun c => utf8Nat c.toNat := by
  show (s.data.flatMap String.utf8EncodeChar).map UInt8.toNat = _
  induction s.data with
  | nil => rfl
  | cons c rest ih =>
    simp only [List.flatMap_cons, List.map_append, ih, utf8EncodeChar_toNat]

theorem utf8Nat_ne_nil (v : Nat) : utf8Nat v ≠ [] := by
  unfold utf8Nat
  split
  · simp
  · split
    · simp
    · split <;> simp

theorem lex_two {a1 a2 b1 b2 : Nat} {xs ys : List Nat}
    (h : a1 < b1 ∨ (a1 = b1 ∧ a2 < b2)) :
    List.Lex (· < ·) (a1 :: a2 :: xs) (b1 :: b2 :: ys) := by
  rcases h with h | ⟨h1, h2⟩
  · exact List.Lex.rel h
  · subst h1
    exact List.Lex.cons (List.Lex.rel h2)

theorem lex_three {a1 a2 a3 b1 b2 b3 : Nat} {xs ys : List Nat}
    (h : a1 < b1 ∨ (a1 = b1 ∧ (a2 < b2 ∨ (a2 = b2 ∧ a3 < b3)))) :
    List.Lex (· < ·) (a1 :: a2 :: a3 :: xs) (b1 :: b2 :: b3 :: ys) := by
  rcases h with h | ⟨h1, h2⟩
  · exact List.Lex.rel h
  · subst h1
    exact List.Lex.cons (lex_two h2)

theorem lex_four {a1 a2 a3 a4 b1 b2 b3 b4 : Nat} {xs ys : List Nat}
    (h : a1 < b1 ∨ (a1 = b1 ∧ (a2 < b2 ∨ (a2 = b2 ∧ (a3 < b3 ∨ (a3 = b3 ∧ a4 < b4)))))) :
    List.Lex (· < ·) (a1 :: a2 :: a3 :: a4 :: xs) (b1 :: b2 :: b3 :: b4 :: ys) := by
  rcases h with h | ⟨h1, h2⟩
  · exact List.Lex.rel h
  · subst h1
    exact List.Lex.cons (lex_three h2)

theorem utf8Nat_lex (v w : Nat) (hvw : v < w) (hw : w < 0x110000) (xs ys : List Nat) :
    List.Lex (· < ·) (utf8Nat v ++ xs) (utf8Nat w ++ ys) := by
  unfold utf8Nat
  by_cases v1 : v ≤ 0x7f
  · rw [if_pos v1]
    by_cases w1 : w ≤ 0x7f
    · rw [if_pos w1]
      exact List.Lex.rel hvw
    · rw [if_neg w1]
      by_cases w2 : w ≤ 0x7ff
      · rw [if_pos w2]
        exact List.Lex.rel (by omega)
      · rw [if_neg w2]
        by_cases w3 : w ≤ 0xffff
        · rw [if_pos w3]
          exact List.Lex.rel (by omega)
        · rw [if_neg w3]
          exact List.Lex.rel (by omega)
  · have w1 : ¬ w ≤ 0x7f := by omega
    rw [if_neg v1, if_neg w1]
    by_cases v2 : v ≤ 0x7ff
    · rw [if_pos v2]
      by_cases w2 : w ≤ 0x7ff
      · rw [if_pos w2]
        exact lex_two (by omega)
      · rw [if_neg w2]
        by_cases w3 : w ≤ 0xffff
        · rw [if_pos w3]
          exact List.Lex.rel (by omega)
        · rw [if_neg w3]
          exact List.Lex.rel (by omega)
    · have w2 : ¬ w ≤ 0x7ff := by omega
      rw [if_neg v2, if_neg w2]
      by_cases v3 : v ≤ 0xffff
      · rw [if_pos v3]
        by_cases w3 : w ≤ 0xffff
        · rw [if_pos w3]
          exact lex_three (by omega)
        · rw [if_neg w3]
          exact List.Lex.rel (by omega)
      · have w3 : ¬ w ≤ 0xffff := by omega
        rw [if_neg v3, if_neg w3]
        have e1 : v / 64 / 64 = v / 4096 := Nat.div_div_eq_div_mul v 64 64
        have e2 : v / 4096 / 64 = v / 262144 := Nat.div_div_eq_div_mul v 4096 64
        have e3 : w / 64 / 64 = w / 4096 := Nat.div_div_eq_div_mul w 64 64
        have e4 : w / 4096 / 64 = w / 262144 := Nat.div_div_eq_div_mul w 4096 64
        have b1 : w / 262144 % 8 = w / 262144 := by omega
        have b2 : v / 262144 % 8 = v / 262144 := by omega
        rw [b1, b2]
        by_cases c1 : v / 262144 = w / 262144
        · by_cases c2 : v / 4096 = w / 4096
          · by_cases c3 : v / 64 = w / 64
            · exact lex_four (by omega)
            · exact lex_four (by omega)
          · exact lex_four (by omega)
        · exact lex_four (by omega)

theorem char_toNat_lt (c : Char) : c.toNat < 0x110000 := by
  have h := c.valid
  have : c.toNat < 0xd800 ∨ (0xdfff < c.toNat ∧ c.toNat < 0x110000) := h
  omega

theorem char_lt_iff (c d : Char) : c < d ↔ c.toNat < d.toNat := Iff.rfl

theorem lex_encode {l r : List Char} (h : List.Lex (· < ·) l r) :
    List.Lex (· < ·) (l.flatMap fun c => utf8Nat c.toNat) (r.flatMap fun c => utf8Nat c.toNat) := by
  induction h with
  | nil =>
    rename_i a l
    simp only [List.flatMap_nil, List.flatMap_cons]
    cases hx : utf8Nat a.toNat with
    | nil => exact absurd hx (utf8Nat_ne_nil _)
    | cons x xs => exact List.Lex.nil
  | cons _ ih =>
    simp only [List.flatMap_cons]
    exact List.Lex.append_left _ ih _
  | rel hab =>
    simp only [List.flatMap_cons]
    exact utf8Nat_lex _ _ ((char_lt_iff _ _).1 hab) (char_toNat_lt _) _ _

theorem lex_encode_iff (l r : List Char) :
    List.Lex (· < ·) (l.flatMap fun c => utf8Nat c.toNat) (r.flatMap fun c => utf8Nat c.toNat)
      ↔ List.Lex (· < ·) l r := by
  constructor
  · intro h
    rcases lt_trichotomy l r with h1 | h1 | h1
    · exact h1
    · subst h1
      exact absurd h (lt_irrefl (α := List Nat) _)
    · exact absurd h (lt_asymm (α := List Nat) (lex_encode h1))
  · exact lex_encode

theorem encode_inj (l r : List Char) :
    (l.flatMap fun c => utf8Nat c.toNat) = (r.flatMap fun c => utf8Nat c.toNat) ↔ l = r := by
  constructor
  · intro h
    rcases lt_trichotomy l r with h1 | h1 | h1
    · have h2 := lex_encode h1
      rw [h] at h2
      exact absurd h2 (lt_irrefl (α := List Nat) _)
    · exact h1
    · have h2 := lex_encode h1
      rw [h] at h2
      exact absurd h2 (lt_irrefl (α := List Nat) _)
  · intro h
    rw [h]

theorem string_lt_iff_bytes (l r : String) :
    l < r ↔ List.Lex (· < ·) (bytesOf l) (bytesOf r) := by
  rw [bytesOf_eq, bytesOf_eq, lex_encode_iff]
  exact String.lt_iff_toList_lt

theorem string_eq_iff_bytes (l r : String) : l = r ↔ bytesOf l = bytesOf r := by
  rw [bytesOf_eq, bytesOf_eq, encode_inj]
  exact String.toList_inj.symm

theorem matchOp_str (l r : String) (op : Operator) :
    matchOp (.str l) op (.str r) =
      (match op with
        | .EQ => decide (l = r)
        | .GE => decide (r ≤ l)
        | .GT => decide (r < l)
        | .LE => decide (l ≤ r)
        | .LT => decide (l < r)
        | .NE => decide (l ≠ r), none) := by
  unfold matchOp
  cases op <;> simp [Value.kind]

/-! ## Variable equality, layered derivation -/

/-- C11: on a fresh engine with the rule IF ?x.attr == "hit" AND ?y.attr == ?x
THEN ?y.derived = "yes", Assert (o3,attr,"hit") and Assert (o4,attr,"o3"), in
either order, return without error and GetInferences("","") then returns
exactly one fact, (o4,derived,"yes"). -/
theorem variable_equality_through_value :
    (calls [Define ruleVarEq, Assert 9 ⟨"o3", "attr", .str "hit"⟩,
        Assert 9 ⟨"o4", "attr", .str "o3"⟩] Engine.new).obs allInferences
      = .ret [none, none, none] [⟨"o4", "derived", .str "yes"⟩] ∧
    (calls [Define ruleVarEq, Assert 9 ⟨"o4", "attr", .str "o3"⟩,
        Assert 9 ⟨"o3", "attr", .str "hit"⟩] Engine.new).obs allInferences
      = .ret [none, none, none] [⟨"o4", "derived", .str "yes"⟩] := by
  decide!

/-- C12: on a fresh engine with R1: IF ?x.a == 1 THEN ?x.b = 2 and R2: IF
?y.b == 2 THEN ?y.c = 3, for every object id `o` (and every fuel from 4 on)
both `Define` calls and the single Assert (o,a,1) return without error, and
GetInferences("","") then returns (o,b,2) and (o,c,3). -/
theorem Assert_two_layers (o : String) (n : Nat) :
    (calls [Define ruleAB, Define ruleBC, Assert (n + 4) ⟨o, "a", intV 1⟩] Engine.new).obs
        allInferences
      = .ret [none, none, none] [⟨o, "b", intV 2⟩, ⟨o, "c", intV 3⟩] := by
  have h1 : Define ruleAB Engine.new = .ret none
      { agenda := [],
        alphaNetwork := [("a", [⟨"a", "", .EQ, intV 1, [], [⟨0, 0⟩]⟩])],
        nullFact := ⟨"", "", .nil⟩,
        productions :=
          [⟨"R1", [⟨0, false, "x", 0, "", 0, ⟨"a", 0⟩, 0⟩], [],
              [⟨.var "x", "b", .lit (intV 2)⟩], [("x", [⟨0, true⟩])]⟩],
        store := [],
        nextAddr := 1,
        mapOrders := [] } := by decide!
  have h2 : Define ruleBC
      { agenda := [],
        alphaNetwork := [("a", [⟨"a", "", .EQ, intV 1, [], [⟨0, 0⟩]⟩])],
        nullFact := ⟨"", "", .nil⟩,
        productions :=
          [⟨"R1", [⟨0, false, "x", 0, "", 0, ⟨"a", 0⟩, 0⟩], [],
              [⟨.var "x", "b", .lit (intV 2)⟩], [("x", [⟨0, true⟩])]⟩],
        store := [],
        nextAddr := 1,
        mapOrders := [] } = .ret none
      { agenda := [],
        alphaNetwork :=
          [("a", [⟨"a", "", .EQ, intV 1, [], [⟨0, 0⟩]⟩]),
           ("b", [⟨"b", "", .EQ, intV 2, [], [⟨1, 0⟩]⟩])],
        nullFact := ⟨"", "", .nil⟩,
        productions :=
          [⟨"R1", [⟨0, false, "x", 0, "", 0, ⟨"a", 0⟩, 0⟩], [],
              [⟨.var "x", "b", .lit (intV 2)⟩], [("x", [⟨0, true⟩])]⟩,
           ⟨"R2", [⟨0, false, "y", 0, "", 0, ⟨"b", 0⟩, 1⟩], [],
              [⟨.var "y", "c", .lit (intV 3)⟩], [("y", [⟨0, true⟩])]⟩],
        store := [],
        nextAddr := 1,
        mapOrders := [] } := by decide!
  simp only [calls, bind_apply, h1, h2]
  simp [Assert, bind_apply, pure_apply, newFactPtr, pushAgenda, modifyEngine, turn, popAgenda,
    propagate, getEngine, lookupAlpha, forRange, propagateNode, getAlpha, matchOp_int, intV,
    dupScan, modifyAlpha, updateAlpha, forList, rightActivate, getBeta, getProd, addToken,
    initIncoming, nullPtr, leftActivate, getTok, activate, resolveObjectId, resolveValue,
    lookupTests, modifyTok, modifyProd, Res.obs, allInferences, GetInferences, selectOutgoing]

/-! ## The comparison `match` -/

/-- C13: for all values `l` and `r` of differing kinds (in particular a
string, an integer or a float against one of another of these kinds),
`match(l, EQ, r)` is (false, nil), `match(l, NE, r)` is (true, nil), and
`match(l, op, r)` returns the error "cannot compare ... to ... using op" for
each of GE, GT, LE and LT. -/
theorem matchOp_differing_kinds (l r : Value) (h : l.kind ≠ r.kind) :
    matchOp l .EQ r = (false, none) ∧ matchOp l .NE r = (true, none) ∧
      matchOp l .GE r = (false, some (.matchKinds l.kind r.kind .GE)) ∧
      matchOp l .GT r = (false, some (.matchKinds l.kind r.kind .GT)) ∧
      matchOp l .LE r = (false, some (.matchKinds l.kind r.kind .LE)) ∧
      matchOp l .LT r = (false, some (.matchKinds l.kind r.kind .LT)) := by
  have hn : ¬ (l = .nil ∧ r = .nil) := by
    rintro ⟨h1, h2⟩
    subst h1 h2
    exact h rfl
  unfold matchOp
  simp only [if_neg hn, if_pos h, and_self]

/-- C13 (witness): the integer 3 against the float 3.14 (bit pattern
4614253070214989087). -/
theorem matchOp_differing_kinds_witness :
    (intV 3).kind ≠ (f64V 4614253070214989087).kind ∧
      (matchOp (intV 3) .EQ (f64V 4614253070214989087) = (false, none) ∧
       matchOp (intV 3) .NE (f64V 4614253070214989087) = (true, none) ∧
       matchOp (intV 3) .GE (f64V 4614253070214989087)
         = (false, some (.matchKinds (intV 3).kind (f64V 4614253070214989087).kind .GE)) ∧
       matchOp (intV 3) .GT (f64V 4614253070214989087)
         = (false, some (.matchKinds (intV 3).kind (f64V 4614253070214989087).kind .GT)) ∧
       matchOp (intV 3) .LE (f64V 4614253070214989087)
         = (false, some (.matchKinds (intV 3).kind (f64V 4614253070214989087).kind .LE)) ∧
       matchOp (intV 3) .LT (f64V 4614253070214989087)
         = (false, some (.matchKinds (intV 3).kind (f64V 4614253070214989087).kind .LT))) :=
  ⟨by decide, matchOp_differing_kinds (intV 3) (f64V 4614253070214989087) (by decide)⟩

/-- C14: for every operator, `match` on two strings returns no error and the
relation of the operator (=, >=, >, <=, <, !=) between the two byte
sequences under byte-wise lexicographic order, and `match` on two integers
of the same Go integer type returns no error and that relation between the
two integers. -/
theorem matchOp_same_kind (op : Operator) :
    (∀ l r : String, matchOp (.str l) op (.str r) = (op.onBytes (bytesOf l) (bytesOf r), none)) ∧
    (∀ (k : IntKind) (l r : Int), matchOp (.int k l) op (.int k r) = (op.onInt l r, none)) := by
  constructor
  · intro l r
    rw [matchOp_str]
    have hle : ∀ a b : String, a ≤ b ↔ ¬ b < a := fun a b => Iff.rfl
    cases op <;>
      simp only [Operator.onBytes, hle, string_lt_iff_bytes, string_eq_iff_bytes l r, ne_eq]
  · intro k l r
    rw [matchOp_int]
    cases op <;> simp [Operator.onInt]

/-- C15: when both arguments are nil, `match(nil, EQ, nil)` is (true, nil),
`match(nil, NE, nil)` is (false, nil), and `match(nil, op, nil)` returns the
error "cannot compare nil to nil using op" for each of GE, GT, LE and LT. -/
theorem matchOp_nil_nil :
    matchOp .nil .EQ .nil = (true, none) ∧ matchOp .nil .NE .nil = (false, none) ∧
      matchOp .nil .GE .nil = (false, some (.matchNilNil .GE)) ∧
      matchOp .nil .GT .nil = (false, some (.matchNilNil .GT)) ∧
      matchOp .nil .LE .nil = (false, some (.matchNilNil .LE)) ∧
      matchOp .nil .LT .nil = (false, some (.matchNilNil .LT)) := by
  decide

/-- C16: for every engine state and every rule whose condition ObjectIds are
strings or Variables and whose condition Values are Variables, strings or
integers, `Define` returns, and it returns an error if and only if some LHS
condition has a Variable in the Value position together with a Comparator
other than EQ. -/
theorem Define_error_iff (e : Engine) (r : Rule) (h : ∀ c ∈ r.LHS, c.typed = true) :
    ∃ err e1, Define r e = .ret err e1 ∧
      (err.isSome = true ↔ ∃ c ∈ r.LHS, c.valueVariableNonEQ = true) := by
  obtain ⟨e1, h1, _⟩ := defineConditions_typed e.productions.length r.LHS 0
    { e with productions := e.productions ++ [⟨r.Id, [], [], [], []⟩] } (by simp) h
  refine ⟨conditionsErr r.LHS, ?_⟩
  unfold Define
  simp only [bind_apply, getEngine, modifyEngine, h1]
  cases hce : conditionsErr r.LHS with
  | some err =>
    refine ⟨e1, by simp [pure_apply], ?_⟩
    rw [← hce]
    exact conditionsErr_isSome r.LHS
  | none =>
    refine ⟨_, by simp [pure_apply, bind_apply, modifyProd, modifyEngine]; rfl, ?_⟩
    rw [← hce]
    exact conditionsErr_isSome r.LHS

/-- C16 (witness): the rule IF ?x.a >= ?v THEN ?x.b = 1 on the fresh engine. -/
theorem Define_error_iff_witness :
    (∀ c ∈ ruleVarGE.LHS, c.typed = true) ∧
      ∃ err e1, Define ruleVarGE Engine.new = .ret err e1 ∧
        (err.isSome = true ↔ ∃ c ∈ ruleVarGE.LHS, c.valueVariableNonEQ = true) :=
  ⟨by decide, Define_error_iff Engine.new ruleVarGE (by decide)⟩

/-- C17 (counterexample): on a fresh engine `Define` returns without error
for the rule IF ?x.a == 1 THEN ?z.b = 2 and for the rule IF ?x.a == 1 THEN
?x.b = ?z, whose inferences name the Variable z that no condition binds.
The reference is met only when a token is completed: Assert (o,a,1) then
ends in an index-out-of-range crash at `node.testNetwork[obj][0]`. -/
theorem Define_accepts_unresolvable :
    (calls [Define ruleUnres] Engine.new).obs (fun _ => ()) = .ret [none] () ∧
    (calls [Define ruleUnresV] Engine.new).obs (fun _ => ()) = .ret [none] () ∧
    (calls [Define ruleUnres, Assert 9 ⟨"o", "a", intV 1⟩] Engine.new).obs (fun _ => ())
      = .crash .indexRange ∧
    (calls [Define ruleUnresV, Assert 9 ⟨"o", "a", intV 1⟩] Engine.new).obs (fun _ => ())
      = .crash .indexRange := by
  decide!

/-- C17 (amended): `Define` does not examine the RHS.  For every engine
state, every rule and every list of inferences, `Define` of the rule with
that list as its RHS returns the same error (or fails the same way) as
`Define` of the rule itself; a rule with an unresolvable reference is
accepted exactly when its LHS is. -/
theorem Define_ignores_RHS (e : Engine) (r : Rule) (rhs : List Inference) :
    (Define { r with RHS := rhs } e).obs (fun _ => ()) = (Define r e).obs (fun _ => ()) := by
  unfold Define
  simp only [bind_apply, getEngine, modifyEngine]
  cases h : defineConditions e.productions.length r.LHS 0
      { e with productions := e.productions ++ [⟨r.Id, [], [], [], []⟩] } with
  | ret err e1 =>
    cases err with
    | none => simp [Res.obs, modifyProd, modifyEngine, bind_apply, pure_apply]
    | some x => simp [Res.obs, pure_apply]
  | crash c => rfl
  | outOfFuel => rfl

/-- C18 (failing input): on a fresh engine with the rule IF ?w.q == 1 AND
o.attr == ?v THEN ?v.x = 1, Assert (z,q,1) and then Assert (o,attr,42) both
return without error: the token made by the first Assert accepts (o,attr,42)
and is complete, `activate` returns the error "42 cannot be an ObjectId",
and `rightActivate` drops the result of `leftActivate` for a token that was
there before.  When the token is newly created the error is returned: after
Assert (z,q,1) and Assert (o,attr,"s"), Assert (o,attr,42) returns it. -/
theorem Assert_swallows_reference_error :
    (calls [Define ruleRef, Assert 9 ⟨"z", "q", intV 1⟩, Assert 9 ⟨"o", "attr", intV 42⟩]
        Engine.new).obs (fun e => (tokenSlots e, allInferences e))
      = .ret [none, none, none]
          ([[some ⟨1, ⟨"z", "q", intV 1⟩⟩, some ⟨2, ⟨"o", "attr", intV 42⟩⟩]], []) ∧
    (calls [Define ruleRef, Assert 9 ⟨"z", "q", intV 1⟩, Assert 9 ⟨"o", "attr", .str "s"⟩,
        Assert 9 ⟨"o", "attr", intV 42⟩] Engine.new).obs (fun _ => ())
      = .ret [none, none, none, some .inferenceObjectId] () := by
  decide!

/-- C19 (amended): for every engine with an empty agenda in which the first
alpha node under `f.Attribute` that passes the object-constraint test for
`f` (the nodes `pre` before it do not pass) has an ordered comparator and a
compareTo value, not nil, whose kind differs from the kind of `f.Value`,
`Assert(f)` returns the type-mismatch error of `match` and changes nothing
but the address counter: `f` is added to no alpha node. -/
theorem Assert_type_mismatch (k : Nat) (e : Engine) (f : Fact) (pre post : List alphaNode)
    (a : alphaNode) (hag : e.agenda = [])
    (hnodes : lookupAlpha e.alphaNetwork f.Attribute = pre ++ a :: post)
    (hpre : ∀ b ∈ pre, failsObjConstraint f b = true)
    (ha : failsObjConstraint f a = false)
    (hord : a.comparator.ordered = true)
    (hnil : a.compareTo ≠ .nil)
    (hkind : a.compareTo.kind ≠ f.Value.kind) :
    Assert (k + 1) f e =
      .ret (some (.matchKinds f.Value.kind a.compareTo.kind a.comparator))
        { e with nextAddr := e.nextAddr + 1 } := by
  have hprobe : probe f (lookupAlpha e.alphaNetwork f.Attribute) 0 =
      .fail (.matchKinds f.Value.kind a.compareTo.kind a.comparator) := by
    rw [hnodes, probe_append_skip f (a :: post) pre 0 hpre, probe,
      nodeStep_type_mismatch f a ha hord hnil hkind]
  unfold Assert
  simp only [bind_apply, newFactPtr, pushAgenda, modifyEngine, hag]
  unfold turn
  simp only [bind_apply, popAgenda, List.getLast?_singleton, List.dropLast_single]
  rw [propagate_fail (retract (k + 1)) ⟨e.nextAddr, f⟩
    { e with agenda := [], nextAddr := e.nextAddr + 1 } _ hprobe]
  simp only [Option.isSome_some, if_true]
  obtain ⟨ag, al, nf, pr, st, na, mo⟩ := e
  simp only at hag
  subst hag
  rfl

/-- C19 (witness of the amended claim): the engine with the rule IF ?y.m >= 5
THEN ?y.big = 1 and the fact (z,m,"str"). -/
theorem Assert_type_mismatch_witness :
    (Define ruleM Engine.new).engine.agenda = [] ∧
    lookupAlpha (Define ruleM Engine.new).engine.alphaNetwork "m"
      = [] ++ ⟨"m", "", .GE, intV 5, [], [⟨0, 0⟩]⟩ :: [] ∧
    Assert 1 ⟨"z", "m", .str "str"⟩ (Define ruleM Engine.new).engine =
      .ret (some (.matchKinds .String (.Int .Int) .GE))
        { (Define ruleM Engine.new).engine with
          nextAddr := (Define ruleM Engine.new).engine.nextAddr + 1 } :=
  ⟨by decide!, by decide!,
    Assert_type_mismatch 0 (Define ruleM Engine.new).engine ⟨"z", "m", .str "str"⟩ [] []
      ⟨"m", "", .GE, intV 5, [], [⟨0, 0⟩]⟩ (by decide!) (by decide!) (by simp) (by decide)
      (by decide) (by decide) (by decide)⟩

/-- C19 (counterexample): with the rules IF ?x.p == 1 AND NOT _.k == 1 THEN
?x.ok = 7 and IF ?y.m >= 5 THEN ?y.big = 1, the calls Assert (a,p,1),
Assert (c,k,1), Retract (c,k,1) and then Define of IF a.ok == ?v THEN
?v.x = 1 all return without error and leave (a,ok,7) on the agenda; the one
alpha node under m has comparator GE and compareTo 5.  Assert (z,m,"str")
then returns "7 cannot be an ObjectId", not a type mismatch, and leaves
(z,m,"str") on the agenda. -/
theorem Assert_pending_agenda_other_error :
    (calls [Define ruleNegInt, Define ruleM, Assert 9 ⟨"a", "p", intV 1⟩,
        Assert 9 ⟨"c", "k", intV 1⟩, Retract 9 ⟨"c", "k", intV 1⟩, Define ruleOkRef]
        Engine.new).obs
        (fun e => (agendaFacts e, (lookupAlpha e.alphaNetwork "m").map eraseFacts))
      = .ret [none, none, none, none, none, none]
          ([⟨"a", "ok", intV 7⟩], [⟨"m", "", .GE, intV 5, [], [⟨1, 0⟩]⟩]) ∧
    (calls [Define ruleNegInt, Define ruleM, Assert 9 ⟨"a", "p", intV 1⟩,
        Assert 9 ⟨"c", "k", intV 1⟩, Retract 9 ⟨"c", "k", intV 1⟩, Define ruleOkRef,
        Assert 9 ⟨"z", "m", .str "str"⟩] Engine.new).obs agendaFacts
      = .ret [none, none, none, none, none, none, some .inferenceObjectId]
          [⟨"z", "m", .str "str"⟩] := by
  decide!

/-! ## `GetInferences` -/

theorem selectOutgoing_eq (objectId attr : String) (l : List (Option FactPtr)) :
    selectOutgoing objectId attr l =
      ((l.filterMap id).map (·.fact)).filter (wanted objectId attr) := by
  induction l with
  | nil => rfl
  | cons x rest ih =>
    cases x with
    | none => simpa [selectOutgoing] using ih
    | some f =>
      unfold selectOutgoing
      by_cases h : (objectId = "" ∨ f.fact.ObjectId = objectId) ∧
          (attr = "" ∨ f.fact.Attribute = attr)
      · have hw : wanted objectId attr f.fact = true := by
          simpa [wanted] using h
        rw [if_pos h, ih]
        simp [hw]
      · have hw : wanted objectId attr f.fact = false := by
          simpa [wanted] using h
        rw [if_neg h, ih]
        simp [hw]

theorem filter_map_filterMap_flatMap {α : Type} (g : α → List (Option FactPtr))
    (w : Fact → Bool) (l : List α) :
    (((l.flatMap g).filterMap id).map (·.fact)).filter w =
      l.flatMap fun x => (((g x).filterMap id).map (·.fact)).filter w := by
  induction l with
  | nil => rfl
  | cons x rest ih =>
    simp only [List.flatMap_cons, List.filterMap_append, List.map_append, List.filter_append, ih]

/-- C20: for every engine state, `GetInferences(objectId, attribute)` returns
no error and exactly the non-nil outgoing facts of all tokens of all
productions, in production, token and slot order, whose ObjectId equals
`objectId` or `objectId` is "" and whose Attribute equals `attribute` or
`attribute` is "".  (The method has a value receiver and assigns to no field:
it is a function of the engine, which it cannot change.) -/
theorem GetInferences_spec (e : Engine) (objectId attr : String) :
    GetInferences e objectId attr = (inferencesOf e objectId attr, none) := by
  unfold GetInferences inferencesOf outgoingSlots
  rw [filter_map_filterMap_flatMap]
  congr 1
  apply congrArg
  funext p
  rw [filter_map_filterMap_flatMap]
  apply congrArg
  funext t
  cases e.store[t]? with
  | none => rfl
  | some tk => exact selectOutgoing_eq objectId attr tk.outgoing

/-! ## Retraction and tokens: evaluated scenarios -/

/-- C21 (failing input): on a fresh engine with the rules IF ?x.p == 1 AND NOT
_.q == 1 THEN ?x.q = 1 and IF ?y.q >= 0 THEN ?y.r = 1, Assert (a,p,1)
returns without error and leaves two copies of (a,q,1), at different
addresses, in the two alpha nodes under q.  Retract (a,q,1) then returns
without error, removes the copy of the first node and leaves the other:
(a,q,1) is still stored. -/
theorem Retract_leaves_a_copy :
    (calls [Define ruleDefeat, Define ruleQGE, Assert 20 ⟨"a", "p", intV 1⟩] Engine.new).obs
        (fun e => (agendaFacts e, factsUnder e "q", isStored e ⟨"a", "q", intV 1⟩))
      = .ret [none, none, none]
          ([], [[⟨3, ⟨"a", "q", intV 1⟩⟩], [⟨2, ⟨"a", "q", intV 1⟩⟩]], true) ∧
    (calls [Define ruleDefeat, Define ruleQGE, Assert 20 ⟨"a", "p", intV 1⟩,
        Retract 20 ⟨"a", "q", intV 1⟩] Engine.new).obs
        (fun e => (factsUnder e "q", isStored e ⟨"a", "q", intV 1⟩))
      = .ret [none, none, none, none] ([[], [⟨2, ⟨"a", "q", intV 1⟩⟩]], true) := by
  decide!

/-- C24 (failing input): on a fresh engine with the rule IF ?x.attr == ?x THEN
?x.seen = yes, whose one condition uses the variable x as ObjectId and as
Value (the test network of x has the two entries of slot 0), Assert
(o1,attr,"other") returns without error and leaves a token whose slot 0
holds (o1,attr,"other"): x is bound to o1 in the object position and to
"other" in the value position, and the rule has fired. -/
theorem Assert_binds_variable_twice :
    (calls [Define ruleSelfRef, Assert 9 ⟨"o1", "attr", .str "other"⟩] Engine.new).obs
        (fun e => (testEntries e 0 "x", tokenSlots e, allInferences e))
      = .ret [none, none]
          ([⟨0, true⟩, ⟨0, false⟩],
           [[some ⟨1, ⟨"o1", "attr", .str "other"⟩⟩]],
           [⟨"o1", "seen", .str "yes"⟩]) := by
  decide!
/-! ## Claim C25: the fact list of an alpha node has no duplicates -/

section inv

variable {J : Engine → Prop}

theorem removeToken_inv (hJ : FactsInvariant J) (p tok : Nat) (e : Engine) (h : J e) :
    wp (removeToken p tok) (fun _ e1 => J e1) e := by
  unfold removeToken
  simp only [wp_bind, wp_getProd]
  intro node _
  split
  · simp only [wp_bind, wp_modifyProd, wp_pure]
    exact hJ.frame _ _ h rfl (by simp)
  · exact h

theorem addToken_inv (hJ : FactsInvariant J) (p : Nat) (f : Option FactPtr) (i : Nat) (e : Engine)
    (h : J e) :
    wp (addToken p f i) (fun _ e1 => J e1) e := by
  unfold addToken
  simp only [wp_bind, wp_getProd]
  intro node _
  split
  · trivial
  · split
    · exact h
    · simp only [wp_bind, wp_getEngine]
      refine wp_mono (initIncoming_keeps node.betaNodes e _ h) ?_
      intro r e1 ⟨h1, _⟩
      simp only [wp_bind, wp_modifyEngine, wp_modifyProd, wp_pure]
      exact hJ.frame _ _ h1 rfl (by simp)

theorem activate_inv (hJ : FactsInvariant J) (p tok : Nat) (e : Engine) (h : J e) :
    wp (activate p tok) (fun _ e1 => J e1) e := by
  unfold activate
  simp only [wp_bind, wp_getProd, wp_getTok]
  intro node _ tk _
  split
  · exact h
  · simp only [wp_bind]
    refine wp_mono (wp_forRange J _ ?_ _ _ _ e h) ?_
    · intro i b e1 h1
      split
      · trivial
      · simp only [wp_bind]
        refine wp_mono (resolveObjectId_same _ _ _ _ e1 h1) ?_
        intro r e2 h2
        split
        · exact h2
        · exact h2
        · simp only [wp_bind]
          refine wp_mono (resolveValue_same _ _ _ _ e2 h2) ?_
          intro v e3 h3
          simp only [wp_newFactPtr, wp_pushAgenda, wp_getTok]
          intro cur _
          split
          · simp only [wp_bind, wp_modifyTok, wp_pure]
            exact hJ.frame _ _ h3 rfl (by simp)
          · trivial
    · intro r e1 h1
      split <;> exact h1

theorem damage_inv (hJ : FactsInvariant J) (R : Option FactPtr → M (Option Err))
    (hR : RetractInv J R) (t i : Nat) (e : Engine) (h : J e) :
    wp (damage R t i) (fun _ e1 => J e1) e := by
  unfold damage
  simp only [wp_bind, wp_getTok]
  intro tk _
  split
  · trivial
  · exact h
  · simp only [wp_bind, wp_modifyTok]
    refine wp_mono (wp_forRange J _ ?_ _ _ _ _ (hJ.frame _ _ h rfl (by simp))) ?_
    · intro j b e1 h1
      simp only [wp_bind, wp_getTok]
      intro cur hcur
      split
      · trivial
      · rename_i f hf
        simp only [wp_bind]
        refine wp_mono (hR f e1 h1) ?_
        intro err e2 h2
        split
        · exact h2
        · simp only [wp_bind, wp_modifyTok, wp_pure]
          exact hJ.frame _ _ h2 rfl (by simp)
    · intro r e1 h1
      split
      · exact h1
      · simp only [wp_bind, wp_getTok]
        intro cur _
        split
        · exact h1
        · exact removeToken_inv hJ _ _ e1 h1

theorem inject_inv (hJ : FactsInvariant J) (R : Option FactPtr → M (Option Err))
    (hR : RetractInv J R) (tok : Nat) (newFact : FactPtr) (nodeRef : BetaRef) (e : Engine)
    (h : J e) :
    wp (inject R tok newFact nodeRef) (fun _ e1 => J e1) e := by
  unfold inject
  simp only [wp_bind, wp_getBeta, wp_getTok]
  intro _ node _ _ tk _
  split
  · trivial
  · split
    · simp only [wp_bind, wp_nullPtr]
      split
      · simp only [wp_bind]
        refine wp_mono (damage_inv hJ R hR _ _ e h) ?_
        intro _ e1 h1
        exact h1
      · split <;> exact h
    · split
      · split
        · exact h
        · split <;> exact h
      · simp only [wp_bind, wp_getProd]
        intro prod _
        have h1 : wp (if node.objectVariable ≠ "" then
            runTests (fun key => objectTest newFact.fact node.objectVariable key tk.incoming)
              prod.testNetwork
          else pure none) (fun _ e1 => J e1) e := by
          split
          · exact runTests_same _ _ _ (fun e0 os h0 => hJ.frame _ _ h0 rfl rfl)
              (fun key tst u e1 h1 => objectTest_same _ _ _ _ _ _ _ e1 h1) e h
          · exact h
        refine wp_mono h1 ?_
        intro r1 e1 h2
        split
        · exact h2
        · simp only [wp_bind]
          have h3 : wp (if node.valueVariable ≠ "" then
              runTests (fun key => valueTest newFact.fact node.valueVariable key tk.incoming)
                prod.testNetwork
            else pure none) (fun _ e2 => J e2) e1 := by
            split
            · exact runTests_same _ _ _ (fun e0 os h0 => hJ.frame _ _ h0 rfl rfl)
                (fun key tst u e2 h3 => valueTest_same _ _ _ _ _ _ _ e2 h3) e1 h2
            · exact h2
          refine wp_mono h3 ?_
          intro r2 e2 h4
          split
          · exact h4
          · simp only [wp_bind, wp_modifyTok, wp_pure]
            exact hJ.frame _ _ h4 rfl (by simp)

theorem leftActivate_inv (hJ : FactsInvariant J) (R : Option FactPtr → M (Option Err))
    (hR : RetractInv J R) (nodeRef : BetaRef) (tok : Option Nat) (e : Engine) (h : J e) :
    wp (leftActivate R nodeRef tok) (fun _ e1 => J e1) e := by
  unfold leftActivate
  simp only [wp_bind, wp_getBeta]
  intro _ node _ _
  split
  · exact h
  · simp only [wp_bind, wp_getTok]
    intro tk _
    refine wp_mono (wp_forRange J _ ?_ _ _ _ e h) ?_
    · intro i b e1 h1
      split
      · exact h1
      · simp only [wp_bind, wp_getTok]
        intro cur _
        split
        · trivial
        · exact h1
        · simp only [wp_bind, wp_getProd]
          intro prod _
          split
          · trivial
          · simp only [wp_bind, wp_getAlpha]
            intro a _
            refine wp_mono (wp_forList J _ ?_ _ _ e1 h1) ?_
            · intro f u e2 h2
              simp only [wp_bind]
              refine wp_mono (inject_inv hJ R hR _ _ _ e2 h2) ?_
              intro r e3 h3
              obtain ⟨success, err⟩ := r
              simp only
              split
              · exact h3
              · split <;> exact h3
            · intro r e2 h2
              split <;> exact h2
    · intro r e1 h1
      split
      · exact h1
      · exact activate_inv hJ _ _ e1 h1

theorem rightActivate_inv (hJ : FactsInvariant J) (R : Option FactPtr → M (Option Err))
    (hR : RetractInv J R) (nodeRef : BetaRef) (newFact : FactPtr) (e : Engine) (h : J e) :
    wp (rightActivate R nodeRef newFact) (fun _ e1 => J e1) e := by
  unfold rightActivate
  simp only [wp_bind, wp_getBeta, wp_getProd]
  intro _ node _ _ prod _
  refine wp_mono (wp_forRange J _ ?_ _ _ _ e h) ?_
  · intro i b e1 h1
    simp only [wp_bind, wp_getProd]
    intro p1 _
    split
    · trivial
    · simp only [wp_bind]
      refine wp_mono (inject_inv hJ R hR _ _ _ e1 h1) ?_
      intro r e2 h2
      obtain ⟨success, err⟩ := r
      simp only
      split
      · exact h2
      · split
        · simp only [wp_bind, wp_getProd]
          intro p2 _
          split
          · trivial
          · simp only [wp_bind]
            refine wp_mono (leftActivate_inv hJ R hR _ _ e2 h2) ?_
            intro _ e3 h3
            exact h3
        · exact h2
  · intro r e1 h1
    split
    · exact h1
    · split
      · exact h1
      · simp only [wp_bind]
        refine wp_mono (addToken_inv hJ _ _ _ e1 h1) ?_
        intro r2 e2 h2
        obtain ⟨tok, err⟩ := r2
        simp only
        split
        · exact h2
        · exact leftActivate_inv hJ R hR _ _ e2 h2

theorem removeFact_inv (hJ : FactsInvariant J) (R : Option FactPtr → M (Option Err))
    (hR : RetractInv J R) (nodeRef : AlphaRef) (i : Nat) (e : Engine) (h : J e) :
    wp (removeFact R nodeRef i) (fun _ e1 => J e1) e := by
  unfold removeFact
  simp only [wp_bind, wp_getAlpha]
  intro node hnode
  split
  · exact h
  · rename_i hlen
    simp only [wp_bind, wp_modifyAlpha]
    have h0 := hJ.remove e nodeRef i h
    refine wp_mono (wp_forList J _ ?_ _ _ _ h0) ?_
    · intro bRef u e1 h1
      simp only [wp_bind, wp_getBeta, wp_getProd]
      intro _ bNode _ _ prod _
      refine wp_mono (wp_forRange J _ ?_ _ _ _ e1 h1) ?_
      · intro k u2 e2 h2
        simp only [wp_bind, wp_getProd, wp_getAlpha]
        intro p1 _ cur _
        split
        · trivial
        · split
          · simp only [wp_bind, wp_getTok]
            intro tk _
            split
            · simp only [wp_bind, wp_nullPtr, wp_modifyTok]
              refine wp_mono (leftActivate_inv hJ R hR _ _ _ (hJ.frame _ _ h2 rfl (by simp))) ?_
              intro err e3 h3
              split <;> exact h3
            · trivial
          · simp only [wp_bind]
            refine wp_mono (damage_inv hJ R hR _ _ e2 h2) ?_
            intro _ e3 h3
            exact h3
      · intro r e2 h2
        split
        · exact h2
        · simp only [wp_bind, wp_getAlpha, wp_getProd]
          intro cur _ p2 _
          split
          · simp only [wp_bind]
            refine wp_mono (addToken_inv hJ _ _ _ e2 h2) ?_
            intro r2 e3 h3
            obtain ⟨t, err⟩ := r2
            simp only
            split
            · exact h3
            · simp only [wp_bind]
              refine wp_mono (leftActivate_inv hJ R hR _ _ e3 h3) ?_
              intro err2 e4 h4
              split <;> exact h4
          · exact h2
    · intro r e1 h1
      split <;> exact h1

theorem retract_inv (hJ : FactsInvariant J) (fuel : Nat) : RetractInv J (retract fuel) := by
  induction fuel with
  | zero =>
    intro oq e h
    cases oq with
    | none => exact h
    | some f => trivial
  | succ fuel ih =>
    intro oq e h
    cases oq with
    | none => exact h
    | some f =>
      unfold retract
      simp only [wp_bind, wp_getEngine]
      refine wp_mono (wp_forRange J _ ?_ _ _ _ e h) ?_
      · intro i u e1 h1
        simp only [wp_bind, wp_getAlpha]
        intro node _
        refine wp_mono (wp_forRange J _ ?_ _ _ _ e1 h1) ?_
        · intro j u2 e2 h2
          simp only [wp_bind, wp_getAlpha]
          intro cur hcur
          split
          · simp only [wp_bind]
            refine wp_mono (removeFact_inv hJ (retract fuel) ih _ _ e2 h2) ?_
            intro _ e3 h3
            exact h3
          · exact h2
        · intro _ e2 h2
          exact h2
      · intro _ e1 h1
        exact h1

theorem propagateNode_inv (hJ : FactsInvariant J) (hS : StoreInv J)
    (R : Option FactPtr → M (Option Err)) (hR : RetractInv J R)
    (f : FactPtr) (i : Nat) (u : Unit) (e : Engine) (h : J e) :
    wp (propagateNode R f i u) (fun _ e1 => J e1) e := by
  unfold propagateNode
  simp only [wp_bind, wp_getAlpha]
  intro aNode haNode
  split
  · exact h
  · split
    · exact h
    · exact h
    · split
      · exact h
      · exact h
      · rename_i hdup
        simp only [wp_bind, wp_modifyAlpha]
        have h0 := hS e f i aNode h haNode hdup
        refine wp_mono (wp_forList J _ ?_ _ _ _ h0) ?_
        · intro bNode u2 e1 h1
          simp only [wp_bind]
          refine wp_mono (rightActivate_inv hJ R hR _ _ e1 h1) ?_
          intro err e2 h2
          split <;> exact h2
        · intro r e1 h1
          split <;> exact h1

theorem propagate_inv (hJ : FactsInvariant J) (hS : StoreInv J)
    (R : Option FactPtr → M (Option Err)) (hR : RetractInv J R)
    (f : FactPtr) (e : Engine) (h : J e) :
    wp (propagate R f) (fun _ e1 => J e1) e := by
  unfold propagate
  simp only [wp_bind, wp_getEngine]
  refine wp_mono (wp_forRange J _
    (fun i u e1 h1 => propagateNode_inv hJ hS R hR f i u e1 h1) _ _ _ e h) ?_
  intro r e1 h1
  split <;> exact h1

theorem turn_inv (hJ : FactsInvariant J) (hS : StoreInv J) (depth n : Nat) (e : Engine)
    (h : J e) :
    wp (turn depth n) (fun _ e1 => J e1) e := by
  induction n generalizing e with
  | zero => trivial
  | succ n ih =>
    unfold turn
    simp only [wp_bind, wp_popAgenda]
    constructor
    · intro _
      exact h
    · intro f _
      refine wp_mono (propagate_inv hJ hS (retract depth) (retract_inv hJ depth) f _
        (hJ.frame _ _ h rfl (by simp))) ?_
      intro err e1 h1
      split
      · exact h1
      · exact ih e1 h1

theorem Assert_inv (hJ : FactsInvariant J) (hS : StoreInv J) (fuel : Nat) (f : Fact)
    (e : Engine) (h : J e) :
    wp (Assert fuel f) (fun _ e1 => J e1) e := by
  unfold Assert
  simp only [wp_bind, wp_newFactPtr, wp_pushAgenda]
  exact turn_inv hJ hS _ _ _ (hJ.frame _ _ h rfl (by simp))

theorem Retract_inv (hJ : FactsInvariant J) (fuel : Nat) (f : Fact) (e : Engine) (h : J e) :
    wp (Retract fuel f) (fun _ e1 => J e1) e := by
  unfold Retract
  simp only [wp_bind, wp_getEngine]
  split
  · exact h
  · exact retract_inv hJ fuel _ e h

end inv

theorem mem_updateAlpha (h : List alphaNode → List alphaNode)
    (net : List (String × List alphaNode)) (attr : String) (entry : String × List alphaNode)
    (hmem : entry ∈ updateAlpha h net attr) :
    entry ∈ net ∨ (entry = (attr, h (lookupAlpha net attr)) ∧ (attr, lookupAlpha net attr) ∈ net) := by
  induction net with
  | nil => simp [updateAlpha] at hmem
  | cons kv rest ih =>
    obtain ⟨k, v⟩ := kv
    simp only [updateAlpha] at hmem
    by_cases hk : k = attr
    · subst hk
      simp only [if_true, List.mem_cons] at hmem
      rcases hmem with h1 | h1
      · right
        simp [lookupAlpha, h1]
      · left
        exact List.mem_cons_of_mem _ h1
    · simp only [hk, if_false, List.mem_cons] at hmem
      rcases hmem with h1 | h1
      · left
        rw [h1]
        exact List.mem_cons_self _ _
      · rcases ih h1 with h2 | ⟨h2, h3⟩
        · left
          exact List.mem_cons_of_mem _ h2
        · right
          simp only [lookupAlpha, hk, if_false]
          exact ⟨h2, List.mem_cons_of_mem _ h3⟩

theorem mem_modify_at {α : Type} (g : α → α) (t : Nat) (l : List α) (x : α)
    (hx : x ∈ l.modify g t) : x ∈ l ∨ ∃ y, l[t]? = some y ∧ x = g y := by
  obtain ⟨k, hk, rfl⟩ := List.getElem_of_mem hx
  have hk2 : k < l.length := by simpa using hk
  rw [List.getElem_modify]
  split
  · rename_i htk
    right
    subst htk
    exact ⟨l[t], List.getElem?_eq_getElem hk2, rfl⟩
  · left
    exact List.getElem_mem _

theorem alphaGood_update (e : Engine) (h : List alphaNode → List alphaNode) (attr : String)
    (hg : alphaGood e)
    (hh : (∀ a ∈ lookupAlpha e.alphaNetwork attr, nodeGood attr a) →
      ∀ a ∈ h (lookupAlpha e.alphaNetwork attr), nodeGood attr a) :
    alphaGood { e with alphaNetwork := updateAlpha h e.alphaNetwork attr } := by
  intro entry hentry a ha
  rcases mem_updateAlpha h e.alphaNetwork attr entry hentry with h1 | ⟨h1, h2⟩
  · exact hg entry h1 a ha
  · subst h1
    exact hh (fun b hb => hg _ h2 b hb) a ha

theorem alphaGood_modify (e : Engine) (g : alphaNode → alphaNode) (r : AlphaRef)
    (hg : alphaGood e)
    (hh : ∀ a, (lookupAlpha e.alphaNetwork r.attr)[r.pos]? = some a → nodeGood r.attr a →
      nodeGood r.attr (g a)) :
    alphaGood
      { e with alphaNetwork := updateAlpha (fun l => l.modify g r.pos) e.alphaNetwork r.attr } := by
  refine alphaGood_update e _ r.attr hg ?_
  intro hall a ha
  rcases mem_modify_at g r.pos _ a ha with h1 | ⟨y, hy, rfl⟩
  · exact hall a h1
  · exact hh y hy (hall y (List.getElem?_mem hy))

theorem swapRemove_getElem? {α : Type} (l : List α) (i k : Nat) (x : α)
    (h : (swapRemove l i)[k]? = some x) :
    k < l.length - 1 ∧ l[if k = i then l.length - 1 else k]? = some x := by
  unfold swapRemove at h
  cases hlast : l.getLast? with
  | none =>
    rw [List.getLast?_eq_none_iff] at hlast
    subst hlast
    simp [List.getLast?] at h
  | some y =>
    rw [hlast] at h
    simp only at h
    rw [List.dropLast_eq_take, List.getElem?_take] at h
    simp only [List.length_set] at h
    split at h
    · rename_i hk
      refine ⟨hk, ?_⟩
      rw [List.getElem?_set] at h
      by_cases hki : k = i
      · subst hki
        have hk2 : k < l.length := by omega
        simp only [if_true, hk2] at h ⊢
        rw [List.getLast?_eq_getElem?] at hlast
        rw [hlast]
        exact h
      · have hik : ¬ i = k := fun hh => hki hh.symm
        simp only [hik, hki, if_false] at h ⊢
        exact h
    · cases h

theorem mem_swapRemove_sub {α : Type} (l : List α) (i : Nat) (x : α) (h : x ∈ swapRemove l i) :
    x ∈ l := by
  obtain ⟨k, hk, rfl⟩ := List.getElem_of_mem h
  have := (swapRemove_getElem? l i k _ (List.getElem?_eq_getElem hk)).2
  exact List.getElem?_mem this

theorem nodeGood_swapRemove (attr : String) (a : alphaNode) (i : Nat) (h : nodeGood attr a) :
    nodeGood attr { a with facts := swapRemove a.facts i } := by
  obtain ⟨h1, h2, h3⟩ := h
  refine ⟨h1, ?_, ?_⟩
  · intro x hx
    exact h2 x (mem_swapRemove_sub _ _ _ hx)
  · intro k1 k2 x y hx hy hne
    obtain ⟨hk1, hx1⟩ := swapRemove_getElem? _ _ _ _ hx
    obtain ⟨hk2, hy1⟩ := swapRemove_getElem? _ _ _ _ hy
    refine h3 _ _ x y hx1 hy1 ?_
    split <;> split <;> omega

theorem alphaGood_of_eq (e e1 : Engine) (h : alphaGood e)
    (heq : e1.alphaNetwork = e.alphaNetwork) : alphaGood e1 := by
  intro entry hentry a ha
  rw [heq] at hentry
  exact h entry hentry a ha

theorem alphaGood_invariant : FactsInvariant alphaGood := by
  constructor
  · intro e e1 h heq _
    exact alphaGood_of_eq e e1 h heq
  · intro e r i h
    exact alphaGood_modify e _ r h (fun a _ ha => nodeGood_swapRemove _ a i ha)

theorem f64Eq_comm (a b : Nat) : f64Eq a b = f64Eq b a := by
  unfold f64Eq
  cases f64IsNaN a <;> cases f64IsNaN b <;> simp [eq_comm]

theorem matchOp_EQ_comm (a b : Value) : (matchOp a .EQ b).1 = (matchOp b .EQ a).1 := by
  unfold matchOp
  cases a <;> cases b <;> simp [Value.kind, eq_comm, f64Eq_comm]
  all_goals (split <;> rfl)

theorem dupScan_passed (f : Fact) (l : List FactPtr) (h : dupScan f l = (false, none)) :
    ∀ x ∈ l, f.ObjectId = x.fact.ObjectId → (matchOp f.Value .EQ x.fact.Value).1 = false := by
  induction l with
  | nil => intro x hx; cases hx
  | cons y rest ih =>
    intro x hx hobj
    unfold dupScan at h
    split at h
    · cases h
    · rename_i vm hm
      split at h
      · cases h
      · rename_i hnot
        simp only [List.mem_cons] at hx
        rcases hx with hx | hx
        · subst hx
          rw [hm]
          simp only
          cases vm with
          | false => rfl
          | true => exact absurd ⟨hobj, rfl⟩ hnot
        · exact ih h x hx hobj

theorem nodeGood_append (f : FactPtr) (a : alphaNode) (h : nodeGood f.fact.Attribute a)
    (hdup : dupScan f.fact a.facts = (false, none)) :
    nodeGood f.fact.Attribute { a with facts := a.facts ++ [f] } := by
  obtain ⟨h1, h2, h3⟩ := h
  have hpass := dupScan_passed _ _ hdup
  refine ⟨h1, ?_, ?_⟩
  · intro x hx
    simp only [List.mem_append, List.mem_singleton] at hx
    rcases hx with hx | hx
    · exact h2 x hx
    · rw [hx]
  · intro i j x y hx hy hne
    simp only [List.getElem?_append] at hx hy
    split at hx <;> split at hy
    · exact h3 i j x y hx hy hne
    · have hj : j - a.facts.length = 0 := by
        by_contra hc
        rw [List.getElem?_eq_none (by simp; omega)] at hy
        cases hy
      rw [hj] at hy
      simp only [List.getElem?_cons_zero, Option.some.injEq] at hy
      subst hy
      unfold sameFact
      by_cases hobj : x.fact.ObjectId = f.fact.ObjectId
      · rw [matchOp_EQ_comm, hpass x (List.getElem?_mem hx) hobj.symm]
        simp
      · simp [hobj]
    · have hi : i - a.facts.length = 0 := by
        by_contra hc
        rw [List.getElem?_eq_none (by simp; omega)] at hx
        cases hx
      rw [hi] at hx
      simp only [List.getElem?_cons_zero, Option.some.injEq] at hx
      subst hx
      unfold sameFact
      by_cases hobj : f.fact.ObjectId = y.fact.ObjectId
      · rw [hpass y (List.getElem?_mem hy) hobj]
        simp
      · simp [hobj]
    · exfalso
      have hi : i - a.facts.length = 0 := by
        by_contra hc
        rw [List.getElem?_eq_none (by simp; omega)] at hx
        cases hx
      have hj : j - a.facts.length = 0 := by
        by_contra hc
        rw [List.getElem?_eq_none (by simp; omega)] at hy
        cases hy
      omega

theorem alphaGood_store : StoreInv alphaGood := by
  intro e f i a h ha hdup
  refine alphaGood_modify e _ ⟨f.fact.Attribute, i⟩ h ?_
  intro b hb hgood
  have : a = b := by
    simp only at hb
    rw [ha] at hb
    exact Option.some.inj hb
  subst this
  exact nodeGood_append f a hgood hdup

theorem defineCondition_alphaGood (p i : Nat) (c : Condition) (e : Engine) (h : alphaGood e) :
    wp (defineCondition p i c) (fun _ e1 => alphaGood e1) e := by
  unfold defineCondition
  simp only [wp_bind, wp_modifyEngine]
  have h0 : alphaGood (if hasAlpha e.alphaNetwork c.Attribute = true then e
      else { e with alphaNetwork := e.alphaNetwork ++ [(c.Attribute, [])] }) := by
    split
    · exact h
    · intro entry hentry a ha
      simp only [List.mem_append, List.mem_singleton] at hentry
      rcases hentry with h1 | h1
      · exact h entry h1 a ha
      · subst h1
        cases ha
  generalize (if hasAlpha e.alphaNetwork c.Attribute = true then e
      else { e with alphaNetwork := e.alphaNetwork ++ [(c.Attribute, [])] }) = e0 at h0
  split
  · trivial
  · split
    all_goals first
      | exact h0
      | skip
    split
    · trivial
    · rename_i objConstraint _
      simp only [wp_bind, wp_getEngine]
      split
      · exact h0
      · rename_i found _
        rw [wp_bind]
        have hfirst : wp (match found with
            | some j => (pure j : M Nat)
            | none => do
              let tempNode : alphaNode :=
                ⟨c.Attribute, objConstraint, c.Comparator,
                  (match c.Value with
                    | .var _ => .nil
                    | .lit v => v), [], []⟩
              modifyEngine fun e =>
                { e with alphaNetwork :=
                    updateAlpha (fun l => l ++ [tempNode]) e.alphaNetwork c.Attribute }
              pure (lookupAlpha e0.alphaNetwork c.Attribute).length)
            (fun _ e1 => alphaGood e1) e0 := by
          cases found with
          | some j => exact h0
          | none =>
            simp only [wp_bind, wp_modifyEngine, wp_pure]
            refine alphaGood_update e0 _ c.Attribute h0 ?_
            intro hall a ha
            simp only [List.mem_append, List.mem_singleton] at ha
            rcases ha with ha | ha
            · exact hall a ha
            · subst ha
              refine ⟨rfl, ?_, ?_⟩
              · intro x hx
                cases hx
              · intro i j x y hx
                simp at hx
        refine wp_mono hfirst ?_
        intro pos e1 h1
        simp only [wp_bind, wp_modifyAlpha, wp_getProd]
        intro prod _
        simp only [wp_modifyProd, wp_pure]
        refine alphaGood_of_eq _ _ ?_ rfl
        exact alphaGood_modify e1 _ ⟨c.Attribute, pos⟩ h1 (fun a _ ha => ha)

theorem defineConditions_alphaGood (p : Nat) (l : List Condition) :
    ∀ (i : Nat) (e : Engine), alphaGood e →
      wp (defineConditions p l i) (fun _ e1 => alphaGood e1) e := by
  induction l with
  | nil =>
    intro i e h
    exact h
  | cons c rest ih =>
    intro i e h
    unfold defineConditions
    simp only [wp_bind]
    refine wp_mono (defineCondition_alphaGood p i c e h) ?_
    intro err e1 h1
    split
    · exact h1
    · exact ih _ e1 h1

theorem Define_alphaGood (r : Rule) (e : Engine) (h : alphaGood e) :
    wp (Define r) (fun _ e1 => alphaGood e1) e := by
  unfold Define
  simp only [wp_bind, wp_getEngine, wp_modifyEngine]
  refine wp_mono (defineConditions_alphaGood _ _ _ _ (alphaGood_of_eq _ _ h rfl)) ?_
  intro err e1 h1
  split
  · exact h1
  · simp only [wp_bind, wp_modifyProd, wp_pure]
    exact alphaGood_of_eq _ _ h1 rfl

/-- Claim C25.  In every engine state that calls of `Define`, `Assert` and
`Retract` reach from a fresh engine, in whatever order the runtime visits the
test network in each range over it, every alpha node names the attribute it is
registered under, every fact it stores has that attribute, and no two entries
of its fact list have the same `ObjectId`, the same `Attribute` and EQ-equal
values. -/
theorem Reachable_facts_distinct (e : Engine) (h : Reachable e) :
    ∀ entry ∈ e.alphaNetwork, ∀ a ∈ entry.2,
      a.attributeName = entry.1 ∧ (∀ x ∈ a.facts, x.fact.Attribute = entry.1) ∧
      ∀ (i j : Nat) (x y : FactPtr), a.facts[i]? = some x → a.facts[j]? = some y → i ≠ j →
        sameFact x.fact y.fact = false := by
  have key : alphaGood e := by
    induction h with
    | fresh os =>
      intro entry hentry
      cases hentry
    | define e e1 r err _ hcall ih => exact wp_ret (Define_alphaGood r e ih) hcall
    | assert e e1 fuel f err _ hcall ih =>
      exact wp_ret (Assert_inv alphaGood_invariant alphaGood_store fuel f e ih) hcall
    | retract e e1 fuel f err _ hcall ih =>
      exact wp_ret (Retract_inv alphaGood_invariant fuel f e ih) hcall
  exact key

theorem Reachable_facts_distinct_witness :
    Reachable oneStored ∧ factsUnder oneStored "q" = [[⟨3, ⟨"b", "q", intV 2⟩⟩]] ∧
    ∀ entry ∈ oneStored.alphaNetwork, ∀ a ∈ entry.2,
      a.attributeName = entry.1 ∧ (∀ x ∈ a.facts, x.fact.Attribute = entry.1) ∧
      ∀ (i j : Nat) (x y : FactPtr), a.facts[i]? = some x → a.facts[j]? = some y → i ≠ j →
        sameFact x.fact y.fact = false :=
  have e1 : Define ruleQGE Engine.new = .ret none qgeEngine := by decide!
  have e2 : Assert 9 ⟨"a", "q", intV 1⟩ qgeEngine = .ret none firstStored := by decide!
  have e3 : Retract 9 ⟨"a", "q", intV 1⟩ firstStored = .ret none noneStored := by decide!
  have e4 : Assert 9 ⟨"b", "q", intV 2⟩ noneStored = .ret none oneStored := by decide!
  have h4 : Reachable oneStored :=
    Reachable.assert noneStored oneStored 9 ⟨"b", "q", intV 2⟩ none
      (Reachable.retract firstStored noneStored 9 ⟨"a", "q", intV 1⟩ none
        (Reachable.assert qgeEngine firstStored 9 ⟨"a", "q", intV 1⟩ none
          (Reachable.define Engine.new qgeEngine ruleQGE none (Reachable.fresh []) e1) e2) e3) e4
  ⟨h4, by decide!, Reachable_facts_distinct oneStored h4⟩

/-- C26 (failing input): on a fresh engine with the rules IF o.p == ?v AND NOT
_.k == 5 THEN ?v.x = 1 and IF ?y.k == 5 THEN ?y.seen = 1, which share the
alpha node of k, the calls Assert (o,p,"s"), Assert (z,k,5), Assert (o,p,42)
and Retract (z,k,5) all return without error.  Afterwards the alpha node of
k holds no fact, and the token of the second rule still holds (z,k,5) in its
slot 0 and its inference (z,seen,1). -/
theorem Retract_leaves_dangling_slot :
    (calls [Define ruleNegRef, Define ruleK5, Assert 9 ⟨"o", "p", .str "s"⟩,
        Assert 9 ⟨"z", "k", intV 5⟩, Assert 9 ⟨"o", "p", intV 42⟩,
        Retract 9 ⟨"z", "k", intV 5⟩] Engine.new).obs
        (fun e => (factsUnder e "k", tokenSlots e, allInferences e))
      = .ret [none, none, none, none, none, none]
          ([[]],
           [[some ⟨1, ⟨"o", "p", .str "s"⟩⟩, some ⟨0, ⟨"", "", .nil⟩⟩],
            [some ⟨5, ⟨"o", "p", intV 42⟩⟩, some ⟨0, ⟨"", "", .nil⟩⟩],
            [some ⟨3, ⟨"z", "k", intV 5⟩⟩]],
           [⟨"s", "x", intV 1⟩, ⟨"z", "seen", intV 1⟩]) := by
  decide!

/-- C27 (failing input): on a fresh engine with the rule IF ?x.a == 1 AND
?y.b == 1 THEN ?x.c = 1, Assert (o1,a,1) and Retract (o1,a,1) return
without error, and the production still has its token, all of whose
incoming slots are nil.  (With the one-condition rule IF ?x.a == 1 THEN
?x.b = 2, whose token has fired, the same two calls leave no token.) -/
theorem Retract_keeps_empty_token :
    (calls [Define ruleTwo, Assert 9 ⟨"o1", "a", intV 1⟩, Retract 9 ⟨"o1", "a", intV 1⟩]
        Engine.new).obs (fun e => (tokenLists e, tokenSlots e))
      = .ret [none, none, none] ([[0]], [[none, none]]) ∧
    (calls [Define ruleAB, Assert 9 ⟨"o1", "a", intV 1⟩, Retract 9 ⟨"o1", "a", intV 1⟩]
        Engine.new).obs (fun e => (tokenLists e, tokenSlots e))
      = .ret [none, none, none] ([[]], []) := by
  decide!

/-! ## A rule that re-derives its premise -/

theorem matchOp_EQ_refl_of_kind (v : Value) (hv : v.kind = .String ∨ ∃ k, v.kind = .Int k) :
    matchOp v .EQ v = (true, none) ∧ v ≠ .nil := by
  cases v with
  | nil => simp [Value.kind] at hv
  | str s => simp [matchOp_str]
  | int k m => simp [matchOp_int]
  | float k b => simp [Value.kind] at hv
  | other m => simp [Value.kind] at hv

/-- C28: on a fresh engine with the single rule IF ?x.a == v THEN ?x.a = v,
for a string or integer literal `v`, for every object id `o` (and every fuel
from 3 on) Assert (o,a,v) returns without error with the agenda empty, and
leaves exactly one fact, (o,a,v), in the one alpha node of a and exactly one
inference, (o,a,v), in GetInferences("",""). -/
theorem Assert_rederived_premise (o : String) (v : Value) (n : Nat)
    (hv : v.kind = .String ∨ ∃ k, v.kind = .Int k) :
    (calls [Define (ruleSelf v), Assert (n + 3) ⟨o, "a", v⟩] Engine.new).obs
        (fun e => (agendaFacts e, factsUnder e "a", allInferences e))
      = .ret [none, none] ([], [[⟨1, ⟨o, "a", v⟩⟩]], [⟨o, "a", v⟩]) := by
  obtain ⟨hrefl, hne⟩ := matchOp_EQ_refl_of_kind v hv
  simp [calls, Define, defineConditions, defineCondition, findReusable, addTest, hasAlpha,
    hasTests, updateTests, ruleSelf, Engine.new,
    Assert, bind_apply, pure_apply, newFactPtr, pushAgenda, modifyEngine, turn, popAgenda,
    propagate, getEngine, lookupAlpha, forRange, propagateNode, getAlpha, hrefl, hne,
    dupScan, modifyAlpha, updateAlpha, forList, rightActivate, getBeta, getProd, addToken,
    initIncoming, nullPtr, leftActivate, getTok, activate, resolveObjectId, resolveValue,
    lookupTests, modifyTok, modifyProd, Res.obs, allInferences, GetInferences, selectOutgoing,
    agendaFacts, factsUnder]

/-- C28 (witness): the literal 7 and the object id o, with fuel 3. -/
theorem Assert_rederived_premise_witness :
    ((intV 7).kind = .String ∨ ∃ k, (intV 7).kind = .Int k) ∧
      (calls [Define (ruleSelf (intV 7)), Assert 3 ⟨"o", "a", intV 7⟩] Engine.new).obs
          (fun e => (agendaFacts e, factsUnder e "a", allInferences e))
        = .ret [none, none] ([], [[⟨1, ⟨"o", "a", intV 7⟩⟩]], [⟨"o", "a", intV 7⟩]) :=
  ⟨Or.inr ⟨.Int, rfl⟩, Assert_rederived_premise "o" (intV 7) 0 (Or.inr ⟨.Int, rfl⟩)⟩

/-! ## New tokens and negated conditions -/

theorem forList_decide {γ : Type} (body : γ → Unit → M (Flow Unit (Bool × Option Err)))
    (ok : γ → Bool) (e : Engine) :
    ∀ (l : List γ),
      (∀ x ∈ l, body x () e = .ret (if ok x then .next () else .retn (false, none)) e) →
      forList body l () e = .ret ((), if l.all ok then none else some (false, none)) e := by
  intro l
  induction l with
  | nil => intro _; rfl
  | cons x rest ih =>
    intro h
    unfold forList
    simp only [bind_apply, h x (List.mem_cons_self x rest)]
    by_cases hx : ok x = true
    · simp only [hx, if_true, List.all_cons, Bool.true_and]
      exact ih (fun y hy => h y (List.mem_cons_of_mem x hy))
    · simp only [hx, Bool.false_eq_true, if_false, List.all_cons, Bool.false_and]
      rfl

theorem objectTest_eq (newFact : Fact) (V key : String) (incoming : List (Option FactPtr))
    (tst : betaTest) (e : Engine) (hr : tst.tokenIndex < incoming.length) :
    objectTest newFact V key incoming tst () e =
      .ret (if objectEntryOK newFact V key incoming tst then .next ()
        else .retn (false, none)) e := by
  unfold objectTest objectEntryOK boundAt
  rw [List.getElem?_eq_getElem hr]
  cases incoming[tst.tokenIndex] with
  | none => rfl
  | some b =>
    simp only
    by_cases hk : V = key
    · subst hk
      simp only [if_true]
      cases hoe : tst.objectElseValue
      · simp only [Bool.false_eq_true, if_false]
        cases hv : b.fact.Value <;> simp [pure_apply]
        rename_i s
        by_cases hs : newFact.ObjectId = s
        · simp [hs, pure_apply]
        · simp [hs, pure_apply, Ne.symm hs]
      · simp only [if_true]
        by_cases hs : newFact.ObjectId = b.fact.ObjectId <;> simp [hs, pure_apply]
    · have hk2 : ¬ key = V := fun h => hk h.symm
      simp only [hk, hk2, if_false]
      cases hoe : tst.objectElseValue
      · simp only [Bool.false_eq_true, if_false]
        cases hv : b.fact.Value <;> simp [pure_apply]
        rename_i s
        by_cases hs : newFact.ObjectId = s
        · simp [hs, pure_apply]
        · simp [hs, pure_apply, Ne.symm hs]
      · simp only [if_true]
        by_cases hs : newFact.ObjectId = b.fact.ObjectId <;> simp [hs, pure_apply]



theorem matchOp_EQ_NE_of_kind (v w : Value) (hv : v.kind = .String ∨ ∃ k, v.kind = .Int k) :
    ∃ b, matchOp v .EQ w = (b, none) ∧ matchOp v .NE w = (!b, none) := by
  cases v with
  | nil => simp [Value.kind] at hv
  | float k b => simp [Value.kind] at hv
  | other m => simp [Value.kind] at hv
  | str s =>
    cases w with
    | str r => exact ⟨decide (s = r), by simp [matchOp_str], by simp [matchOp_str]⟩
    | nil => exact ⟨false, by unfold matchOp; simp [Value.kind], by unfold matchOp; simp [Value.kind]⟩
    | int k m => exact ⟨false, by unfold matchOp; simp [Value.kind], by unfold matchOp; simp [Value.kind]⟩
    | float k m => exact ⟨false, by unfold matchOp; simp [Value.kind], by unfold matchOp; simp [Value.kind]⟩
    | other m => exact ⟨false, by unfold matchOp; simp [Value.kind], by unfold matchOp; simp [Value.kind]⟩
  | int k n =>
    cases w with
    | int k2 m =>
      by_cases hk : k = k2
      · subst hk
        exact ⟨decide (n = m), by simp [matchOp_int], by simp [matchOp_int]⟩
      · exact ⟨false, by unfold matchOp; simp [Value.kind, hk], by unfold matchOp; simp [Value.kind, hk]⟩
    | nil => exact ⟨false, by unfold matchOp; simp [Value.kind], by unfold matchOp; simp [Value.kind]⟩
    | str r => exact ⟨false, by unfold matchOp; simp [Value.kind], by unfold matchOp; simp [Value.kind]⟩
    | float k m => exact ⟨false, by unfold matchOp; simp [Value.kind], by unfold matchOp; simp [Value.kind]⟩
    | other m => exact ⟨false, by unfold matchOp; simp [Value.kind], by unfold matchOp; simp [Value.kind]⟩

theorem valueTest_eq (newFact : Fact) (V key : String) (incoming : List (Option FactPtr))
    (tst : betaTest) (e : Engine) (hr : tst.tokenIndex < incoming.length)
    (hv : newFact.Value.kind = .String ∨ ∃ k, newFact.Value.kind = .Int k) :
    valueTest newFact V key incoming tst () e =
      .ret (if valueEntryOK newFact V key incoming tst then .next ()
        else .retn (false, none)) e := by
  unfold valueTest valueEntryOK boundAt
  rw [List.getElem?_eq_getElem hr]
  cases incoming[tst.tokenIndex] with
  | none => rfl
  | some b =>
    obtain ⟨m, hEQ, hNE⟩ := matchOp_EQ_NE_of_kind newFact.Value b.fact.Value hv
    simp only [hEQ, hNE]
    by_cases hk : V = key
    · subst hk
      simp only [if_true]
      cases hoe : tst.objectElseValue
      · cases m <;> simp [pure_apply]
      · simp only [if_true]
        cases hval : newFact.Value <;> simp [pure_apply]
        rename_i s
        by_cases hs : s = b.fact.ObjectId <;> simp [hs, pure_apply]
    · have hk2 : ¬ key = V := fun h => hk h.symm
      simp only [hk, hk2, if_false]
      cases hoe : tst.objectElseValue
      · cases m <;> simp [pure_apply]
      · simp only [if_true]
        cases hval : newFact.Value <;> simp [pure_apply]
        rename_i s
        by_cases hs : s = b.fact.ObjectId <;> simp [hs, pure_apply]

theorem all_entries_perm (ok : String → betaTest → Bool) {net1 net2 : List (String × List betaTest)}
    (h : net1.Perm net2) :
    net1.all (fun entry => entry.2.all (ok entry.1)) =
      net2.all (fun entry => entry.2.all (ok entry.1)) := by
  rw [Bool.eq_iff_iff]
  simp only [List.all_eq_true]
  exact ⟨fun h1 x hx => h1 x (h.mem_iff.2 hx), fun h1 x hx => h1 x (h.mem_iff.1 hx)⟩

theorem runTests_eq (test : String → betaTest → Unit → M (Flow Unit (Bool × Option Err)))
    (ok : String → betaTest → Bool) (e : Engine) (net : List (String × List betaTest))
    (h : ∀ e0 : Engine, ∀ entry ∈ net, ∀ tst ∈ entry.2,
      test entry.1 tst () e0
        = .ret (if ok entry.1 tst then .next () else .retn (false, none)) e0) :
    runTests test net e =
      .ret (if net.all (fun entry => entry.2.all (ok entry.1)) then none
        else some (false, none)) (afterRanges e 1) := by
  obtain ⟨l, hperm, hl⟩ := rangeMap_ret net e
  unfold runTests
  simp only [bind_apply, hl]
  rw [forList_decide _ (fun entry => entry.2.all (ok entry.1)) (afterRanges e 1) l]
  · rw [all_entries_perm ok hperm]
    rfl
  · intro entry hentry
    simp only [bind_apply]
    rw [forList_decide (test entry.1) (ok entry.1) (afterRanges e 1) entry.2
      (h _ entry (hperm.mem_iff.1 hentry))]
    by_cases hall : entry.2.all (ok entry.1) = true <;> simp [hall, pure_apply]

/-- C30: for a non-negated beta node `B` whose slot in token `tk` is empty
and a new fact whose Value is a string or an integer, `inject` returns
without error, and it accepts if and only if both tests pass at every entry
of the test network whose slot in the token is filled (`injectAccepts`): the
object test when `B` has an object variable, the value test when it has a
value variable.  On acceptance the engine changes only in
`tk.incoming[B.index]`, which becomes the new fact; on rejection nothing
changes.  (Of the model's pending choices of map order, `injectRanges` are
used up, one for each range over the test network.)  The result is the same
for every order of the variables of the test network: the engine `e` is any
engine, whatever orders the runtime picks, and `injectAccepts` does not
depend on the order.  (The entries refer to slots of the token: `hrange`.) -/
theorem inject_accepts_iff (R : Option FactPtr → M (Option Err)) (e : Engine) (tok : Nat)
    (newFact : FactPtr) (nodeRef : BetaRef) (pn prod : pNode) (B : betaNode) (tk : token)
    (hpn : e.productions[nodeRef.prod]? = some pn) (hB : pn.betaNodes[nodeRef.pos]? = some B)
    (htk : e.store[tok]? = some tk) (hpos : B.alphaNot = false)
    (hslot : tk.incoming[B.index]? = some none)
    (hprod : e.productions[B.product]? = some prod)
    (hrange : ∀ entry ∈ prod.testNetwork, ∀ tst ∈ entry.2,
      tst.tokenIndex < tk.incoming.length)
    (hv : newFact.fact.Value.kind = .String ∨ ∃ k, newFact.fact.Value.kind = .Int k) :
    inject R tok newFact nodeRef e =
        .ret (injectAccepts newFact.fact B tk.incoming prod.testNetwork, none)
          (if injectAccepts newFact.fact B tk.incoming prod.testNetwork then
            fillSlot
              (afterRanges e (injectRanges newFact.fact B tk.incoming prod.testNetwork))
              tok B.index newFact
          else afterRanges e (injectRanges newFact.fact B tk.incoming prod.testNetwork)) ∧
      ∀ net : List (String × List betaTest), net.Perm prod.testNetwork →
        injectAccepts newFact.fact B tk.incoming net
          = injectAccepts newFact.fact B tk.incoming prod.testNetwork := by
  constructor
  · have hobj : ∀ e0 : Engine,
        runTests (fun key => objectTest newFact.fact B.objectVariable key tk.incoming)
        prod.testNetwork e0 =
        .ret (if (prod.testNetwork.all fun entry =>
            entry.2.all (objectEntryOK newFact.fact B.objectVariable entry.1 tk.incoming))
          then none else some (false, none)) (afterRanges e0 1) := fun e0 =>
      runTests_eq
        (fun key => objectTest newFact.fact B.objectVariable key tk.incoming)
        (fun key => objectEntryOK newFact.fact B.objectVariable key tk.incoming) e0
        prod.testNetwork
        (fun e1 entry hentry tst htst => objectTest_eq newFact.fact B.objectVariable entry.1
          tk.incoming tst e1 (hrange entry hentry tst htst))
    have hval : ∀ e0 : Engine,
        runTests (fun key => valueTest newFact.fact B.valueVariable key tk.incoming)
        prod.testNetwork e0 =
        .ret (if (prod.testNetwork.all fun entry =>
            entry.2.all (valueEntryOK newFact.fact B.valueVariable entry.1 tk.incoming))
          then none else some (false, none)) (afterRanges e0 1) := fun e0 =>
      runTests_eq
        (fun key => valueTest newFact.fact B.valueVariable key tk.incoming)
        (fun key => valueEntryOK newFact.fact B.valueVariable key tk.incoming) e0
        prod.testNetwork
        (fun e1 entry hentry tst htst => valueTest_eq newFact.fact B.valueVariable entry.1
          tk.incoming tst e1 (hrange entry hentry tst htst) hv)
    have h0 : afterRanges e 0 = e := rfl
    have h2 : afterRanges (afterRanges e 1) 1 = afterRanges e 2 := by
      simp [afterRanges, List.drop_drop]
    unfold inject injectAccepts injectRanges fillSlot
    simp only [bind_apply, getBeta, getProd, hpn, hB, pure_apply, getTok, htk, hslot, hpos,
      Bool.false_eq_true, if_false, hprod]
    by_cases ho : B.objectVariable = ""
    · by_cases hvv : B.valueVariable = ""
      · simp [ho, hvv, pure_apply, bind_apply, modifyTok, modifyEngine, h0]
      · by_cases hall : (prod.testNetwork.all fun entry =>
            entry.2.all (valueEntryOK newFact.fact B.valueVariable entry.1 tk.incoming)) = true
        · simp [ho, hvv, hval, hall, pure_apply, bind_apply, modifyTok, modifyEngine,
            afterRanges]
        · simp [ho, hvv, hval, hall, pure_apply, bind_apply]
    · by_cases hall : (prod.testNetwork.all fun entry =>
          entry.2.all (objectEntryOK newFact.fact B.objectVariable entry.1 tk.incoming)) = true
      · by_cases hvv : B.valueVariable = ""
        · simp [ho, hobj, hall, hvv, pure_apply, bind_apply, modifyTok, modifyEngine,
            afterRanges]
        · by_cases hall2 : (prod.testNetwork.all fun entry =>
              entry.2.all (valueEntryOK newFact.fact B.valueVariable entry.1 tk.incoming))
                = true
          · simp [ho, hobj, hall, hvv, hval, hall2, pure_apply, bind_apply, modifyTok,
              modifyEngine, h2, afterRanges]
          · simp [ho, hobj, hall, hvv, hval, hall2, pure_apply, bind_apply, h2]
      · simp [ho, hobj, hall, pure_apply, bind_apply]
  · intro net hperm
    unfold injectAccepts
    rw [all_entries_perm
        (fun key => objectEntryOK newFact.fact B.objectVariable key tk.incoming) hperm,
      all_entries_perm
        (fun key => valueEntryOK newFact.fact B.valueVariable key tk.incoming) hperm]


/-- C30 (witness): the engine with the rule IF ?x.p == 1 AND ?y.q == 1 THEN
?x.r = ?y after Assert (o1,p,1), where the runtime is about to visit the test
network in its second order; its token [(o1,p,1), nil], the beta node of the
second condition and the new fact (o2,q,1): accepted. -/
theorem inject_accepts_iff_witness :
    injectAccepts ⟨"o2", "q", intV 1⟩ ⟨1, false, "y", 0, "", 0, ⟨"q", 0⟩, 0⟩
        [some ⟨1, ⟨"o1", "p", intV 1⟩⟩, none] [("x", [⟨0, true⟩]), ("y", [⟨1, true⟩])] = true ∧
    (inject (retract 0) 0 ⟨2, ⟨"o2", "q", intV 1⟩⟩ ⟨0, 1⟩ { pairEngine with mapOrders := [1] } =
        .ret (injectAccepts ⟨"o2", "q", intV 1⟩ ⟨1, false, "y", 0, "", 0, ⟨"q", 0⟩, 0⟩
            [some ⟨1, ⟨"o1", "p", intV 1⟩⟩, none] [("x", [⟨0, true⟩]), ("y", [⟨1, true⟩])], none)
          (if injectAccepts ⟨"o2", "q", intV 1⟩ ⟨1, false, "y", 0, "", 0, ⟨"q", 0⟩, 0⟩
              [some ⟨1, ⟨"o1", "p", intV 1⟩⟩, none] [("x", [⟨0, true⟩]), ("y", [⟨1, true⟩])]
            then fillSlot
              (afterRanges { pairEngine with mapOrders := [1] }
                (injectRanges ⟨"o2", "q", intV 1⟩ ⟨1, false, "y", 0, "", 0, ⟨"q", 0⟩, 0⟩
                  [some ⟨1, ⟨"o1", "p", intV 1⟩⟩, none]
                  [("x", [⟨0, true⟩]), ("y", [⟨1, true⟩])]))
              0 1 ⟨2, ⟨"o2", "q", intV 1⟩⟩
          else afterRanges { pairEngine with mapOrders := [1] }
            (injectRanges ⟨"o2", "q", intV 1⟩ ⟨1, false, "y", 0, "", 0, ⟨"q", 0⟩, 0⟩
              [some ⟨1, ⟨"o1", "p", intV 1⟩⟩, none]
              [("x", [⟨0, true⟩]), ("y", [⟨1, true⟩])])) ∧
      ∀ net : List (String × List betaTest),
        net.Perm [("x", [⟨0, true⟩]), ("y", [⟨1, true⟩])] →
        injectAccepts ⟨"o2", "q", intV 1⟩ ⟨1, false, "y", 0, "", 0, ⟨"q", 0⟩, 0⟩
            [some ⟨1, ⟨"o1", "p", intV 1⟩⟩, none] net
          = injectAccepts ⟨"o2", "q", intV 1⟩ ⟨1, false, "y", 0, "", 0, ⟨"q", 0⟩, 0⟩
            [some ⟨1, ⟨"o1", "p", intV 1⟩⟩, none] [("x", [⟨0, true⟩]), ("y", [⟨1, true⟩])]) :=
  ⟨by decide,
    inject_accepts_iff (retract 0) { pairEngine with mapOrders := [1] } 0
      ⟨2, ⟨"o2", "q", intV 1⟩⟩ ⟨0, 1⟩
      ⟨"pair", [⟨0, false, "x", 0, "", 0, ⟨"p", 0⟩, 0⟩, ⟨1, false, "y", 0, "", 0, ⟨"q", 0⟩, 0⟩],
        [0], [⟨.var "x", "r", .var "y"⟩], [("x", [⟨0, true⟩]), ("y", [⟨1, true⟩])]⟩
      ⟨"pair", [⟨0, false, "x", 0, "", 0, ⟨"p", 0⟩, 0⟩, ⟨1, false, "y", 0, "", 0, ⟨"q", 0⟩, 0⟩],
        [0], [⟨.var "x", "r", .var "y"⟩], [("x", [⟨0, true⟩]), ("y", [⟨1, true⟩])]⟩
      ⟨1, false, "y", 0, "", 0, ⟨"q", 0⟩, 0⟩
      ⟨0, [some ⟨1, ⟨"o1", "p", intV 1⟩⟩, none], [none]⟩
      (by decide!) (by decide) (by decide!) rfl (by decide) (by decide!) (by decide)
      (Or.inr ⟨.Int, rfl⟩)⟩
/-! ## `Define` as a function of the engine -/

theorem lookupAlpha_withKey (net : List (String × List alphaNode)) (attr A : String) :
    lookupAlpha (withKey net attr) A = lookupAlpha net A := by
  unfold withKey
  split
  · rfl
  · rename_i hno
    induction net with
    | nil =>
      simp only [List.nil_append, lookupAlpha]
      split <;> rfl
    | cons kv rest ih =>
      obtain ⟨k, v⟩ := kv
      simp only [hasAlpha] at hno
      simp only [List.cons_append, lookupAlpha]
      split
      · rfl
      · rename_i hk
        by_cases hka : k = attr
        · simp [hka] at hno
        · simp only [hka, if_false] at hno
          exact ih hno

theorem hasAlpha_append_key (net : List (String × List alphaNode)) (attr : String)
    (l : List alphaNode) : hasAlpha (net ++ [(attr, l)]) attr = true := by
  induction net with
  | nil => simp [hasAlpha]
  | cons kv rest ih =>
    obtain ⟨k, v⟩ := kv
    simp only [List.cons_append, hasAlpha]
    split
    · rfl
    · exact ih

theorem hasAlpha_withKey (net : List (String × List alphaNode)) (attr : String) :
    hasAlpha (withKey net attr) attr = true := by
  unfold withKey
  split
  · assumption
  · exact hasAlpha_append_key net attr []

theorem updateAlpha_updateAlpha (h1 h2 : List alphaNode → List alphaNode)
    (net : List (String × List alphaNode)) (attr : String) :
    updateAlpha h2 (updateAlpha h1 net attr) attr = updateAlpha (fun l => h2 (h1 l)) net attr := by
  induction net with
  | nil => rfl
  | cons kv rest ih =>
    obtain ⟨k, v⟩ := kv
    simp only [updateAlpha]
    split
    · rename_i hk
      simp [updateAlpha, hk]
    · rename_i hk
      simp only [updateAlpha, hk, if_false]
      rw [ih]

theorem lookupAlpha_updateAlpha_self (h : List alphaNode → List alphaNode)
    (net : List (String × List alphaNode)) (attr : String) (hkey : hasAlpha net attr = true) :
    lookupAlpha (updateAlpha h net attr) attr = h (lookupAlpha net attr) := by
  induction net with
  | nil => simp [hasAlpha] at hkey
  | cons kv rest ih =>
    obtain ⟨k, v⟩ := kv
    simp only [updateAlpha, lookupAlpha]
    by_cases hk : k = attr
    · simp [hk, lookupAlpha]
    · simp only [hasAlpha, hk, if_false] at hkey
      simp only [hk, if_false, lookupAlpha]
      exact ih hkey

theorem lookupAlpha_updateAlpha_ne (h : List alphaNode → List alphaNode)
    (net : List (String × List alphaNode)) (attr A : String) (hne : attr ≠ A) :
    lookupAlpha (updateAlpha h net attr) A = lookupAlpha net A := by
  induction net with
  | nil => rfl
  | cons kv rest ih =>
    obtain ⟨k, v⟩ := kv
    simp only [updateAlpha, lookupAlpha]
    by_cases hk : k = attr
    · subst hk
      simp [lookupAlpha, hne]
    · simp only [hk, if_false, lookupAlpha]
      split
      · rfl
      · exact ih

theorem updateAlpha_congr (h1 h2 : List alphaNode → List alphaNode)
    (net : List (String × List alphaNode)) (attr : String)
    (heq : h1 (lookupAlpha net attr) = h2 (lookupAlpha net attr)) :
    updateAlpha h1 net attr = updateAlpha h2 net attr := by
  induction net with
  | nil => rfl
  | cons kv rest ih =>
    obtain ⟨k, v⟩ := kv
    simp only [updateAlpha, lookupAlpha] at heq ⊢
    by_cases hk : k = attr
    · simp only [hk, if_true] at heq ⊢
      rw [heq]
    · simp only [hk, if_false] at heq ⊢
      rw [ih heq]

theorem findReusable_lt (oc : String) (cmp : Operator) (v : Value) :
    ∀ (l : List alphaNode) (j0 j : Nat), (findReusable oc cmp v l j0).1 = some j →
      j0 ≤ j ∧ j < j0 + l.length := by
  intro l
  induction l with
  | nil =>
    intro j0 j h
    simp [findReusable] at h
  | cons a rest ih =>
    intro j0 j h
    unfold findReusable at h
    split at h
    · cases h
    · split at h
      · simp only [Option.some.injEq] at h
        subst h
        simp
      · have := ih _ _ h
        simp only [List.length_cons]
        omega

theorem modify_append_length {α : Type} (l : List α) (x : α) (g : α → α) :
    (l ++ [x]).modify g l.length = l ++ [g x] := by
  induction l with
  | nil => rfl
  | cons y rest ih =>
    simp only [List.cons_append, List.length_cons]
    rw [List.modify_succ_cons, ih]

theorem newBeta_fields (p i : Nat) (c : Condition) (pos : Nat)
    (net : List (String × List betaTest)) :
    (newBeta p i c pos net).1.index = i ∧ (newBeta p i c pos net).1.alphaNot = c.NotExists ∧
      (newBeta p i c pos net).1.parentNode = ⟨c.Attribute, pos⟩ ∧
      (newBeta p i c pos net).1.product = p := by
  obtain ⟨ne, oid, attr, cmp, val⟩ := c
  cases oid <;> cases val <;> exact ⟨rfl, rfl, rfl, rfl⟩

/-- The state the loop body of `Define` leaves when it returns no error. -/
theorem defineCondition_ret (p i : Nat) (c : Condition) (e e1 : Engine)
    (h : defineCondition p i c e = .ret none e1) :
    ∃ prod, e.productions[p]? = some prod ∧ e1 = attached p i c prod.testNetwork e ∧
      (findReusable c.objConstraint c.Comparator c.compareTo
        (lookupAlpha e.alphaNetwork c.Attribute) 0).2 = none := by
  have key : wp (defineCondition p i c) (fun err e1 => err = none →
      ∃ prod, e.productions[p]? = some prod ∧ e1 = attached p i c prod.testNetwork e ∧
        (findReusable c.objConstraint c.Comparator c.compareTo
          (lookupAlpha e.alphaNetwork c.Attribute) 0).2 = none) e := by
    obtain ⟨ne, oid, attr, cmp, val⟩ := c
    unfold defineCondition
    simp only [wp_bind, wp_modifyEngine]
    have h0 : (if hasAlpha e.alphaNetwork attr = true then e
        else { e with alphaNetwork := e.alphaNetwork ++ [(attr, [])] })
          = { e with alphaNetwork := withKey e.alphaNetwork attr } := by
      unfold withKey
      split <;> rfl
    rw [h0]
    split
    · trivial
    · split
      all_goals first
        | (intro hh; cases hh)
        | skip
      split
      · trivial
      · rename_i oc hoc
        simp only [wp_bind, wp_getEngine]
        simp only [lookupAlpha_withKey]
        split
        · intro hh
          cases hh
        · rename_i found hfound
          have hoc2 : oc = (Condition.mk ne oid attr cmp val).objConstraint := by
            cases oid with
            | var v =>
              simp only [Option.some.injEq] at hoc
              exact hoc.symm
            | lit v =>
              cases v <;> simp only [Option.some.injEq] at hoc <;> first
                | exact hoc.symm
                | cases hoc
          have hfr : findReusable (Condition.mk ne oid attr cmp val).objConstraint cmp
              (Condition.mk ne oid attr cmp val).compareTo (lookupAlpha e.alphaNetwork attr) 0
                = (found, none) := by
            rw [← hoc2]
            exact hfound
          cases found with
          | some j =>
            simp only [wp_bind, wp_pure, wp_modifyAlpha, wp_getProd, wp_modifyProd]
            intro prod hprod _
            refine ⟨prod, hprod, ?_, by rw [hfr]⟩
            have hpos : attachPos (Condition.mk ne oid attr cmp val) (lookupAlpha e.alphaNetwork attr)
                = j := by
              unfold attachPos
              simp only
              rw [hfr]
            have halpha : updateAlpha (attachNodes p i (Condition.mk ne oid attr cmp val))
                (withKey e.alphaNetwork attr) attr
                  = updateAlpha (fun l => l.modify (fun a =>
                      { a with betaNodes := a.betaNodes ++ [⟨p, i⟩] }) j)
                    (withKey e.alphaNetwork attr) attr := by
              apply updateAlpha_congr
              rw [lookupAlpha_withKey]
              unfold attachNodes
              simp only
              rw [hfr]
              rfl
            unfold attached
            simp only
            rw [hpos, halpha]
            rfl
          | none =>
            simp only [wp_bind, wp_pure, wp_modifyEngine, wp_modifyAlpha, wp_getProd, wp_modifyProd]
            intro prod hprod _
            refine ⟨prod, hprod, ?_, by rw [hfr]⟩
            have hpos : attachPos (Condition.mk ne oid attr cmp val) (lookupAlpha e.alphaNetwork attr)
                = (lookupAlpha e.alphaNetwork attr).length := by
              unfold attachPos
              simp only
              rw [hfr]
            have halpha : updateAlpha (attachNodes p i (Condition.mk ne oid attr cmp val))
                (withKey e.alphaNetwork attr) attr
                  = updateAlpha (fun l => l.modify (fun a =>
                      { a with betaNodes := a.betaNodes ++ [⟨p, i⟩] })
                        (lookupAlpha e.alphaNetwork attr).length)
                    (updateAlpha (fun l => l ++ [⟨attr, oc, cmp,
                      (Condition.mk ne oid attr cmp val).compareTo, [], []⟩])
                      (withKey e.alphaNetwork attr) attr) attr := by
              rw [updateAlpha_updateAlpha]
              apply updateAlpha_congr
              rw [lookupAlpha_withKey]
              unfold attachNodes
              simp only
              rw [hfr]
              simp only
              rw [modify_append_length, hoc2]
              rfl
            unfold attached
            simp only
            rw [hpos, halpha]
            rfl
  exact wp_ret key h rfl

theorem wp_of_ret {α : Type} {m : M α} {Q : α → Engine → Prop} {e : Engine}
    (h : ∀ a e1, m e = .ret a e1 → Q a e1) : wp m Q e := by
  unfold wp
  cases hm : m e with
  | ret a e1 => exact h a e1 hm
  | crash c => trivial
  | outOfFuel => trivial

theorem defineCondition_attachStep (p i : Nat) (c : Condition) (e e1 : Engine)
    (h : defineCondition p i c e = .ret none e1) :
    e1 = attachStep p i c e ∧ p < e.productions.length := by
  obtain ⟨prod, hprod, heq, _⟩ := defineCondition_ret p i c e e1 h
  refine ⟨?_, ?_⟩
  · unfold attachStep
    rw [hprod]
    exact heq
  · by_contra hc
    rw [List.getElem?_eq_none (by omega)] at hprod
    cases hprod

theorem defineConditions_ret (p : Nat) (l : List Condition) :
    ∀ (i : Nat) (e e1 : Engine), defineConditions p l i e = .ret none e1 →
      e1 = attachAll p l i e := by
  induction l with
  | nil =>
    intro i e e1 h
    simp only [defineConditions, pure_apply, Res.ret.injEq, true_and] at h
    exact h.symm
  | cons c rest ih =>
    intro i e e1 h
    have key : wp (defineConditions p (c :: rest) i)
        (fun err e1 => err = none → e1 = attachAll p (c :: rest) i e) e := by
      unfold defineConditions
      rw [wp_bind]
      apply wp_of_ret
      intro err e2 h2
      split
      · rename_i herr
        apply wp_of_ret
        intro a e3 h3 ha
        simp only [pure_apply, Res.ret.injEq] at h3
        rw [← h3.1] at ha
        rw [ha] at herr
        cases herr
      · rename_i herr
        have herr2 : err = none := by
          cases err with
          | none => rfl
          | some x => simp at herr
        subst herr2
        apply wp_of_ret
        intro a e3 h3 ha
        subst ha
        rw [ih _ _ _ h3, (defineCondition_attachStep p i c e e2 h2).1]
        rfl
    exact wp_ret key h rfl

theorem Define_ret (r : Rule) (e e1 : Engine) (h : Define r e = .ret none e1) :
    e1 = defined r e := by
  have key : wp (Define r) (fun err e1 => err = none → e1 = defined r e) e := by
    unfold Define
    simp only [wp_bind, wp_getEngine, wp_modifyEngine]
    apply wp_of_ret
    intro err e2 h2
    split
    · rename_i herr
      intro ha
      rw [ha] at herr
      cases herr
    · rename_i herr
      have herr2 : err = none := by
        cases err with
        | none => rfl
        | some x => simp at herr
      subst herr2
      simp only [wp_bind, wp_modifyProd, wp_pure]
      intro _
      rw [defineConditions_ret _ _ _ _ _ h2]
      rfl
  exact wp_ret key h rfl

theorem attachNodes_getElem_old (p i : Nat) (c : Condition) (l : List alphaNode) (k : Nat)
    (a : alphaNode) (h : l[k]? = some a) :
    (attachNodes p i c l)[k]? = some (if k = attachPos c l then addBeta ⟨p, i⟩ a else a) := by
  have hk : k < l.length := by
    by_contra hc
    rw [List.getElem?_eq_none (by omega)] at h
    cases h
  unfold attachNodes attachPos
  cases hf : (findReusable c.objConstraint c.Comparator c.compareTo l 0).1 with
  | some j =>
    simp only
    rw [List.getElem?_modify, h]
    by_cases hjk : j = k
    · simp [hjk]
    · have : ¬ k = j := fun hh => hjk hh.symm
      simp [hjk, this]
  | none =>
    simp only
    rw [List.getElem?_append_left hk, h]
    have : ¬ k = l.length := by omega
    simp [this]

theorem attachNodes_getElem_pos (p i : Nat) (c : Condition) (l : List alphaNode) :
    ∃ a0, (attachNodes p i c l)[attachPos c l]? = some (addBeta ⟨p, i⟩ a0) ∧
      (l[attachPos c l]? = some a0 ∨
        (a0 = ⟨c.Attribute, c.objConstraint, c.Comparator, c.compareTo, [], []⟩ ∧
          (findReusable c.objConstraint c.Comparator c.compareTo l 0).1 = none)) := by
  unfold attachNodes attachPos
  cases hf : (findReusable c.objConstraint c.Comparator c.compareTo l 0).1 with
  | some j =>
    have hj := (findReusable_lt _ _ _ l 0 j hf).2
    simp only [Nat.zero_add] at hj
    refine ⟨l[j], ?_, Or.inl (List.getElem?_eq_getElem hj)⟩
    simp only
    rw [List.getElem?_modify, List.getElem?_eq_getElem hj]
    simp
  | none =>
    refine ⟨_, ?_, Or.inr ⟨rfl, rfl⟩⟩
    simp only
    rw [List.getElem?_append_right (Nat.le_refl _)]
    simp [addBeta]

theorem mem_attachNodes (p i : Nat) (c : Condition) (l : List alphaNode) (a1 : alphaNode)
    (h : a1 ∈ attachNodes p i c l) :
    a1 ∈ l ∨ (∃ a ∈ l, a1 = addBeta ⟨p, i⟩ a) ∨
      a1 = ⟨c.Attribute, c.objConstraint, c.Comparator, c.compareTo, [], [⟨p, i⟩]⟩ := by
  unfold attachNodes at h
  cases hf : (findReusable c.objConstraint c.Comparator c.compareTo l 0).1 with
  | some j =>
    rw [hf] at h
    simp only at h
    rcases mem_modify _ _ _ _ h with h1 | ⟨y, hy, rfl⟩
    · exact Or.inl h1
    · exact Or.inr (Or.inl ⟨y, hy, rfl⟩)
  | none =>
    rw [hf] at h
    simp only [List.mem_append, List.mem_singleton] at h
    rcases h with h1 | h1
    · exact Or.inl h1
    · exact Or.inr (Or.inr h1)

theorem betaCount_modify (l : List alphaNode) (b : BetaRef) (j : Nat) (hj : j < l.length) :
    betaCount (l.modify (addBeta b) j) = betaCount l + 1 := by
  induction l generalizing j with
  | nil => simp at hj
  | cons a rest ih =>
    cases j with
    | zero => simp [betaCount, addBeta]; omega
    | succ j =>
      rw [List.modify_succ_cons]
      simp only [List.length_cons, Nat.add_lt_add_iff_right] at hj
      have := ih j hj
      simp only [betaCount, List.map_cons, List.sum_cons] at this ⊢
      omega

theorem betaCount_attachNodes (p i : Nat) (c : Condition) (l : List alphaNode) :
    betaCount (attachNodes p i c l) = betaCount l + 1 := by
  unfold attachNodes
  cases hf : (findReusable c.objConstraint c.Comparator c.compareTo l 0).1 with
  | some j =>
    have hj := (findReusable_lt _ _ _ l 0 j hf).2
    simp only [Nat.zero_add] at hj
    simp only
    exact betaCount_modify l _ j hj
  | none =>
    simp [betaCount]

theorem sum_updateAlpha (h : List alphaNode → List alphaNode)
    (net : List (String × List alphaNode)) (attr : String) (hkey : hasAlpha net attr = true) :
    (List.map (fun entry => betaCount entry.2) (updateAlpha h net attr)).sum
        + betaCount (lookupAlpha net attr)
      = (List.map (fun entry => betaCount entry.2) net).sum + betaCount (h (lookupAlpha net attr)) := by
  induction net with
  | nil => simp [hasAlpha] at hkey
  | cons kv rest ih =>
    obtain ⟨k, v⟩ := kv
    simp only [updateAlpha, lookupAlpha]
    by_cases hk : k = attr
    · simp only [hk, if_true, List.map_cons, List.sum_cons]
      omega
    · simp only [hasAlpha, hk, if_false] at hkey
      simp only [hk, if_false, List.map_cons, List.sum_cons]
      have := ih hkey
      omega

theorem sum_withKey (net : List (String × List alphaNode)) (attr : String) :
    (List.map (fun entry => betaCount entry.2) (withKey net attr)).sum
      = (List.map (fun entry => betaCount entry.2) net).sum := by
  unfold withKey
  split
  · rfl
  · simp [betaCount]

theorem attached_alpha (p i : Nat) (c : Condition) (net : List (String × List betaTest))
    (e : Engine) (A : String) :
    lookupAlpha (attached p i c net e).alphaNetwork A =
      if c.Attribute = A then attachNodes p i c (lookupAlpha e.alphaNetwork A)
      else lookupAlpha e.alphaNetwork A := by
  unfold attached
  simp only
  split
  · rename_i hA
    subst hA
    rw [lookupAlpha_updateAlpha_self _ _ _ (hasAlpha_withKey _ _), lookupAlpha_withKey]
  · rename_i hA
    rw [lookupAlpha_updateAlpha_ne _ _ _ _ hA, lookupAlpha_withKey]

theorem attached_total (p i : Nat) (c : Condition) (net : List (String × List betaTest))
    (e : Engine) : totalBetas (attached p i c net e) = totalBetas e + 1 := by
  unfold totalBetas attached
  simp only
  have h1 := sum_updateAlpha (attachNodes p i c) (withKey e.alphaNetwork c.Attribute) c.Attribute
    (hasAlpha_withKey _ _)
  rw [lookupAlpha_withKey, betaCount_attachNodes, sum_withKey] at h1
  omega
/-! ## Claim C22: interning of alpha nodes -/

theorem matchOp_EQ_iff_eq (x y : Value) (hx : x.plain = true) :
    (matchOp x .EQ y).1 = true ↔ x = y := by
  unfold matchOp
  cases x <;> cases y <;> simp [Value.kind, Value.plain] at hx ⊢
  all_goals first
    | done
    | (split <;> simp_all)

theorem typed_plain (c : Condition) (h : c.typed = true) : c.compareTo.plain = true := by
  obtain ⟨ne, oid, attr, cmp, val⟩ := c
  cases val with
  | var v => rfl
  | lit v =>
    cases v <;> cases oid <;> simp [Condition.typed, Condition.compareTo, Value.plain] at h ⊢

theorem findReusable_some (oc : String) (cmp : Operator) (v : Value) (hv : v.plain = true) :
    ∀ (l : List alphaNode) (j0 j : Nat), (findReusable oc cmp v l j0).1 = some j →
      ∃ a, l[j - j0]? = some a ∧ a.objConstraint = oc ∧ a.comparator = cmp ∧ a.compareTo = v := by
  intro l
  induction l with
  | nil =>
    intro j0 j h
    simp [findReusable] at h
  | cons a rest ih =>
    intro j0 j h
    unfold findReusable at h
    split at h
    · cases h
    · rename_i m hm
      split at h
      · rename_i hcond
        simp only [Option.some.injEq] at h
        subst h
        refine ⟨a, by simp, hcond.1.symm, hcond.2.1.symm, ?_⟩
        have := (matchOp_EQ_iff_eq v a.compareTo hv).1 (by rw [hm]; exact hcond.2.2)
        exact this.symm
      · obtain ⟨b, hb, h1⟩ := ih _ _ h
        have hlt := findReusable_lt _ _ _ _ _ _ h
        refine ⟨b, ?_, h1⟩
        have : j - j0 = (j - (j0 + 1)) + 1 := by omega
        rw [this, List.getElem?_cons_succ]
        exact hb

theorem findReusable_none (oc : String) (cmp : Operator) (v : Value) (hv : v.plain = true) :
    ∀ (l : List alphaNode) (j0 : Nat), (findReusable oc cmp v l j0).1 = none →
      ∀ a ∈ l, ¬ (a.objConstraint = oc ∧ a.comparator = cmp ∧ a.compareTo = v) := by
  intro l
  induction l with
  | nil =>
    intro j0 _ a ha
    cases ha
  | cons b rest ih =>
    intro j0 h a ha
    unfold findReusable at h
    have hne := matchOp_EQ_no_error v b.compareTo (by
      cases v <;> simp [Value.plain] at hv ⊢)
    split at h
    · rename_i err hm
      rw [hm] at hne
      cases hne
    · rename_i m hm
      split at h
      · cases h
      · rename_i hcond
        simp only [List.mem_cons] at ha
        rcases ha with ha | ha
        · subst ha
          intro ⟨h1, h2, h3⟩
          apply hcond
          refine ⟨h1.symm, h2.symm, ?_⟩
          have := (matchOp_EQ_iff_eq v a.compareTo hv).2 h3.symm
          rw [hm] at this
          exact this
        · exact ih _ h a ha

theorem attachNodes_getElem_inv (p i : Nat) (c : Condition) (l : List alphaNode) (k : Nat)
    (a1 : alphaNode) (h : (attachNodes p i c l)[k]? = some a1) :
    (∃ a, l[k]? = some a ∧ a1.objConstraint = a.objConstraint ∧ a1.comparator = a.comparator ∧
        a1.compareTo = a.compareTo) ∨
      (k = l.length ∧ (findReusable c.objConstraint c.Comparator c.compareTo l 0).1 = none ∧
        a1.objConstraint = c.objConstraint ∧ a1.comparator = c.Comparator ∧
        a1.compareTo = c.compareTo) := by
  unfold attachNodes at h
  cases hf : (findReusable c.objConstraint c.Comparator c.compareTo l 0).1 with
  | some j =>
    rw [hf] at h
    simp only at h
    rw [List.getElem?_modify] at h
    cases hl : l[k]? with
    | none =>
      rw [hl] at h
      cases h
    | some a =>
      rw [hl] at h
      simp only [Option.map_eq_map, Option.map_some', Option.some.injEq] at h
      left
      refine ⟨a, rfl, ?_⟩
      subst h
      split <;> exact ⟨rfl, rfl, rfl⟩
  | none =>
    rw [hf] at h
    simp only at h
    by_cases hk : k < l.length
    · rw [List.getElem?_append_left hk] at h
      exact Or.inl ⟨a1, h, rfl, rfl, rfl⟩
    · have hk2 : k = l.length := by
        by_contra hc
        rw [List.getElem?_eq_none (by simp; omega)] at h
        cases h
      subst hk2
      rw [List.getElem?_append_right (Nat.le_refl _)] at h
      simp only [Nat.sub_self, List.getElem?_cons_zero, Option.some.injEq] at h
      subst h
      exact Or.inr ⟨rfl, rfl, rfl, rfl, rfl⟩

theorem attachNodes_pos_key (p i : Nat) (c : Condition) (l : List alphaNode)
    (hv : c.compareTo.plain = true) :
    ∃ a1, (attachNodes p i c l)[attachPos c l]? = some a1 ∧
      a1.objConstraint = c.objConstraint ∧ a1.comparator = c.Comparator ∧
      a1.compareTo = c.compareTo := by
  unfold attachNodes attachPos
  cases hf : (findReusable c.objConstraint c.Comparator c.compareTo l 0).1 with
  | some j =>
    obtain ⟨a, ha, h1, h2, h3⟩ := findReusable_some _ _ _ hv l 0 j hf
    simp only [Nat.sub_zero] at ha
    refine ⟨addBeta ⟨p, i⟩ a, ?_, h1, h2, h3⟩
    simp only
    rw [List.getElem?_modify, ha]
    simp
  | none =>
    refine ⟨⟨c.Attribute, c.objConstraint, c.Comparator, c.compareTo, [], [⟨p, i⟩]⟩, ?_,
      rfl, rfl, rfl⟩
    simp only
    rw [List.getElem?_append_right (Nat.le_refl _)]
    simp

theorem attached_old (p i : Nat) (c : Condition) (net : List (String × List betaTest))
    (e : Engine) (A : String) (k : Nat) (a : alphaNode)
    (h : (lookupAlpha e.alphaNetwork A)[k]? = some a) :
    ∃ a1, (lookupAlpha (attached p i c net e).alphaNetwork A)[k]? = some a1 ∧
      a1.objConstraint = a.objConstraint ∧ a1.comparator = a.comparator ∧
      a1.compareTo = a.compareTo := by
  rw [attached_alpha]
  split
  · refine ⟨_, attachNodes_getElem_old p i c _ k a h, ?_⟩
    split <;> exact ⟨rfl, rfl, rfl⟩
  · exact ⟨a, h, rfl, rfl, rfl⟩

theorem attached_inv (p i : Nat) (c : Condition) (net : List (String × List betaTest))
    (e : Engine) (A : String) (k : Nat) (a1 : alphaNode)
    (h : (lookupAlpha (attached p i c net e).alphaNetwork A)[k]? = some a1) :
    (∃ a, (lookupAlpha e.alphaNetwork A)[k]? = some a ∧ a1.objConstraint = a.objConstraint ∧
        a1.comparator = a.comparator ∧ a1.compareTo = a.compareTo) ∨
      (A = c.Attribute ∧ k = (lookupAlpha e.alphaNetwork c.Attribute).length ∧
        (findReusable c.objConstraint c.Comparator c.compareTo
          (lookupAlpha e.alphaNetwork c.Attribute) 0).1 = none ∧
        a1.objConstraint = c.objConstraint ∧ a1.comparator = c.Comparator ∧
        a1.compareTo = c.compareTo) := by
  rw [attached_alpha] at h
  split at h
  · rename_i hA
    subst hA
    rcases attachNodes_getElem_inv p i c _ k a1 h with h1 | h1
    · exact Or.inl h1
    · exact Or.inr ⟨rfl, h1⟩
  · exact Or.inl ⟨a1, h, rfl, rfl, rfl⟩

theorem InternInv_step (tbl : List (List Condition)) (done : List Condition) (c : Condition)
    (e : Engine) (hc : c.typed = true) (h : InternInv (tbl ++ [done]) e) :
    InternInv (tbl ++ [done ++ [c]]) (attachStep tbl.length done.length c e) := by
  have hv := typed_plain c hc
  obtain ⟨node, hnode, hlen, hbetas⟩ := h.attach tbl.length done (by simp)
  unfold attachStep
  rw [hnode]
  simp only
  have hprods : (attached tbl.length done.length c node.testNetwork e).productions
      = e.productions.modify (fun n => { n with
          betaNodes := n.betaNodes ++
            [(newBeta tbl.length done.length c
              (attachPos c (lookupAlpha e.alphaNetwork c.Attribute)) node.testNetwork).1],
          testNetwork := (newBeta tbl.length done.length c
            (attachPos c (lookupAlpha e.alphaNetwork c.Attribute)) node.testNetwork).2 })
          tbl.length := rfl
  obtain ⟨_, _, hB3, _⟩ := newBeta_fields tbl.length done.length c
    (attachPos c (lookupAlpha e.alphaNetwork c.Attribute)) node.testNetwork
  generalize newBeta tbl.length done.length c
    (attachPos c (lookupAlpha e.alphaNetwork c.Attribute)) node.testNetwork = nb at hprods hB3
  generalize he1 : attached tbl.length done.length c node.testNetwork e = e1 at hprods
  have hold : ∀ (A : String) (k : Nat) (a : alphaNode),
      (lookupAlpha e.alphaNetwork A)[k]? = some a →
      ∃ a1, (lookupAlpha e1.alphaNetwork A)[k]? = some a1 ∧
        a1.objConstraint = a.objConstraint ∧ a1.comparator = a.comparator ∧
        a1.compareTo = a.compareTo := by
    intro A k a ha
    rw [← he1]
    exact attached_old _ _ _ _ _ _ _ _ ha
  have hinv : ∀ (A : String) (k : Nat) (a1 : alphaNode),
      (lookupAlpha e1.alphaNetwork A)[k]? = some a1 →
      (∃ a, (lookupAlpha e.alphaNetwork A)[k]? = some a ∧ a1.objConstraint = a.objConstraint ∧
          a1.comparator = a.comparator ∧ a1.compareTo = a.compareTo) ∨
        (A = c.Attribute ∧ k = (lookupAlpha e.alphaNetwork c.Attribute).length ∧
          (findReusable c.objConstraint c.Comparator c.compareTo
            (lookupAlpha e.alphaNetwork c.Attribute) 0).1 = none ∧
          a1.objConstraint = c.objConstraint ∧ a1.comparator = c.Comparator ∧
          a1.compareTo = c.compareTo) := by
    intro A k a1 ha1
    rw [← he1] at ha1
    exact attached_inv _ _ _ _ _ _ _ _ ha1
  have hnew : ∃ a1, (lookupAlpha e1.alphaNetwork c.Attribute)[attachPos c
      (lookupAlpha e.alphaNetwork c.Attribute)]? = some a1 ∧
      a1.objConstraint = c.objConstraint ∧ a1.comparator = c.Comparator ∧
      a1.compareTo = c.compareTo := by
    rw [← he1, attached_alpha, if_pos rfl]
    exact attachNodes_pos_key _ _ c _ hv
  have hPa : ∀ q, q ≠ tbl.length → e1.productions[q]? = e.productions[q]? := by
    intro q hq
    rw [hprods, List.getElem?_modify]
    have : ¬ tbl.length = q := fun hh => hq hh.symm
    cases e.productions[q]? <;> simp [this]
  have hPb : e1.productions[tbl.length]?
      = some { node with betaNodes := node.betaNodes ++ [nb.1], testNetwork := nb.2 } := by
    rw [hprods, List.getElem?_modify, hnode]
    simp
  have holdbeta : ∀ (q : Nat) (l : List Condition) (nodeq : pNode), (tbl ++ [done])[q]? = some l →
      e.productions[q]? = some nodeq →
      ∃ l1 node1, (tbl ++ [done ++ [c]])[q]? = some l1 ∧ e1.productions[q]? = some node1 ∧
        node1.betaNodes.length = l1.length ∧
        (∀ (i : Nat) (ci : Condition), l[i]? = some ci → l1[i]? = some ci) ∧
        (∀ (i : Nat) (b : betaNode), nodeq.betaNodes[i]? = some b →
          node1.betaNodes[i]? = some b) ∧
        (nodeq.betaNodes.length = l.length → node1.betaNodes.length = l1.length) := by
    intro q l nodeq hl hq
    by_cases hqt : q < tbl.length
    · rw [List.getElem?_append_left hqt] at hl
      refine ⟨l, nodeq, ?_, ?_, ?_, fun _ _ hh => hh, fun _ _ hh => hh, fun hh => hh⟩
      · rw [List.getElem?_append_left hqt]
        exact hl
      · rw [hPa q (by omega)]
        exact hq
      · obtain ⟨n2, hn2, hlen2, _⟩ := h.attach q l (by
          rw [List.getElem?_append_left hqt]
          exact hl)
        rw [hq] at hn2
        cases hn2
        exact hlen2
    · have hq2 : q = tbl.length := by
        by_contra hne
        rw [List.getElem?_eq_none (by simp; omega)] at hl
        cases hl
      subst hq2
      simp only [List.getElem?_append_right (Nat.le_refl _), Nat.sub_self,
        List.getElem?_cons_zero, Option.some.injEq] at hl
      subst hl
      rw [hnode] at hq
      cases hq
      refine ⟨done ++ [c], _, by simp, hPb, by simp [hlen], ?_, ?_, fun _ => by simp [hlen]⟩
      · intro i ci hi
        have : i < done.length := by
          by_contra hne
          rw [List.getElem?_eq_none (by omega)] at hi
          cases hi
        rw [List.getElem?_append_left this]
        exact hi
      · intro i b hi
        have : i < node.betaNodes.length := by
          by_contra hne
          rw [List.getElem?_eq_none (by omega)] at hi
          cases hi
        simp only
        rw [List.getElem?_append_left this]
        exact hi
  refine ⟨?_, ?_, ?_, ?_⟩
  · rw [hprods, List.length_modify, h.len]
    simp
  · intro q l1 hl1
    by_cases hqt : q < tbl.length
    · rw [List.getElem?_append_left hqt] at hl1
      obtain ⟨nodeq, hq, hlenq, hbq⟩ := h.attach q l1 (by
        rw [List.getElem?_append_left hqt]
        exact hl1)
      refine ⟨nodeq, ?_, hlenq, ?_⟩
      · rw [hPa q (by omega)]
        exact hq
      · intro i ci hi
        obtain ⟨beta, a, h1, h2, h3, h4⟩ := hbq i ci hi
        obtain ⟨a1, ha1, k1, k2, k3⟩ := hold _ _ _ h3
        exact ⟨beta, a1, h1, h2, ha1, by rw [k1]; exact h4.1, by rw [k2]; exact h4.2.1,
          by rw [k3]; exact h4.2.2⟩
    · have hq2 : q = tbl.length := by
        by_contra hne
        rw [List.getElem?_eq_none (by simp; omega)] at hl1
        cases hl1
      subst hq2
      simp only [List.getElem?_append_right (Nat.le_refl _), Nat.sub_self,
        List.getElem?_cons_zero, Option.some.injEq] at hl1
      subst hl1
      refine ⟨_, hPb, by simp [hlen], ?_⟩
      intro i ci hi
      by_cases hid : i < done.length
      · rw [List.getElem?_append_left hid] at hi
        obtain ⟨beta, a, h1, h2, h3, h4⟩ := hbetas i ci hi
        obtain ⟨a1, ha1, k1, k2, k3⟩ := hold _ _ _ h3
        refine ⟨beta, a1, ?_, h2, ha1, by rw [k1]; exact h4.1, by rw [k2]; exact h4.2.1,
          by rw [k3]; exact h4.2.2⟩
        simp only
        rw [List.getElem?_append_left (by omega)]
        exact h1
      · have hi2 : i = done.length := by
          by_contra hne
          rw [List.getElem?_eq_none (by simp; omega)] at hi
          cases hi
        subst hi2
        simp only [List.getElem?_append_right (Nat.le_refl _), Nat.sub_self,
          List.getElem?_cons_zero, Option.some.injEq] at hi
        subst hi
        obtain ⟨a1, ha1, k1, k2, k3⟩ := hnew
        refine ⟨nb.1, a1, ?_, by rw [hB3], by rw [hB3]; exact ha1, k1, k2, k3⟩
        simp only
        rw [← hlen, List.getElem?_append_right (Nat.le_refl _)]
        simp
  · intro A j k a b ha hb e1' e2' e3'
    rcases hinv A j a ha with ⟨a0, ha0, x1, x2, x3⟩ | ⟨hA, hj, hf, x1, x2, x3⟩
    · rcases hinv A k b hb with ⟨b0, hb0, y1, y2, y3⟩ | ⟨hA2, hk, hf2, y1, y2, y3⟩
      · exact h.distinct A j k a0 b0 ha0 hb0 (by rw [← x1, ← y1]; exact e1')
          (by rw [← x2, ← y2]; exact e2') (by rw [← x3, ← y3]; exact e3')
      · exfalso
        subst hA2
        exact findReusable_none _ _ _ hv _ 0 hf2 a0 (List.getElem?_mem ha0)
          ⟨by rw [← x1, e1', y1], by rw [← x2, e2', y2], by rw [← x3, e3', y3]⟩
    · rcases hinv A k b hb with ⟨b0, hb0, y1, y2, y3⟩ | ⟨hA2, hk, hf2, y1, y2, y3⟩
      · exfalso
        subst hA
        exact findReusable_none _ _ _ hv _ 0 hf b0 (List.getElem?_mem hb0)
          ⟨by rw [← y1, ← e1', x1], by rw [← y2, ← e2', x2], by rw [← y3, ← e3', x3]⟩
      · omega
  · intro A k a1 ha1
    rcases hinv A k a1 ha1 with ⟨a0, ha0, _⟩ | ⟨hA, hk, hf, _⟩
    · obtain ⟨q, l, i, ci, nodeq, beta, w1, w2, w3, w4, w5⟩ := h.onto A k a0 ha0
      obtain ⟨l1, node1, v1, v2, _, v4, v5, _⟩ := holdbeta q l nodeq w1 w3
      exact ⟨q, l1, i, ci, node1, beta, v1, v4 i ci w2, v2, v5 i beta w4, w5⟩
    · refine ⟨tbl.length, done ++ [c], done.length, c, _, nb.1, by simp, by simp, hPb, ?_, ?_⟩
      · simp only
        rw [← hlen, List.getElem?_append_right (Nat.le_refl _)]
        simp
      · rw [hB3, hA, hk]
        unfold attachPos
        rw [hf]

theorem InternInv_all (tbl : List (List Condition)) (l : List Condition) :
    ∀ (done : List Condition) (e : Engine), (∀ c ∈ l, c.typed = true) →
      InternInv (tbl ++ [done]) e →
      InternInv (tbl ++ [done ++ l]) (attachAll tbl.length l done.length e) := by
  induction l with
  | nil =>
    intro done e _ h
    simpa [attachAll] using h
  | cons c rest ih =>
    intro done e hc h
    have h1 := ih (done ++ [c]) _ (fun x hx => hc x (List.mem_cons_of_mem _ hx))
      (InternInv_step tbl done c e (hc c (List.mem_cons_self _ _)) h)
    simp only [List.length_append, List.length_singleton, List.append_assoc,
      List.singleton_append] at h1
    exact h1

theorem InternInv_start (tbl : List (List Condition)) (e : Engine) (x : pNode)
    (hx : x.betaNodes = []) (h : InternInv tbl e) :
    InternInv (tbl ++ [[]]) { e with productions := e.productions ++ [x] } := by
  have hlen := h.len
  have hget : ∀ q (l : List Condition), tbl[q]? = some l → q < e.productions.length := by
    intro q l hl
    by_contra hc
    rw [List.getElem?_eq_none (by omega)] at hl
    cases hl
  refine ⟨by simp [hlen], ?_, h.distinct, ?_⟩
  · intro q l hl
    by_cases hq : q < tbl.length
    · rw [List.getElem?_append_left hq] at hl
      obtain ⟨node, h1, h2, h3⟩ := h.attach q l hl
      refine ⟨node, ?_, h2, h3⟩
      simp only
      rw [List.getElem?_append_left (by omega)]
      exact h1
    · have hq2 : q = tbl.length := by
        by_contra hne
        rw [List.getElem?_eq_none (by simp; omega)] at hl
        cases hl
      subst hq2
      simp only [List.getElem?_append_right (Nat.le_refl _), Nat.sub_self,
        List.getElem?_cons_zero, Option.some.injEq] at hl
      subst hl
      refine ⟨x, ?_, by simp [hx], ?_⟩
      · simp only
        rw [← hlen, List.getElem?_append_right (Nat.le_refl _)]
        simp
      · intro i c hi
        simp at hi
  · intro A k a ha
    obtain ⟨q, l, i, c, node, beta, w1, w2, w3, w4, w5⟩ := h.onto A k a ha
    have hq := hget q l w1
    refine ⟨q, l, i, c, node, beta, ?_, w2, ?_, w4, w5⟩
    · rw [List.getElem?_append_left (by omega)]
      exact w1
    · simp only
      rw [List.getElem?_append_left hq]
      exact w3

theorem InternInv_finish (tbl : List (List Condition)) (e : Engine) (p : Nat)
    (g : pNode → pNode) (hg : ∀ n, (g n).betaNodes = n.betaNodes) (h : InternInv tbl e) :
    InternInv tbl { e with productions := e.productions.modify g p } := by
  have hprod : ∀ (q : Nat) (node : pNode), e.productions[q]? = some node →
      ∃ node1, (e.productions.modify g p)[q]? = some node1 ∧
        node1.betaNodes = node.betaNodes := by
    intro q node hq
    rw [List.getElem?_modify, hq]
    simp only [Option.map_eq_map, Option.map_some']
    split
    · exact ⟨_, rfl, hg node⟩
    · exact ⟨_, rfl, rfl⟩
  refine ⟨by simp [h.len], ?_, h.distinct, ?_⟩
  · intro q l hl
    obtain ⟨node, h1, h2, h3⟩ := h.attach q l hl
    obtain ⟨node1, k1, k2⟩ := hprod q node h1
    refine ⟨node1, k1, by rw [k2]; exact h2, ?_⟩
    rw [k2]
    exact h3
  · intro A k a ha
    obtain ⟨q, l, i, c, node, beta, w1, w2, w3, w4, w5⟩ := h.onto A k a ha
    obtain ⟨node1, k1, k2⟩ := hprod q node w3
    exact ⟨q, l, i, c, node1, beta, w1, w2, k1, by rw [k2]; exact w4, w5⟩

theorem Defined_InternInv (rs : List Rule) (e : Engine) (h : Defined rs e)
    (htyped : ∀ r ∈ rs, ∀ c ∈ r.LHS, c.typed = true) :
    InternInv (rs.map fun r => r.LHS) e := by
  induction h with
  | fresh =>
    refine ⟨rfl, ?_, ?_, ?_⟩
    · intro p l hl
      simp at hl
    · intro A j k a b ha
      simp [Engine.new, lookupAlpha] at ha
    · intro A k a ha
      simp [Engine.new, lookupAlpha] at ha
  | define rs e e1 r _ hcall ih =>
    have ih1 := ih (fun x hx => htyped x (List.mem_append_left _ hx))
    have hr : ∀ c ∈ r.LHS, c.typed = true :=
      htyped r (List.mem_append_right _ (List.mem_singleton_self _))
    rw [Define_ret r e e1 hcall]
    unfold defined
    simp only [List.map_append, List.map_cons, List.map_nil]
    have hp : e.productions.length = (rs.map fun r => r.LHS).length := ih1.len
    have h1 := InternInv_start _ e ⟨r.Id, [], [], [], []⟩ rfl ih1
    have h2 := InternInv_all (rs.map fun r => r.LHS) r.LHS [] _ hr h1
    simp only [List.nil_append, List.length_nil] at h2
    rw [← hp] at h2
    exact InternInv_finish _ _ e.productions.length _ (fun _ => rfl) h2

/-- Claim C22.  After successful calls of `Define` for the rules `rs` on a
fresh engine, where the conditions have a string or a `Variable` as `ObjectId`
and a string, an integer or a `Variable` as `Value`: the beta nodes of two LHS
conditions have the same parent alpha node exactly when the conditions have
the same `Attribute`, the same object constraint ("" for a `Variable`), the
same `Comparator` and EQ-equal compare-to values (absent for a `Variable`);
and every alpha node is the parent of the beta node of some condition. -/
theorem Define_interns (rs : List Rule) (e : Engine) (h : Defined rs e)
    (htyped : ∀ r ∈ rs, ∀ c ∈ r.LHS, c.typed = true) :
    (∀ (p1 i1 p2 i2 : Nat) (r1 r2 : Rule) (c1 c2 : Condition),
      rs[p1]? = some r1 → r1.LHS[i1]? = some c1 → rs[p2]? = some r2 → r2.LHS[i2]? = some c2 →
      ∃ n1 n2 b1 b2, e.productions[p1]? = some n1 ∧ n1.betaNodes[i1]? = some b1 ∧
        e.productions[p2]? = some n2 ∧ n2.betaNodes[i2]? = some b2 ∧
        (b1.parentNode = b2.parentNode ↔
          c1.Attribute = c2.Attribute ∧ c1.objConstraint = c2.objConstraint ∧
          c1.Comparator = c2.Comparator ∧ (matchOp c1.compareTo .EQ c2.compareTo).1 = true)) ∧
    (∀ (A : String) (k : Nat) (a : alphaNode), (lookupAlpha e.alphaNetwork A)[k]? = some a →
      ∃ (p i : Nat) (r : Rule) (c : Condition) (node : pNode) (beta : betaNode),
        rs[p]? = some r ∧ r.LHS[i]? = some c ∧ e.productions[p]? = some node ∧
        node.betaNodes[i]? = some beta ∧ beta.parentNode = ⟨A, k⟩) := by
  have inv := Defined_InternInv rs e h htyped
  refine ⟨?_, ?_⟩
  · intro p1 i1 p2 i2 r1 r2 c1 c2 hr1 hc1 hr2 hc2
    obtain ⟨n1, hn1, _, hb1⟩ := inv.attach p1 r1.LHS (by simp [hr1])
    obtain ⟨n2, hn2, _, hb2⟩ := inv.attach p2 r2.LHS (by simp [hr2])
    obtain ⟨b1, a1, x1, x2, x3, x4, x5, x6⟩ := hb1 i1 c1 hc1
    obtain ⟨b2, a2, y1, y2, y3, y4, y5, y6⟩ := hb2 i2 c2 hc2
    have hv1 : c1.compareTo.plain = true :=
      typed_plain c1 (htyped r1 (List.getElem?_mem hr1) c1 (List.getElem?_mem hc1))
    refine ⟨n1, n2, b1, b2, hn1, x1, hn2, y1, ?_⟩
    rw [matchOp_EQ_iff_eq _ _ hv1]
    constructor
    · intro heq
      have hattr : c1.Attribute = c2.Attribute := by rw [← x2, ← y2, heq]
      rw [heq, hattr, y3] at x3
      cases x3
      exact ⟨hattr, by rw [← x4, y4], by rw [← x5, y5], by rw [← x6, y6]⟩
    · intro ⟨hattr, k1, k2, k3⟩
      rw [hattr] at x3
      have hpos := inv.distinct c2.Attribute _ _ a1 a2 x3 y3 (by rw [x4, y4, k1])
        (by rw [x5, y5, k2]) (by rw [x6, y6, k3])
      cases hb1p : b1.parentNode
      cases hb2p : b2.parentNode
      rw [hb1p] at x2 hpos
      rw [hb2p] at y2 hpos
      simp only at x2 y2 hpos
      rw [x2, y2, hattr, hpos]
  · intro A k a ha
    obtain ⟨p, l, i, c, node, beta, w1, w2, w3, w4, w5⟩ := inv.onto A k a ha
    simp only [List.getElem?_map, Option.map_eq_some'] at w1
    obtain ⟨r, hr, hl⟩ := w1
    subst hl
    exact ⟨p, i, r, c, node, beta, hr, w2, w3, w4, w5⟩

theorem Define_interns_witness :
    Defined [ruleThreeAttrs] threeAttrsEngine ∧ alphaCount threeAttrsEngine = 3 ∧
    (∀ (p1 i1 p2 i2 : Nat) (r1 r2 : Rule) (c1 c2 : Condition),
      [ruleThreeAttrs][p1]? = some r1 → r1.LHS[i1]? = some c1 →
      [ruleThreeAttrs][p2]? = some r2 → r2.LHS[i2]? = some c2 →
      ∃ n1 n2 b1 b2, threeAttrsEngine.productions[p1]? = some n1 ∧
        n1.betaNodes[i1]? = some b1 ∧
        threeAttrsEngine.productions[p2]? = some n2 ∧ n2.betaNodes[i2]? = some b2 ∧
        (b1.parentNode = b2.parentNode ↔
          c1.Attribute = c2.Attribute ∧ c1.objConstraint = c2.objConstraint ∧
          c1.Comparator = c2.Comparator ∧ (matchOp c1.compareTo .EQ c2.compareTo).1 = true)) ∧
    (∀ (A : String) (k : Nat) (a : alphaNode),
      (lookupAlpha threeAttrsEngine.alphaNetwork A)[k]? = some a →
      ∃ (p i : Nat) (r : Rule) (c : Condition) (node : pNode) (beta : betaNode),
        [ruleThreeAttrs][p]? = some r ∧ r.LHS[i]? = some c ∧
        threeAttrsEngine.productions[p]? = some node ∧
        node.betaNodes[i]? = some beta ∧ beta.parentNode = ⟨A, k⟩) :=
  have hd : Defined [ruleThreeAttrs] threeAttrsEngine :=
    Defined.define [] Engine.new threeAttrsEngine ruleThreeAttrs Defined.fresh (by decide!)
  ⟨hd, by decide!, Define_interns [ruleThreeAttrs] threeAttrsEngine hd (by decide)⟩
/-! ## Claim C23: one beta node per condition -/

theorem count_addBeta (a : alphaNode) (b b1 : BetaRef) :
    (addBeta b a).betaNodes.count b1 = a.betaNodes.count b1 + if b = b1 then 1 else 0 := by
  unfold addBeta
  simp only [List.count_append, List.count_singleton]
  by_cases h : b = b1
  · simp [h]
  · have : ¬ (b == b1) = true := by simpa using h
    simp [h, this]

theorem DefineInv_step (p total : Nat) (cs : List Condition) (c : Condition) (e : Engine)
    (h : DefineInv p total cs e) :
    DefineInv p total (cs ++ [c]) (attachStep p cs.length c e) := by
  obtain ⟨node, hnode, hlen, hbetas⟩ := h.node
  unfold attachStep
  rw [hnode]
  simp only
  have hprods : (attached p cs.length c node.testNetwork e).productions
      = e.productions.modify (fun n => { n with
          betaNodes := n.betaNodes ++
            [(newBeta p cs.length c (attachPos c (lookupAlpha e.alphaNetwork c.Attribute))
              node.testNetwork).1],
          testNetwork := (newBeta p cs.length c
            (attachPos c (lookupAlpha e.alphaNetwork c.Attribute)) node.testNetwork).2 }) p := rfl
  obtain ⟨hB1, hB2, hB3, hB4⟩ := newBeta_fields p cs.length c
    (attachPos c (lookupAlpha e.alphaNetwork c.Attribute)) node.testNetwork
  generalize newBeta p cs.length c (attachPos c (lookupAlpha e.alphaNetwork c.Attribute))
    node.testNetwork = nb at hprods hB1 hB2 hB3 hB4
  refine ⟨?_, ?_, ?_, ?_, ?_⟩
  · rw [hprods, List.length_modify]
    exact h.len
  · refine ⟨{ node with betaNodes := node.betaNodes ++ [nb.1], testNetwork := nb.2 }, ?_, ?_, ?_⟩
    · rw [hprods, List.getElem?_modify, hnode]
      simp only [Option.map_some', if_true]
      rfl
    · simp [hlen]
    · intro i ci hci
      by_cases hi : i < cs.length
      · rw [List.getElem?_append_left hi] at hci
        obtain ⟨beta, a, hb, h1, h2, h3, h4, h5⟩ := hbetas i ci hci
        have hi2 : i < node.betaNodes.length := by omega
        have hb2 : (node.betaNodes ++ [nb.1])[i]? = some beta := by
          rw [List.getElem?_append_left hi2]
          exact hb
        by_cases hA : c.Attribute = ci.Attribute
        · refine ⟨beta, if beta.parentNode.pos = attachPos c (lookupAlpha e.alphaNetwork ci.Attribute)
            then addBeta ⟨p, cs.length⟩ a else a, hb2, h1, h2, h3, ?_, ?_⟩
          · rw [attached_alpha, if_pos hA]
            exact attachNodes_getElem_old _ _ _ _ _ _ h4
          · split
            · rw [count_addBeta, h5]
              have : ¬ (⟨p, cs.length⟩ : BetaRef) = ⟨p, i⟩ := by
                intro hh
                cases hh
                omega
              simp [this]
            · exact h5
        · refine ⟨beta, a, hb2, h1, h2, h3, ?_, h5⟩
          rw [attached_alpha, if_neg hA]
          exact h4
      · have hi3 : i = cs.length := by
          by_contra hc
          rw [List.getElem?_eq_none (by simp; omega)] at hci
          cases hci
        subst hi3
        simp only [List.getElem?_append_right (Nat.le_refl _), Nat.sub_self,
          List.getElem?_cons_zero, Option.some.injEq] at hci
        subst hci
        obtain ⟨a0, ha0, hold⟩ := attachNodes_getElem_pos p cs.length c
          (lookupAlpha e.alphaNetwork c.Attribute)
        refine ⟨nb.1, addBeta ⟨p, cs.length⟩ a0, ?_, hB1, hB2, ?_, ?_, ?_⟩
        · simp only
          rw [← hlen, List.getElem?_append_right (Nat.le_refl _)]
          simp
        · rw [hB3]
        · rw [attached_alpha, hB3]
          simp only [if_true]
          exact ha0
        · rw [count_addBeta]
          simp only [if_true]
          have h0 : a0.betaNodes.count ⟨p, cs.length⟩ = 0 := by
            rw [List.count_eq_zero]
            intro hmem
            rcases hold with hold | ⟨hold, _⟩
            · rcases h.refs _ a0 (List.getElem?_mem hold) _ hmem with h1 | ⟨_, h1⟩
              · simp at h1
              · simp at h1
            · subst hold
              simp at hmem
          omega
  · intro A a ha
    rw [attached_alpha] at ha
    split at ha
    · rename_i hA
      subst hA
      rcases mem_attachNodes _ _ _ _ _ ha with h1 | ⟨y, hy, rfl⟩ | rfl
      · exact h.named _ a h1
      · exact h.named _ y hy
      · rfl
    · exact h.named A a ha
  · intro A a ha b hb
    have hweak : ∀ a0, a0 ∈ lookupAlpha e.alphaNetwork A → ∀ b ∈ a0.betaNodes,
        b.prod < p ∨ (b.prod = p ∧ b.pos < (cs ++ [c]).length) := by
      intro a0 ha0 b hb
      rcases h.refs A a0 ha0 b hb with h1 | ⟨h1, h2⟩
      · exact Or.inl h1
      · right
        simp only [List.length_append, List.length_singleton]
        exact ⟨h1, by omega⟩
    rw [attached_alpha] at ha
    split at ha
    · rename_i hA
      subst hA
      rcases mem_attachNodes _ _ _ _ _ ha with h1 | ⟨y, hy, rfl⟩ | rfl
      · exact hweak a h1 b hb
      · simp only [addBeta, List.mem_append, List.mem_singleton] at hb
        rcases hb with hb | hb
        · exact hweak y hy b hb
        · subst hb
          right
          simp
      · simp only [List.mem_singleton] at hb
        subst hb
        right
        simp
    · exact hweak a ha b hb
  · rw [attached_total, h.sum]
    simp only [List.length_append, List.length_singleton]
    omega

theorem DefineInv_all (p total : Nat) (l : List Condition) :
    ∀ (cs : List Condition) (e : Engine), DefineInv p total cs e →
      DefineInv p total (cs ++ l) (attachAll p l cs.length e) := by
  induction l with
  | nil =>
    intro cs e h
    simpa [attachAll] using h
  | cons c rest ih =>
    intro cs e h
    have h1 := ih (cs ++ [c]) _ (DefineInv_step p total cs c e h)
    simp only [List.length_append, List.length_singleton, List.append_assoc,
      List.singleton_append] at h1
    exact h1

theorem mem_lookupAlpha (net : List (String × List alphaNode)) (A : String) (a : alphaNode)
    (h : a ∈ lookupAlpha net A) : ∃ entry ∈ net, entry.1 = A ∧ a ∈ entry.2 := by
  induction net with
  | nil => simp [lookupAlpha] at h
  | cons kv rest ih =>
    obtain ⟨k, v⟩ := kv
    simp only [lookupAlpha] at h
    split at h
    · rename_i hk
      exact ⟨(k, v), List.mem_cons_self _ _, hk, h⟩
    · obtain ⟨entry, h1, h2, h3⟩ := ih h
      exact ⟨entry, List.mem_cons_of_mem _ h1, h2, h3⟩

theorem allocated_update (e : Engine) (h : List alphaNode → List alphaNode) (attr : String)
    (hg : betaRefsAllocated e)
    (hh : (∀ a ∈ lookupAlpha e.alphaNetwork attr, ∀ b ∈ a.betaNodes,
        b.prod < e.productions.length) →
      ∀ a ∈ h (lookupAlpha e.alphaNetwork attr), ∀ b ∈ a.betaNodes,
        b.prod < e.productions.length) :
    betaRefsAllocated { e with alphaNetwork := updateAlpha h e.alphaNetwork attr } := by
  intro entry hentry a ha
  rcases mem_updateAlpha h e.alphaNetwork attr entry hentry with h1 | ⟨h1, h2⟩
  · exact hg entry h1 a ha
  · subst h1
    exact hh (fun b hb => hg _ h2 b hb) a ha

theorem allocated_modify (e : Engine) (g : alphaNode → alphaNode) (r : AlphaRef)
    (hg : betaRefsAllocated e)
    (hh : ∀ a, (∀ b ∈ a.betaNodes, b.prod < e.productions.length) →
      ∀ b ∈ (g a).betaNodes, b.prod < e.productions.length) :
    betaRefsAllocated
      { e with alphaNetwork := updateAlpha (fun l => l.modify g r.pos) e.alphaNetwork r.attr } := by
  refine allocated_update e _ r.attr hg ?_
  intro hall a ha
  rcases mem_modify g r.pos _ a ha with h1 | ⟨y, hy, rfl⟩
  · exact hall a h1
  · exact hh y (hall y hy)

theorem allocated_of_eq (e e1 : Engine) (h : betaRefsAllocated e)
    (heq : e1.alphaNetwork = e.alphaNetwork) (hlen : e.productions.length ≤ e1.productions.length) :
    betaRefsAllocated e1 := by
  intro entry hentry a ha b hb
  rw [heq] at hentry
  exact Nat.lt_of_lt_of_le (h entry hentry a ha b hb) hlen

theorem allocated_invariant : FactsInvariant betaRefsAllocated := by
  constructor
  · intro e e1 h heq hlen
    exact allocated_of_eq e e1 h heq (Nat.le_of_eq hlen.symm)
  · intro e r i h
    exact allocated_modify e _ r h (fun a ha => ha)

theorem allocated_store : StoreInv betaRefsAllocated := by
  intro e f i a h _ _
  exact allocated_modify e _ ⟨f.fact.Attribute, i⟩ h (fun a ha => ha)

theorem defineCondition_allocated (p i : Nat) (c : Condition) (e : Engine)
    (hp : p < e.productions.length) (h : betaRefsAllocated e) :
    wp (defineCondition p i c)
      (fun _ e1 => betaRefsAllocated e1 ∧ e1.productions.length = e.productions.length) e := by
  unfold defineCondition
  simp only [wp_bind, wp_modifyEngine]
  have h0 : betaRefsAllocated (if hasAlpha e.alphaNetwork c.Attribute = true then e
      else { e with alphaNetwork := e.alphaNetwork ++ [(c.Attribute, [])] }) ∧
      (if hasAlpha e.alphaNetwork c.Attribute = true then e
      else { e with alphaNetwork := e.alphaNetwork ++ [(c.Attribute, [])] }).productions.length
        = e.productions.length := by
    split
    · exact ⟨h, rfl⟩
    · refine ⟨?_, rfl⟩
      intro entry hentry a ha
      simp only [List.mem_append, List.mem_singleton] at hentry
      rcases hentry with h1 | h1
      · exact h entry h1 a ha
      · subst h1
        cases ha
  generalize (if hasAlpha e.alphaNetwork c.Attribute = true then e
      else { e with alphaNetwork := e.alphaNetwork ++ [(c.Attribute, [])] }) = e0 at h0
  obtain ⟨h0, hlen0⟩ := h0
  split
  · trivial
  · split
    all_goals first
      | exact ⟨h0, hlen0⟩
      | skip
    split
    · trivial
    · rename_i objConstraint _
      simp only [wp_bind, wp_getEngine]
      split
      · exact ⟨h0, hlen0⟩
      · rename_i found _
        rw [wp_bind]
        have hfirst : wp (match found with
            | some j => (pure j : M Nat)
            | none => do
              let tempNode : alphaNode :=
                ⟨c.Attribute, objConstraint, c.Comparator,
                  (match c.Value with
                    | .var _ => .nil
                    | .lit v => v), [], []⟩
              modifyEngine fun e =>
                { e with alphaNetwork :=
                    updateAlpha (fun l => l ++ [tempNode]) e.alphaNetwork c.Attribute }
              pure (lookupAlpha e0.alphaNetwork c.Attribute).length)
            (fun _ e1 => betaRefsAllocated e1 ∧ e1.productions.length = e.productions.length)
            e0 := by
          cases found with
          | some j => exact ⟨h0, hlen0⟩
          | none =>
            simp only [wp_bind, wp_modifyEngine, wp_pure]
            refine ⟨allocated_update e0 _ c.Attribute h0 ?_, hlen0⟩
            intro hall a ha
            simp only [List.mem_append, List.mem_singleton] at ha
            rcases ha with ha | ha
            · exact hall a ha
            · subst ha
              intro b hb
              cases hb
        refine wp_mono hfirst ?_
        intro pos e1 ⟨h1, hlen1⟩
        simp only [wp_bind, wp_modifyAlpha, wp_getProd]
        intro prod _
        simp only [wp_modifyProd, wp_pure]
        refine ⟨allocated_of_eq _ _ (allocated_modify e1 _ ⟨c.Attribute, pos⟩ h1 ?_) rfl
          (by simp), by simpa using hlen1⟩
        intro a ha b hb
        simp only [List.mem_append, List.mem_singleton] at hb
        rcases hb with hb | hb
        · exact ha b hb
        · subst hb
          simp only
          omega

theorem defineConditions_allocated (p : Nat) (l : List Condition) :
    ∀ (i : Nat) (e : Engine), p < e.productions.length → betaRefsAllocated e →
      wp (defineConditions p l i)
        (fun _ e1 => betaRefsAllocated e1 ∧ e1.productions.length = e.productions.length) e := by
  induction l with
  | nil =>
    intro i e _ h
    exact ⟨h, rfl⟩
  | cons c rest ih =>
    intro i e hp h
    unfold defineConditions
    simp only [wp_bind]
    refine wp_mono (defineCondition_allocated p i c e hp h) ?_
    intro err e1 ⟨h1, hlen1⟩
    split
    · exact ⟨h1, hlen1⟩
    · refine wp_mono (ih _ e1 (by omega) h1) ?_
      intro _ e2 ⟨h2, hlen2⟩
      exact ⟨h2, by omega⟩

theorem Define_allocated (r : Rule) (e : Engine) (h : betaRefsAllocated e) :
    wp (Define r) (fun _ e1 => betaRefsAllocated e1) e := by
  unfold Define
  simp only [wp_bind, wp_getEngine, wp_modifyEngine]
  refine wp_mono (defineConditions_allocated _ _ _ _ (by simp)
    (allocated_of_eq e _ h rfl (by simp))) ?_
  intro err e1 ⟨h1, _⟩
  split
  · exact h1
  · simp only [wp_bind, wp_modifyProd, wp_pure]
    exact allocated_of_eq _ _ h1 rfl (by simp)

theorem Reachable_wellFormed (e : Engine) (h : Reachable e) :
    alphaGood e ∧ betaRefsAllocated e := by
  induction h with
  | fresh os =>
    refine ⟨?_, ?_⟩
    · intro entry hentry
      cases hentry
    · intro entry hentry
      cases hentry
  | define e e1 r err _ hcall ih =>
    exact ⟨wp_ret (Define_alphaGood r e ih.1) hcall, wp_ret (Define_allocated r e ih.2) hcall⟩
  | assert e e1 fuel f err _ hcall ih =>
    exact ⟨wp_ret (Assert_inv alphaGood_invariant alphaGood_store fuel f e ih.1) hcall,
      wp_ret (Assert_inv allocated_invariant allocated_store fuel f e ih.2) hcall⟩
  | retract e e1 fuel f err _ hcall ih =>
    exact ⟨wp_ret (Retract_inv alphaGood_invariant fuel f e ih.1) hcall,
      wp_ret (Retract_inv allocated_invariant fuel f e ih.2) hcall⟩

theorem Reachable_alphaNamed (e : Engine) (h : Reachable e) : alphaNamed e :=
  fun entry hentry a ha => ((Reachable_wellFormed e h).1 entry hentry a ha).1

theorem attachStep_length (p i : Nat) (c : Condition) (e : Engine) :
    (attachStep p i c e).productions.length = e.productions.length := by
  unfold attachStep
  split
  · simp [attached]
  · rfl

theorem attachAll_length (p : Nat) (l : List Condition) :
    ∀ (i : Nat) (e : Engine), (attachAll p l i e).productions.length = e.productions.length := by
  induction l with
  | nil =>
    intro i e
    rfl
  | cons c rest ih =>
    intro i e
    simp only [attachAll]
    rw [ih, attachStep_length]

/-- Claim C23.  After `Define r` has returned without an error, on an
engine whose alpha nodes name the attribute they are registered under and
refer only to beta nodes of productions that exist (`Reachable_wellFormed`:
every engine that calls of `Define`, `Assert` and `Retract` reach is so), the
production created for `r` has exactly one beta node per LHS condition: the `i`-th has index `i`, the `alphaNot` of condition `i`, and a
parent alpha node that is registered under, and names, the attribute of
condition `i` and holds this beta node exactly once in its beta list; and the
number of beta nodes attached to alpha nodes has grown by the length of the
LHS. -/
theorem Define_beta_nodes (e e1 : Engine) (r : Rule) (hnamed : alphaNamed e)
    (halloc : betaRefsAllocated e) (h : Define r e = .ret none e1) :
    e1.productions.length = e.productions.length + 1 ∧
    (∃ node, e1.productions[e.productions.length]? = some node ∧
      node.betaNodes.length = r.LHS.length ∧
      ∀ (i : Nat) (c : Condition), r.LHS[i]? = some c → ∃ beta a,
        node.betaNodes[i]? = some beta ∧ beta.index = i ∧ beta.alphaNot = c.NotExists ∧
        beta.parentNode.attr = c.Attribute ∧
        (lookupAlpha e1.alphaNetwork beta.parentNode.attr)[beta.parentNode.pos]? = some a ∧
        a.attributeName = c.Attribute ∧ a.betaNodes.count ⟨e.productions.length, i⟩ = 1) ∧
    totalBetas e1 = totalBetas e + r.LHS.length := by
  have hstart : DefineInv e.productions.length (totalBetas e) []
      { e with productions := e.productions ++ [⟨r.Id, [], [], [], []⟩] } := by
    refine ⟨by simp, ⟨⟨r.Id, [], [], [], []⟩, by simp, rfl, ?_⟩, ?_, ?_, rfl⟩
    · intro i c hc
      simp at hc
    · intro A a ha
      obtain ⟨entry, h1, h2, h3⟩ := mem_lookupAlpha _ _ _ ha
      rw [← h2]
      exact hnamed entry h1 a h3
    · intro A a ha b hb
      obtain ⟨entry, h1, h2, h3⟩ := mem_lookupAlpha _ _ _ ha
      exact Or.inl (halloc entry h1 a h3 b hb)
  have hall := DefineInv_all e.productions.length (totalBetas e) r.LHS [] _ hstart
  simp only [List.nil_append, List.length_nil] at hall
  rw [Define_ret r e e1 h]
  unfold defined
  simp only
  have hl := attachAll_length e.productions.length r.LHS 0
    { e with productions := e.productions ++ [⟨r.Id, [], [], [], []⟩] }
  generalize attachAll e.productions.length r.LHS 0
    { e with productions := e.productions ++ [⟨r.Id, [], [], [], []⟩] } = e2 at hall hl
  obtain ⟨node, hnode, hlen, hbetas⟩ := hall.node
  refine ⟨?_, ⟨{ node with inferences := r.RHS }, ?_, hlen, ?_⟩, hall.sum⟩
  · simpa using hl
  · rw [List.getElem?_modify, hnode]
    simp
  · intro i c hc
    obtain ⟨beta, a, h1, h2, h3, h4, h5, h6⟩ := hbetas i c hc
    refine ⟨beta, a, h1, h2, h3, h4, ?_, ?_, h6⟩
    · rw [h4]
      exact h5
    · exact hall.named _ a (List.getElem?_mem h5)

theorem Define_beta_nodes_witness :
    alphaNamed firstStored ∧ betaRefsAllocated firstStored ∧
    (Define ruleDefeat firstStored).engine.productions.length
      = firstStored.productions.length + 1 ∧
    (∃ node, (Define ruleDefeat firstStored).engine.productions[firstStored.productions.length]?
        = some node ∧
      node.betaNodes.length = ruleDefeat.LHS.length ∧
      ∀ (i : Nat) (c : Condition), ruleDefeat.LHS[i]? = some c → ∃ beta a,
        node.betaNodes[i]? = some beta ∧ beta.index = i ∧ beta.alphaNot = c.NotExists ∧
        beta.parentNode.attr = c.Attribute ∧
        (lookupAlpha (Define ruleDefeat firstStored).engine.alphaNetwork
          beta.parentNode.attr)[beta.parentNode.pos]? = some a ∧
        a.attributeName = c.Attribute ∧
        a.betaNodes.count ⟨firstStored.productions.length, i⟩ = 1) ∧
    totalBetas (Define ruleDefeat firstStored).engine
      = totalBetas firstStored + ruleDefeat.LHS.length :=
  ⟨by decide!, by decide!,
    Define_beta_nodes firstStored (Define ruleDefeat firstStored).engine ruleDefeat
      (by decide!) (by decide!) (by decide!)⟩

/-! ## Claim C31: a fact for a negated condition of a production without token -/

theorem probe_append_pass (f : Fact) (rest : List alphaNode) :
    ∀ (pre : List alphaNode) (i : Nat), (∀ b ∈ pre, nodeStep f b = .skip) →
      probe f (pre ++ rest) i = probe f rest (i + pre.length) := by
  intro pre
  induction pre with
  | nil => intro i _; rfl
  | cons b pre ih =>
    intro i h
    rw [List.cons_append, probe, h b (List.mem_cons_self b pre)]
    simp only
    rw [ih (i + 1) (fun c hc => h c (List.mem_cons_of_mem b hc)), List.length_cons]
    congr 1
    omega

theorem storeNode_negated (R : Option FactPtr → M (Option Err)) (p : FactPtr) (i : Nat)
    (a : alphaNode) (e : Engine) (bref : BetaRef) (rest : List BetaRef) (P : pNode)
    (B : betaNode) (hbetas : a.betaNodes = bref :: rest)
    (hP : e.productions[bref.prod]? = some P) (hB : P.betaNodes[bref.pos]? = some B)
    (hprod : B.product = bref.prod) (hidx : B.index = bref.pos) (hneg : B.alphaNot = true)
    (htok : P.tokens = []) :
    storeNode R p i a e = .ret (.retn (some .leftActivateNilToken)) (storedAt e p i) := by
  simp [storeNode, storedAt, bind_apply, pure_apply, modifyAlpha, modifyEngine, hbetas, forList,
    rightActivate, getBeta, getProd, hP, hB, hprod, hidx, hneg, htok, forRange, addToken,
    leftActivate]

theorem forRange_probe_store_retn (R : Option FactPtr → M (Option Err)) (p : FactPtr)
    (e e1 : Engine) (i0 : Nat) (x : Option Err)
    (hstore : ∀ a, (lookupAlpha e.alphaNetwork p.fact.Attribute)[i0]? = some a →
      storeNode R p i0 a e = .ret (.retn x) e1) :
    ∀ (l : List alphaNode) (i : Nat),
      (lookupAlpha e.alphaNetwork p.fact.Attribute).drop i = l →
      probe p.fact l i = .store i0 →
      forRange (propagateNode R p) l.length i () e = .ret ((), some x) e1 := by
  intro l
  induction l with
  | nil => intro i _ h; simp [probe] at h
  | cons a rest ih =>
    intro i hdrop hprobe
    obtain ⟨hget, hrest⟩ := drop_cons_getElem? hdrop
    simp only [List.length_cons, forRange, bind_apply]
    rw [propagateNode_eq R p i e a hget]
    unfold probe at hprobe
    cases hstep : nodeStep p.fact a with
    | skip =>
      rw [hstep] at hprobe
      simp only
      exact ih (i + 1) hrest hprobe
    | fail err2 => rw [hstep] at hprobe; simp at hprobe
    | dup => rw [hstep] at hprobe; simp at hprobe
    | store =>
      rw [hstep] at hprobe
      simp only [Probe.store.injEq] at hprobe
      subst hprobe
      simp only
      rw [hstore a hget]
      rfl

theorem propagate_store_retn (R : Option FactPtr → M (Option Err)) (p : FactPtr)
    (e e1 : Engine) (i0 : Nat) (err : Err)
    (hstore : ∀ a, (lookupAlpha e.alphaNetwork p.fact.Attribute)[i0]? = some a →
      storeNode R p i0 a e = .ret (.retn (some err)) e1)
    (h : probe p.fact (lookupAlpha e.alphaNetwork p.fact.Attribute) 0 = .store i0) :
    propagate R p e = .ret (some err) e1 := by
  unfold propagate
  simp only [bind_apply, getEngine]
  rw [forRange_probe_store_retn R p e e1 i0 (some err) hstore _ 0 (by simp) h]
  rfl

/-- Claim C31 (amended).  For every engine with an empty agenda in which the
first alpha node under `f.Attribute` that does not pass over `f` (the nodes
`pre` before it do) takes `f` without finding a duplicate, and the first beta
node of this alpha node is a negated condition of a production without token:
`Assert(f)` returns the error "leftActivate: received nil token", stores `f`
in that alpha node and changes nothing else but the address counter; the
productions, and so their token lists, are as before. -/
theorem Assert_negated_without_token (k : Nat) (e : Engine) (f : Fact)
    (pre post : List alphaNode) (a : alphaNode) (bref : BetaRef) (rest : List BetaRef)
    (P : pNode) (B : betaNode) (hag : e.agenda = [])
    (hnodes : lookupAlpha e.alphaNetwork f.Attribute = pre ++ a :: post)
    (hpre : ∀ b ∈ pre, nodeStep f b = .skip) (ha : nodeStep f a = .store)
    (hbetas : a.betaNodes = bref :: rest)
    (hP : e.productions[bref.prod]? = some P) (hB : P.betaNodes[bref.pos]? = some B)
    (hprod : B.product = bref.prod) (hidx : B.index = bref.pos) (hneg : B.alphaNot = true)
    (htok : P.tokens = []) :
    Assert (k + 1) f e = .ret (some .leftActivateNilToken)
        (storedAt { e with nextAddr := e.nextAddr + 1 } ⟨e.nextAddr, f⟩ pre.length) ∧
      (storedAt { e with nextAddr := e.nextAddr + 1 } ⟨e.nextAddr, f⟩ pre.length).productions
        = e.productions ∧
      (storedAt { e with nextAddr := e.nextAddr + 1 } ⟨e.nextAddr, f⟩ pre.length).store
        = e.store ∧
      (lookupAlpha (storedAt { e with nextAddr := e.nextAddr + 1 } ⟨e.nextAddr, f⟩
          pre.length).alphaNetwork f.Attribute)[pre.length]?
        = some { a with facts := a.facts ++ [⟨e.nextAddr, f⟩] } := by
  have hprobe : probe f (lookupAlpha e.alphaNetwork f.Attribute) 0 = .store pre.length := by
    rw [hnodes, probe_append_pass f (a :: post) pre 0 hpre, probe, ha]
    simp
  have hgeta : (lookupAlpha e.alphaNetwork f.Attribute)[pre.length]? = some a := by
    rw [hnodes, List.getElem?_append_right (Nat.le_refl _)]
    simp
  refine ⟨?_, rfl, rfl, ?_⟩
  · unfold Assert
    simp only [bind_apply, newFactPtr, pushAgenda, modifyEngine, hag]
    unfold turn
    simp only [bind_apply, popAgenda, List.getLast?_singleton, List.dropLast_single]
    rw [propagate_store_retn (retract (k + 1)) ⟨e.nextAddr, f⟩
      { e with agenda := [], nextAddr := e.nextAddr + 1 }
      (storedAt { e with agenda := [], nextAddr := e.nextAddr + 1 } ⟨e.nextAddr, f⟩ pre.length)
      pre.length .leftActivateNilToken ?_ hprobe]
    · simp only [Option.isSome_some, if_true]
      obtain ⟨ag, al, nf, pr, st, na, mo⟩ := e
      simp only at hag
      subst hag
      rfl
    · intro a1 ha1
      have : a1 = a := by
        simp only at ha1
        rw [hgeta] at ha1
        exact (Option.some.inj ha1).symm
      subst this
      exact storeNode_negated _ _ _ a1 _ bref rest P B hbetas hP hB hprod hidx hneg htok
  · unfold storedAt
    simp only
    rw [lookupAlpha_updateAlpha _ (by simp), if_pos rfl, List.getElem?_modify, hgeta]
    simp

/-- Claim C31 (witness of the amended claim; the witness of the claim): the
engine with the rule IF ?x.p == ready AND ?y.p == set AND NOT _.k == true THEN
?x.ok = true and the fact (c,k,true), asserted first. -/
theorem Assert_negated_without_token_witness :
    negTwoEngine.agenda = [] ∧
    lookupAlpha negTwoEngine.alphaNetwork "k"
      = [] ++ ⟨"k", "", .EQ, .str "true", [], [⟨0, 2⟩]⟩ :: [] ∧
    (prodAt negTwoEngine 0).tokens = [] ∧ (betaAt negTwoEngine 0 2).alphaNot = true ∧
    Assert 1 ⟨"c", "k", .str "true"⟩ negTwoEngine = .ret (some .leftActivateNilToken)
        (storedAt { negTwoEngine with nextAddr := negTwoEngine.nextAddr + 1 }
          ⟨negTwoEngine.nextAddr, ⟨"c", "k", .str "true"⟩⟩ 0) ∧
    (storedAt { negTwoEngine with nextAddr := negTwoEngine.nextAddr + 1 }
        ⟨negTwoEngine.nextAddr, ⟨"c", "k", .str "true"⟩⟩ 0).productions
      = negTwoEngine.productions ∧
    (storedAt { negTwoEngine with nextAddr := negTwoEngine.nextAddr + 1 }
        ⟨negTwoEngine.nextAddr, ⟨"c", "k", .str "true"⟩⟩ 0).store
      = negTwoEngine.store ∧
    (lookupAlpha (storedAt { negTwoEngine with nextAddr := negTwoEngine.nextAddr + 1 }
        ⟨negTwoEngine.nextAddr, ⟨"c", "k", .str "true"⟩⟩ 0).alphaNetwork "k")[0]?
      = some ⟨"k", "", .EQ, .str "true", [⟨negTwoEngine.nextAddr, ⟨"c", "k", .str "true"⟩⟩],
          [⟨0, 2⟩]⟩ :=
  ⟨by decide!, by decide!, by decide!, by decide!,
    Assert_negated_without_token 0 negTwoEngine ⟨"c", "k", .str "true"⟩ [] []
      ⟨"k", "", .EQ, .str "true", [], [⟨0, 2⟩]⟩ ⟨0, 2⟩ [] (prodAt negTwoEngine 0)
      (betaAt negTwoEngine 0 2) (by decide!) (by decide!) (by simp) (by decide!) rfl
      (by decide!) (by decide!) (by decide!) (by decide!) (by decide!) (by decide!)⟩

/-- Claim C31 (counterexamples).  On a fresh engine with the rule IF ?x.k >= a
AND NOT _.k == true THEN ?x.ok = true the production has no token and the
alpha node of its negated condition takes (c,k,true), yet Assert (c,k,true)
returns no error and leaves a token in the production: the alpha node of
the positive condition comes first and takes the fact too.  And with the
rules IF ?x.p == 1 AND NOT _.k == 1 THEN ?x.ok = 7 and IF ?y.ok == 7 AND NOT
_.j == true THEN ?y.z = 1, the second defined after Assert (a,p,1), Assert
(c,k,1) and Retract (c,k,1) have left (a,ok,7) on the agenda, the second
production has no token and the alpha node of its negated condition takes
(d,j,true), yet Assert (d,j,true) returns no error and leaves a token in it:
the pending fact is propagated first.  And with the rule IF ?x.k == true AND
NOT _.k == true THEN ?x.ok = true, whose conditions share one alpha node, the
beta node of the positive condition is right-activated first and makes a
token: Assert (c,k,true) returns no error. -/
theorem Assert_negated_makes_token :
    (calls [Define ruleGeNeg] Engine.new).obs
        (fun e => (agendaFacts e, (lookupAlpha e.alphaNetwork "k").map
          (nodeStep ⟨"c", "k", .str "true"⟩), tokenLists e))
      = .ret [none] ([], [.store, .store], [[]]) ∧
    (calls [Define ruleGeNeg, Assert 9 ⟨"c", "k", .str "true"⟩] Engine.new).obs
        (fun e => (factsUnder e "k", tokenLists e, tokenSlots e))
      = .ret [none, none]
          ([[⟨1, ⟨"c", "k", .str "true"⟩⟩], [⟨1, ⟨"c", "k", .str "true"⟩⟩]], [[0]],
           [[some ⟨1, ⟨"c", "k", .str "true"⟩⟩, none]]) ∧
    (calls [Define ruleNegInt, Assert 9 ⟨"a", "p", intV 1⟩, Assert 9 ⟨"c", "k", intV 1⟩,
        Retract 9 ⟨"c", "k", intV 1⟩, Define ruleOkNeg] Engine.new).obs
        (fun e => (agendaFacts e, (lookupAlpha e.alphaNetwork "j").map
          (nodeStep ⟨"d", "j", .str "true"⟩), tokenLists e))
      = .ret [none, none, none, none, none] ([⟨"a", "ok", intV 7⟩], [.store], [[0], []]) ∧
    (calls [Define ruleNegInt, Assert 9 ⟨"a", "p", intV 1⟩, Assert 9 ⟨"c", "k", intV 1⟩,
        Retract 9 ⟨"c", "k", intV 1⟩, Define ruleOkNeg, Assert 9 ⟨"d", "j", .str "true"⟩]
        Engine.new).obs (fun e => (factsUnder e "j", tokenLists e))
      = .ret [none, none, none, none, none, none]
          ([[⟨5, ⟨"d", "j", .str "true"⟩⟩]], [[0], [1]]) ∧
    (calls [Define ruleSameNode] Engine.new).obs
        (fun e => (agendaFacts e, (lookupAlpha e.alphaNetwork "k").map
          (nodeStep ⟨"c", "k", .str "true"⟩), tokenLists e))
      = .ret [none] ([], [.store], [[]]) ∧
    (calls [Define ruleSameNode, Assert 9 ⟨"c", "k", .str "true"⟩] Engine.new).obs
        (fun e => (factsUnder e "k", tokenLists e, tokenSlots e))
      = .ret [none, none]
          ([[⟨1, ⟨"c", "k", .str "true"⟩⟩]], [[0]],
           [[some ⟨1, ⟨"c", "k", .str "true"⟩⟩, none]]) :=
  ⟨by decide!, by decide!, by decide!, by decide!, by decide!, by decide!⟩

/-! ## Claim C32: `match` compares exact kinds -/

/-- Claim C32.  `match` compares the exact Go kinds: for signed integers of
different kinds `k1` and `k2` (for example `int` and `int64`) and for floats
of different kinds, whatever the numbers, `match` returns (false, nil) under
EQ, (true, nil) under NE and the error "cannot compare ... to ..." under GE,
GT, LE and LT; and the loop of `turn` passes over an alpha node with
comparator EQ and an integer compare-to value of kind `k2` for every fact
whose value is an integer of another kind `k1`: the fact is not stored
there. -/
theorem matchOp_exact_kind (k1 k2 : IntKind) (a b : Int) (j1 j2 : FloatKind) (x y : Nat) :
    (k1 ≠ k2 →
      matchOp (.int k1 a) .EQ (.int k2 b) = (false, none) ∧
      matchOp (.int k1 a) .NE (.int k2 b) = (true, none) ∧
      matchOp (.int k1 a) .GE (.int k2 b) = (false, some (.matchKinds (.Int k1) (.Int k2) .GE)) ∧
      matchOp (.int k1 a) .GT (.int k2 b) = (false, some (.matchKinds (.Int k1) (.Int k2) .GT)) ∧
      matchOp (.int k1 a) .LE (.int k2 b) = (false, some (.matchKinds (.Int k1) (.Int k2) .LE)) ∧
      matchOp (.int k1 a) .LT (.int k2 b) = (false, some (.matchKinds (.Int k1) (.Int k2) .LT)) ∧
      ∀ (f : Fact) (node : alphaNode), f.Value = .int k1 a → node.comparator = .EQ →
        node.compareTo = .int k2 b → nodeStep f node = .skip) ∧
    (j1 ≠ j2 →
      matchOp (.float j1 x) .EQ (.float j2 y) = (false, none) ∧
      matchOp (.float j1 x) .NE (.float j2 y) = (true, none) ∧
      matchOp (.float j1 x) .GE (.float j2 y)
        = (false, some (.matchKinds (.Float j1) (.Float j2) .GE)) ∧
      matchOp (.float j1 x) .GT (.float j2 y)
        = (false, some (.matchKinds (.Float j1) (.Float j2) .GT)) ∧
      matchOp (.float j1 x) .LE (.float j2 y)
        = (false, some (.matchKinds (.Float j1) (.Float j2) .LE)) ∧
      matchOp (.float j1 x) .LT (.float j2 y)
        = (false, some (.matchKinds (.Float j1) (.Float j2) .LT))) := by
  constructor
  · intro hk
    have hkind : (Value.int k1 a).kind ≠ (Value.int k2 b).kind := by
      simp [Value.kind, hk]
    have hn : ¬ (Value.int k1 a = .nil ∧ Value.int k2 b = .nil) := by simp
    have hEQ : matchOp (.int k1 a) .EQ (.int k2 b) = (false, none) := by
      unfold matchOp
      simp only [if_neg hn, if_pos hkind]
    refine ⟨hEQ, ?_, ?_, ?_, ?_, ?_, ?_⟩
    · unfold matchOp
      simp only [if_neg hn, if_pos hkind]
    · unfold matchOp
      simp only [if_neg hn, if_pos hkind]
      rfl
    · unfold matchOp
      simp only [if_neg hn, if_pos hkind]
      rfl
    · unfold matchOp
      simp only [if_neg hn, if_pos hkind]
      rfl
    · unfold matchOp
      simp only [if_neg hn, if_pos hkind]
      rfl
    · intro f node hf hc hv
      unfold nodeStep
      split
      · rfl
      · have hnn : node.compareTo ≠ .nil := by
          rw [hv]
          simp
        rw [if_pos hnn, hf, hc, hv, hEQ]
  · intro hj
    have hkind : (Value.float j1 x).kind ≠ (Value.float j2 y).kind := by
      simp [Value.kind, hj]
    have hn : ¬ (Value.float j1 x = .nil ∧ Value.float j2 y = .nil) := by simp
    refine ⟨?_, ?_, ?_, ?_, ?_, ?_⟩ <;>
    · unfold matchOp
      simp only [if_neg hn, if_pos hkind]
      try rfl

/-- Claim C32 (witness): `int64` 42 against `int` 42, and the `float32` and
the `float64` one (bit pattern 4607182418800017408). -/
theorem matchOp_exact_kind_witness :
    (IntKind.Int64 ≠ IntKind.Int ∧
      matchOp (.int .Int64 42) .EQ (.int .Int 42) = (false, none) ∧
      matchOp (.int .Int64 42) .NE (.int .Int 42) = (true, none) ∧
      matchOp (.int .Int64 42) .GE (.int .Int 42)
        = (false, some (.matchKinds (.Int .Int64) (.Int .Int) .GE)) ∧
      matchOp (.int .Int64 42) .GT (.int .Int 42)
        = (false, some (.matchKinds (.Int .Int64) (.Int .Int) .GT)) ∧
      matchOp (.int .Int64 42) .LE (.int .Int 42)
        = (false, some (.matchKinds (.Int .Int64) (.Int .Int) .LE)) ∧
      matchOp (.int .Int64 42) .LT (.int .Int 42)
        = (false, some (.matchKinds (.Int .Int64) (.Int .Int) .LT)) ∧
      ∀ (f : Fact) (node : alphaNode), f.Value = .int .Int64 42 → node.comparator = .EQ →
        node.compareTo = .int .Int 42 → nodeStep f node = .skip) ∧
    (FloatKind.Float32 ≠ FloatKind.Float64 ∧
      matchOp (.float .Float32 4607182418800017408) .EQ (.float .Float64 4607182418800017408)
        = (false, none) ∧
      matchOp (.float .Float32 4607182418800017408) .NE (.float .Float64 4607182418800017408)
        = (true, none) ∧
      matchOp (.float .Float32 4607182418800017408) .GE (.float .Float64 4607182418800017408)
        = (false, some (.matchKinds (.Float .Float32) (.Float .Float64) .GE)) ∧
      matchOp (.float .Float32 4607182418800017408) .GT (.float .Float64 4607182418800017408)
        = (false, some (.matchKinds (.Float .Float32) (.Float .Float64) .GT)) ∧
      matchOp (.float .Float32 4607182418800017408) .LE (.float .Float64 4607182418800017408)
        = (false, some (.matchKinds (.Float .Float32) (.Float .Float64) .LE)) ∧
      matchOp (.float .Float32 4607182418800017408) .LT (.float .Float64 4607182418800017408)
        = (false, some (.matchKinds (.Float .Float32) (.Float .Float64) .LT))) :=
  ⟨⟨by decide, (matchOp_exact_kind .Int64 .Int 42 42 .Float32 .Float64 4607182418800017408
      4607182418800017408).1 (by decide)⟩,
    ⟨by decide, (matchOp_exact_kind .Int64 .Int 42 42 .Float32 .Float64 4607182418800017408
      4607182418800017408).2 (by decide)⟩⟩

/-! ## Claim C33: what a failing `Define` leaves behind -/

theorem findReusable_err (oc : String) (cmp : Operator) (v : Value) :
    ∀ (l : List alphaNode) (j : Nat) (err : Err), (findReusable oc cmp v l j).2 = some err →
      ∃ k, err = .matchCannotCompare k := by
  intro l
  induction l with
  | nil =>
    intro j err h
    simp [findReusable] at h
  | cons a rest ih =>
    intro j err h
    unfold findReusable at h
    split at h
    · rename_i x err2 hm
      simp only [Option.some.injEq] at h
      subst h
      exact matchOp_EQ_err v a.compareTo x err2 hm
    · split at h
      · cases h
      · exact ih _ _ h

/-- What the loop body of `Define` has done when it returns the error of a
`Variable` value with a comparator other than EQ. -/
theorem defineCondition_vv (p i : Nat) (c : Condition) (e e1 : Engine) (op : Operator)
    (h : defineCondition p i c e = .ret (some (.valueVariableNonEQ op)) e1) :
    c.valueVariableNonEQ = true ∧ op = c.Comparator ∧ e1 = keyed e c.Attribute := by
  have key : wp (defineCondition p i c) (fun err e1 => ∀ op, err = some (.valueVariableNonEQ op) →
      c.valueVariableNonEQ = true ∧ op = c.Comparator ∧ e1 = keyed e c.Attribute) e := by
    obtain ⟨ne, oid, attr, cmp, val⟩ := c
    unfold defineCondition
    simp only [wp_bind, wp_modifyEngine]
    have h0 : (if hasAlpha e.alphaNetwork attr = true then e
        else { e with alphaNetwork := e.alphaNetwork ++ [(attr, [])] })
          = keyed e attr := by
      unfold keyed withKey
      split <;> rfl
    rw [h0]
    split
    · trivial
    · split
      all_goals first
        | (intro op hop
           simp only [Option.some.injEq, Err.valueVariableNonEQ.injEq] at hop
           subst hop
           exact ⟨by simp [Condition.valueVariableNonEQ, Term.isVar], rfl, rfl⟩)
        | skip
      split
      · trivial
      · simp only [wp_bind, wp_getEngine]
        split
        · rename_i x err hf
          intro op hop
          simp only [Option.some.injEq] at hop
          obtain ⟨k, hk⟩ := findReusable_err _ _ _ _ _ err (by rw [hf])
          rw [hk] at hop
          cases hop
        · rename_i found hfound
          rw [wp_bind]
          apply wp_of_ret
          intro pos e2 _
          simp only [wp_bind, wp_modifyAlpha, wp_getProd]
          intro prod _
          simp only [wp_modifyProd, wp_pure]
          intro op hop
          cases hop
  exact wp_ret key h op rfl

/-- The loop body of `Define` returns an error, or crashes, at a condition
with a `Variable` value and a comparator other than EQ. -/
theorem defineCondition_none (p i : Nat) (c : Condition) (e e1 : Engine)
    (h : defineCondition p i c e = .ret none e1) : c.valueVariableNonEQ = false := by
  have key : wp (defineCondition p i c) (fun err _ => err = none →
      c.valueVariableNonEQ = false) e := by
    obtain ⟨ne, oid, attr, cmp, val⟩ := c
    unfold defineCondition
    simp only [wp_bind, wp_modifyEngine]
    split
    · trivial
    · split
      all_goals first
        | (intro hh; cases hh)
        | skip
      rename_i hx1 hx2 hx3 hx4 hx5
      have hres : (Condition.mk ne oid attr cmp val).valueVariableNonEQ = false := by
        cases val with
        | lit v => simp [Condition.valueVariableNonEQ, Term.isVar]
        | var w =>
          cases cmp
          · simp [Condition.valueVariableNonEQ, Term.isVar]
          · exact absurd rfl (fun hh => hx1 w rfl hh)
          · exact absurd rfl (fun hh => hx2 w rfl hh)
          · exact absurd rfl (fun hh => hx3 w rfl hh)
          · exact absurd rfl (fun hh => hx4 w rfl hh)
          · exact absurd rfl (fun hh => hx5 w rfl hh)
      apply wp_of_ret
      intro _ _ _ _
      exact hres
  exact wp_ret key h rfl

theorem defineConditions_vv (p : Nat) (c : Condition) (post : List Condition) (op : Operator)
    (hc : c.valueVariableNonEQ = true) :
    ∀ (pre : List Condition) (i : Nat) (e e1 : Engine),
      (∀ x ∈ pre, x.valueVariableNonEQ = false) →
      defineConditions p (pre ++ c :: post) i e = .ret (some (.valueVariableNonEQ op)) e1 →
      op = c.Comparator ∧ e1 = keyed (attachAll p pre i e) c.Attribute := by
  intro pre
  induction pre with
  | nil =>
    intro i e e1 _ h
    simp only [List.nil_append, defineConditions, bind_apply] at h
    cases hd : defineCondition p i c e with
    | crash x =>
      rw [hd] at h
      cases h
    | outOfFuel =>
      rw [hd] at h
      cases h
    | ret err e2 =>
      rw [hd] at h
      simp only at h
      cases err with
      | none =>
        have := defineCondition_none p i c e e2 hd
        rw [hc] at this
        cases this
      | some err =>
        simp only [Option.isSome_some, if_true, pure_apply, Res.ret.injEq,
          Option.some.injEq] at h
        obtain ⟨h1, h2⟩ := h
        subst h1 h2
        obtain ⟨_, k1, k2⟩ := defineCondition_vv p i c e e2 op hd
        exact ⟨k1, k2⟩
  | cons x rest ih =>
    intro i e e1 hpre h
    simp only [List.cons_append, defineConditions, bind_apply] at h
    cases hd : defineCondition p i x e with
    | crash y =>
      rw [hd] at h
      cases h
    | outOfFuel =>
      rw [hd] at h
      cases h
    | ret err e2 =>
      rw [hd] at h
      simp only at h
      cases err with
      | none =>
        simp only [Option.isSome_none, Bool.false_eq_true, if_false] at h
        have h2 := ih (i + 1) e2 e1 (fun y hy => hpre y (List.mem_cons_of_mem _ hy)) h
        rw [(defineCondition_attachStep p i x e e2 hd).1] at h2
        exact h2
      | some err =>
        simp only [Option.isSome_some, if_true, pure_apply, Res.ret.injEq,
          Option.some.injEq] at h
        obtain ⟨h1, h2⟩ := h
        subst h1 h2
        have := (defineCondition_vv p i x e e2 op hd).1
        rw [hpre x (List.mem_cons_self _ _)] at this
        cases this

theorem Define_vv (r : Rule) (pre post : List Condition) (c : Condition) (op : Operator)
    (e e1 : Engine) (hLHS : r.LHS = pre ++ c :: post)
    (hpre : ∀ x ∈ pre, x.valueVariableNonEQ = false) (hc : c.valueVariableNonEQ = true)
    (h : Define r e = .ret (some (.valueVariableNonEQ op)) e1) :
    op = c.Comparator ∧
      e1 = keyed (attachAll e.productions.length pre 0
        { e with productions := e.productions ++ [⟨r.Id, [], [], [], []⟩] }) c.Attribute := by
  unfold Define at h
  simp only [bind_apply, getEngine, modifyEngine, hLHS] at h
  cases hd : defineConditions e.productions.length (pre ++ c :: post) 0
      { e with productions := e.productions ++ [⟨r.Id, [], [], [], []⟩] } with
  | crash y =>
    rw [hd] at h
    cases h
  | outOfFuel =>
    rw [hd] at h
    cases h
  | ret err e2 =>
    rw [hd] at h
    simp only at h
    cases err with
    | none =>
      simp only [Option.isSome_none, Bool.false_eq_true, if_false, bind_apply, modifyProd,
        modifyEngine, pure_apply, Res.ret.injEq] at h
      cases h.1
    | some err =>
      simp only [Option.isSome_some, if_true, pure_apply, Res.ret.injEq,
        Option.some.injEq] at h
      obtain ⟨h1, h2⟩ := h
      subst h1 h2
      exact defineConditions_vv _ c post op hc pre 0 _ _ hpre hd

theorem lookupTests_append_key (net : List (String × List betaTest)) (v u : String)
    (hno : hasTests net v = false) : lookupTests (net ++ [(v, [])]) u = lookupTests net u := by
  induction net with
  | nil =>
    simp only [List.nil_append, lookupTests]
    split <;> rfl
  | cons kv rest ih =>
    obtain ⟨k, l⟩ := kv
    simp only [hasTests] at hno
    simp only [List.cons_append, lookupTests]
    split
    · rfl
    · by_cases hkv : k = v
      · simp [hkv] at hno
      · simp only [hkv, if_false] at hno
        exact ih hno

theorem hasTests_append_key (net : List (String × List betaTest)) (v : String)
    (l : List betaTest) : hasTests (net ++ [(v, l)]) v = true := by
  induction net with
  | nil => simp [hasTests]
  | cons kv rest ih =>
    obtain ⟨k, l2⟩ := kv
    simp only [List.cons_append, hasTests]
    split
    · rfl
    · exact ih

theorem lookupTests_updateTests (h : List betaTest → List betaTest)
    (net : List (String × List betaTest)) (v u : String) (hkey : hasTests net v = true) :
    lookupTests (updateTests h net v) u
      = if v = u then h (lookupTests net u) else lookupTests net u := by
  induction net with
  | nil => simp [hasTests] at hkey
  | cons kv rest ih =>
    obtain ⟨k, l⟩ := kv
    simp only [updateTests, lookupTests]
    by_cases hk : k = v
    · subst hk
      simp only [if_true, lookupTests]
      by_cases hu : k = u
      · simp [hu]
      · simp [hu]
    · simp only [hasTests, hk, if_false] at hkey
      simp only [hk, if_false, lookupTests]
      by_cases hu : k = u
      · subst hu
        simp [Ne.symm hk]
      · simp only [hu, if_false]
        exact ih hkey

theorem lookupTests_addTest (net : List (String × List betaTest)) (v u : String)
    (t : betaTest) :
    lookupTests (addTest net v t).2 u
      = lookupTests net u ++ (if v = u then [t] else []) := by
  unfold addTest
  simp only
  by_cases hv : hasTests net v = true
  · simp only [hv, if_true]
    rw [lookupTests_updateTests _ _ _ _ hv]
    split <;> simp
  · have hv2 : hasTests net v = false := by simpa using hv
    simp only [hv2, Bool.false_eq_true, if_false]
    rw [lookupTests_updateTests _ _ _ _ (hasTests_append_key net v []),
      lookupTests_append_key net v u hv2]
    split <;> simp

theorem newBeta_tests (p i : Nat) (c : Condition) (pos : Nat)
    (net : List (String × List betaTest)) (u : String) :
    lookupTests (newBeta p i c pos net).2 u = lookupTests net u ++ entriesAt i c u := by
  obtain ⟨ne, oid, attr, cmp, val⟩ := c
  cases oid with
  | var v =>
    cases val with
    | var w =>
      simp only [newBeta, entriesAt, lookupTests_addTest, Term.var.injEq, List.append_assoc]
    | lit lv =>
      simp only [newBeta, entriesAt, lookupTests_addTest, Term.var.injEq]
      simp
  | lit lo =>
    cases val with
    | var w =>
      simp only [newBeta, entriesAt, lookupTests_addTest, Term.var.injEq]
      simp
    | lit lv =>
      simp [newBeta, entriesAt]

theorem attachStep_prod (p i : Nat) (c : Condition) (e : Engine) (node : pNode)
    (h : e.productions[p]? = some node) :
    ∃ node1, (attachStep p i c e).productions[p]? = some node1 ∧
      node1.ruleId = node.ruleId ∧ node1.inferences = node.inferences ∧
      node1.tokens = node.tokens ∧
      ∀ u, lookupTests node1.testNetwork u = lookupTests node.testNetwork u ++ entriesAt i c u := by
  unfold attachStep
  rw [h]
  simp only [attached]
  refine ⟨{ node with
      betaNodes := node.betaNodes ++
        [(newBeta p i c (attachPos c (lookupAlpha e.alphaNetwork c.Attribute))
          node.testNetwork).1],
      testNetwork := (newBeta p i c (attachPos c (lookupAlpha e.alphaNetwork c.Attribute))
        node.testNetwork).2 }, ?_, rfl, rfl, rfl, ?_⟩
  · rw [List.getElem?_modify, h]
    simp
  · intro u
    exact newBeta_tests _ _ _ _ _ u

theorem attachAll_prod (p : Nat) (l : List Condition) :
    ∀ (i : Nat) (e : Engine) (node : pNode), e.productions[p]? = some node →
      ∃ node1, (attachAll p l i e).productions[p]? = some node1 ∧
        node1.ruleId = node.ruleId ∧ node1.inferences = node.inferences ∧
        node1.tokens = node.tokens ∧
        ∀ u, lookupTests node1.testNetwork u = lookupTests node.testNetwork u ++ testsOf l i u := by
  induction l with
  | nil =>
    intro i e node h
    exact ⟨node, h, rfl, rfl, rfl, fun u => by simp [testsOf]⟩
  | cons c rest ih =>
    intro i e node h
    obtain ⟨n1, h1, a1, a2, a3, a4⟩ := attachStep_prod p i c e node h
    obtain ⟨n2, h2, b1, b2, b3, b4⟩ := ih (i + 1) _ n1 h1
    refine ⟨n2, h2, by rw [b1, a1], by rw [b2, a2], by rw [b3, a3], ?_⟩
    intro u
    rw [b4, a4, testsOf, List.append_assoc]

/-- Claim C33.  When `Define r` returns, on an engine whose alpha nodes name
the attribute they are registered under and refer only to beta nodes of
productions that exist (`Reachable_wellFormed`: every engine that calls of
`Define`, `Assert` and `Retract` reach is so), the error of a `Variable`
value with a comparator other than EQ at the LHS condition `c` (the
conditions `pre` before it have no such value), the production list has
grown by the production of `r`, which has no inferences and no tokens, one
beta node for each condition of `pre` (index, `alphaNot`, attached once to an
alpha node registered under and naming the attribute of the condition, which
is still in the alpha network), and as test network exactly the entries of the
conditions of `pre`; the number of attached beta nodes has grown by the
length of `pre`. -/
theorem Define_fails_midway (e e1 : Engine) (r : Rule) (pre post : List Condition)
    (c : Condition) (hnamed : alphaNamed e) (halloc : betaRefsAllocated e)
    (hLHS : r.LHS = pre ++ c :: post)
    (hpre : ∀ x ∈ pre, x.valueVariableNonEQ = false) (hc : c.valueVariableNonEQ = true)
    (h : Define r e = .ret (some (.valueVariableNonEQ c.Comparator)) e1) :
    e1.productions.length = e.productions.length + 1 ∧
    (∃ node, e1.productions[e.productions.length]? = some node ∧ node.ruleId = r.Id ∧
      node.inferences = [] ∧ node.tokens = [] ∧ node.betaNodes.length = pre.length ∧
      (∀ (i : Nat) (x : Condition), pre[i]? = some x → ∃ beta a,
        node.betaNodes[i]? = some beta ∧ beta.index = i ∧ beta.alphaNot = x.NotExists ∧
        beta.parentNode.attr = x.Attribute ∧
        (lookupAlpha e1.alphaNetwork beta.parentNode.attr)[beta.parentNode.pos]? = some a ∧
        a.attributeName = x.Attribute ∧ a.betaNodes.count ⟨e.productions.length, i⟩ = 1) ∧
      ∀ u, lookupTests node.testNetwork u = testsOf pre 0 u) ∧
    totalBetas e1 = totalBetas e + pre.length := by
  obtain ⟨_, he1⟩ := Define_vv r pre post c c.Comparator e e1 hLHS hpre hc h
  have hstart : DefineInv e.productions.length (totalBetas e) []
      { e with productions := e.productions ++ [⟨r.Id, [], [], [], []⟩] } := by
    refine ⟨by simp, ⟨⟨r.Id, [], [], [], []⟩, by simp, rfl, ?_⟩, ?_, ?_, rfl⟩
    · intro i c hc
      simp at hc
    · intro A a ha
      obtain ⟨entry, h1, h2, h3⟩ := mem_lookupAlpha _ _ _ ha
      rw [← h2]
      exact hnamed entry h1 a h3
    · intro A a ha b hb
      obtain ⟨entry, h1, h2, h3⟩ := mem_lookupAlpha _ _ _ ha
      exact Or.inl (halloc entry h1 a h3 b hb)
  have hall := DefineInv_all e.productions.length (totalBetas e) pre [] _ hstart
  simp only [List.nil_append, List.length_nil] at hall
  have hl := attachAll_length e.productions.length pre 0
    { e with productions := e.productions ++ [⟨r.Id, [], [], [], []⟩] }
  obtain ⟨n1, hn1, k1, k2, k3, k4⟩ := attachAll_prod e.productions.length pre 0
    { e with productions := e.productions ++ [⟨r.Id, [], [], [], []⟩] }
    ⟨r.Id, [], [], [], []⟩ (by simp)
  generalize attachAll e.productions.length pre 0
    { e with productions := e.productions ++ [⟨r.Id, [], [], [], []⟩] } = e2
    at hall hl hn1 he1
  subst he1
  obtain ⟨node, hnode, hlen, hbetas⟩ := hall.node
  rw [hn1] at hnode
  cases hnode
  have hlook : ∀ A, lookupAlpha (keyed e2 c.Attribute).alphaNetwork A
      = lookupAlpha e2.alphaNetwork A := fun A => lookupAlpha_withKey _ _ _
  refine ⟨by simpa [keyed] using hl, ⟨n1, hn1, k1, k2, k3, hlen, ?_, ?_⟩, ?_⟩
  · intro i x hx
    obtain ⟨beta, a, h1, h2, h3, h4, h5, h6⟩ := hbetas i x hx
    refine ⟨beta, a, h1, h2, h3, h4, ?_, ?_, h6⟩
    · rw [hlook, h4]
      exact h5
    · exact hall.named _ a (List.getElem?_mem h5)
  · intro u
    rw [k4]
    simp [lookupTests]
  · have := hall.sum
    unfold totalBetas at this ⊢
    simp only [keyed]
    rw [sum_withKey]
    exact this

/-- Claim C33 (witness): the rule IF ?x.a == 1 AND NOT o.b == ?x AND ?y.c >=
?w THEN ?x.d = 1 on the engine with the rule
`ruleQGE` and the stored fact (a,q,1). -/
theorem Define_fails_midway_witness :
    alphaNamed firstStored ∧ betaRefsAllocated firstStored ∧
    ruleFailThird.LHS
      = [⟨false, .var "x", "a", .EQ, .lit (intV 1)⟩, ⟨true, .lit (.str "o"), "b", .EQ, .var "x"⟩]
        ++ ⟨false, .var "y", "c", .GE, .var "w"⟩ :: [] ∧
    Define ruleFailThird firstStored
      = .ret (some (.valueVariableNonEQ .GE)) (Define ruleFailThird firstStored).engine ∧
    (Define ruleFailThird firstStored).engine.productions.length
      = firstStored.productions.length + 1 ∧
    (∃ node, (Define ruleFailThird firstStored).engine.productions[firstStored.productions.length]?
        = some node ∧ node.ruleId = ruleFailThird.Id ∧
      node.inferences = [] ∧ node.tokens = [] ∧
      node.betaNodes.length
        = [(⟨false, .var "x", "a", .EQ, .lit (intV 1)⟩ : Condition),
            ⟨true, .lit (.str "o"), "b", .EQ, .var "x"⟩].length ∧
      (∀ (i : Nat) (x : Condition),
        [(⟨false, .var "x", "a", .EQ, .lit (intV 1)⟩ : Condition),
          ⟨true, .lit (.str "o"), "b", .EQ, .var "x"⟩][i]? = some x → ∃ beta a,
        node.betaNodes[i]? = some beta ∧ beta.index = i ∧ beta.alphaNot = x.NotExists ∧
        beta.parentNode.attr = x.Attribute ∧
        (lookupAlpha (Define ruleFailThird firstStored).engine.alphaNetwork
          beta.parentNode.attr)[beta.parentNode.pos]? = some a ∧
        a.attributeName = x.Attribute ∧
        a.betaNodes.count ⟨firstStored.productions.length, i⟩ = 1) ∧
      ∀ u, lookupTests node.testNetwork u
        = testsOf [(⟨false, .var "x", "a", .EQ, .lit (intV 1)⟩ : Condition),
            ⟨true, .lit (.str "o"), "b", .EQ, .var "x"⟩] 0 u) ∧
    totalBetas (Define ruleFailThird firstStored).engine
      = totalBetas firstStored
        + [(⟨false, .var "x", "a", .EQ, .lit (intV 1)⟩ : Condition),
            ⟨true, .lit (.str "o"), "b", .EQ, .var "x"⟩].length :=
  ⟨by decide!, by decide!, by decide, by decide!,
    Define_fails_midway firstStored (Define ruleFailThird firstStored).engine ruleFailThird
      [⟨false, .var "x", "a", .EQ, .lit (intV 1)⟩, ⟨true, .lit (.str "o"), "b", .EQ, .var "x"⟩]
      [] ⟨false, .var "y", "c", .GE, .var "w"⟩ (by decide!) (by decide!) (by decide) (by decide)
      (by decide) (by decide!)⟩

end engine
